import Mathlib

/-!
# remove_disallow / remove_base_macros: a shallow embedding

Sources: `src/cmd/remove_disallow/main.go`, and `src/remove_base_macros/main.go`
for the definitions named `RemoveBaseMacros.*`.

Modelling conventions.
* A Go `string` holding valid UTF-8 text is a `List Char`; the reader handed to
  `scan` is the whole text and delivers it without failing.  The one error of
  `bufio.Scanner` on such a reader is `bufio.ErrTooLong`: a line that fills the
  buffer of `bufio.MaxScanTokenSize` bytes before its newline is seen.
* The regular expressions of the source are values of `RE`, run by a
  backtracking matcher that lists the possible matches in the order a
  backtracking search meets them (the leftmost-first discipline of Go's
  `regexp`).
* `log.Fatalf` and run-time panics end the run; they are the `fatal` and
  `panic` results.  `return "", err` is the `err` result.
-/

namespace RemoveDisallow

/-! ## Regular expressions -/

/-- Cursor of the matcher: the character before the cursor, the text still to
read, and the text of capture group 1 once the group has closed. -/
structure Pos where
  prev : Option Char
  rest : List Char
  cap : Option (List Char)

/-- Regular expressions, as far as the source uses them. -/
inductive RE where
  | bot : RE
  | eot : RE
  | wordb : RE
  | cls (p : Char → Bool) : RE
  | eps : RE
  | seq (a b : RE) : RE
  | alt (a b : RE) : RE
  | star (a : RE) : RE
  | group (a : RE) : RE

/-- The class `\w` of Go's `regexp`: ASCII letters, digits and underscore. -/
def isWordChar (c : Char) : Bool := c.isAlphanum || c == '_'

/-- Whether an optional character is a word character (absent: no). -/
def isWordAt : Option Char → Bool
  | none => false
  | some c => isWordChar c

/-- Greedy iteration: `step` as often as possible first, then fewer times.
Every starred expression of the source consumes at least one character per
round, so `rest.length` rounds are all there can be. -/
def starRun (step : Pos → List Pos) : Nat → Pos → List Pos
  | 0, p => [p]
  | n + 1, p => (step p).flatMap (starRun step n) ++ [p]

/-- All matches of `re` starting at the cursor, in backtracking order. -/
def run : RE → Pos → List Pos
  | .bot, p => if p.prev.isNone then [p] else []
  | .eot, p => if p.rest.isEmpty then [p] else []
  | .wordb, p => if isWordAt p.prev != isWordAt p.rest.head? then [p] else []
  | .cls f, p =>
    match p.rest with
    | [] => []
    | c :: t => if f c then [{ p with prev := some c, rest := t }] else []
  | .eps, p => [p]
  | .seq a b, p => (run a p).flatMap (run b)
  | .alt a b, p => run a p ++ run b p
  | .star a, p => starRun (run a) p.rest.length p
  | .group a, p =>
    (run a p).map fun q =>
      { q with cap := some (p.rest.take (p.rest.length - q.rest.length)) }

/-- The character `c`. -/
def RE.chr (c : Char) : RE := .cls (· == c)

/-- Any character but those of `cs`: the class `[^...]`. -/
def RE.notIn (cs : List Char) : RE := .cls (fun c => !cs.contains c)

/-- The literal text `s`. -/
def RE.lit : List Char → RE
  | [] => .eps
  | c :: t => .seq (.chr c) (RE.lit t)

/-- Concatenation of a list of expressions. -/
def RE.cat : List RE → RE
  | [] => .eps
  | a :: t => .seq a (RE.cat t)

/-- Greedy `a?`. -/
def RE.opt (a : RE) : RE := .alt a .eps

/-- Greedy `a+`. -/
def RE.plus (a : RE) : RE := .seq a (.star a)

/-- Leftmost match: the first match at the earliest start that has one. -/
def findFrom (re : RE) : Option Char → List Char → Option Pos
  | prev, [] => (run re ⟨prev, [], none⟩).head?
  | prev, c :: t =>
    match (run re ⟨prev, c :: t, none⟩).head? with
    | some q => some q
    | none => findFrom re (some c) t

/-- Model of `MatchString`. -/
def matchString (re : RE) (line : List Char) : Bool := (findFrom re none line).isSome

/-- Model of `FindStringSubmatch`, reduced to `m[1]`; `none` is the `nil` result. -/
def findStringSubmatch (re : RE) (line : List Char) : Option (List Char) :=
  (findFrom re none line).map fun q => q.cap.getD []

/-! ## The patterns of the source -/

/-- Pattern `^ *DISALLOW_COPY\(([^)]*)\);`. -/
def isDisallowCopy : RE :=
  .cat [.bot, .star (.chr ' '), .lit "DISALLOW_COPY(".toList, .group (.star (.notIn [')'])),
    .lit ");".toList]

/-- Pattern `^ *DISALLOW_ASSIGN\(([^)]*)\);`. -/
def isDisallowAssign : RE :=
  .cat [.bot, .star (.chr ' '), .lit "DISALLOW_ASSIGN(".toList, .group (.star (.notIn [')'])),
    .lit ");".toList]

/-- Pattern `^ *DISALLOW_COPY_AND_ASSIGN\(([^)]*)\);`. -/
def isDisallowCopyAndAssign : RE :=
  .cat [.bot, .star (.chr ' '), .lit "DISALLOW_COPY_AND_ASSIGN(".toList,
    .group (.star (.notIn [')'])), .lit ");".toList]

/-- Pattern `^ *DISALLOW_IMPLICIT_CONSTRUCTORS\(([^)]*)\);`. -/
def isDisallowImplicitCtors : RE :=
  .cat [.bot, .star (.chr ' '), .lit "DISALLOW_IMPLICIT_CONSTRUCTORS(".toList,
    .group (.star (.notIn [')'])), .lit ");".toList]

/-- Pattern `\benum class\b`. -/
def isEnumClass : RE := .cat [.wordb, .lit "enum class".toList, .wordb]

/-- Pattern `\bclass\b(?: [^:]*)? (?:\w+::)*([^: ]*) final(?:$| (?::.*)?)`. -/
def extractClassDeclFinal : RE :=
  .cat [.wordb, .lit "class".toList, .wordb,
    .opt (.cat [.chr ' ', .star (.notIn [':'])]),
    .chr ' ',
    .star (.cat [.plus (.cls isWordChar), .lit "::".toList]),
    .group (.star (.notIn [':', ' '])),
    .lit " final".toList,
    .alt .eot (.cat [.chr ' ', .opt (.cat [.chr ':', .star (.notIn ['\n'])])])]

/-- Pattern `\bclass\b(?: [^:]*)? (?:\w+::)*([^: {]*)(?:$| {)`. -/
def extractClassDecl : RE :=
  .cat [.wordb, .lit "class".toList, .wordb,
    .opt (.cat [.chr ' ', .star (.notIn [':'])]),
    .chr ' ',
    .star (.cat [.plus (.cls isWordChar), .lit "::".toList]),
    .group (.star (.notIn [':', ' ', '\x7b'])),
    .alt .eot (.lit " \x7b".toList)]

/-- Pattern `^ *(\w+):$`. -/
def extractLabel : RE :=
  .cat [.bot, .star (.chr ' '), .group (.plus (.cls isWordChar)), .chr ':', .eot]

/-- Pattern `^ *#`. -/
def isPreprocDirective : RE := .cat [.bot, .star (.chr ' '), .chr '#']

/-! ## Line classification -/

/-- Categories of a line (`LineType`). -/
inductive LineType where
  | Unrelated
  | Empty
  | PreprocessorDirective
  | DisallowCopy
  | DisallowAssign
  | DisallowCopyAndAssign
  | DisallowImplicitConstructors
  | ClassDecl
  | Label
  deriving DecidableEq, Repr

/-- A classified line (`Line`): its category (field `Type` of the source) and the
captured text. -/
structure Line where
  typ : LineType
  Data : List Char
  deriving DecidableEq, Repr

/-- `numIndent`: the number of leading spaces, `-1` when the line has nothing
but spaces. -/
def numIndent : List Char → Int
  | [] => -1
  | c :: t =>
    if c ≠ ' ' then 0
    else if numIndent t < 0 then -1 else numIndent t + 1

/-- The names `detect` refuses as class names. -/
def badClassName (n : List Char) : Bool :=
  n == "CORE_EXPORT".toList || n == "final".toList || n == "\x7b".toList

/-- `detect`: the category of a line; `none` is the `log.Fatalf` exit. -/
def detect (line : List Char) : Option Line :=
  if matchString isPreprocDirective line then
    some ⟨.PreprocessorDirective, []⟩
  else if let some m := findStringSubmatch isDisallowCopy line then
    some ⟨.DisallowCopy, m⟩
  else if let some m := findStringSubmatch isDisallowAssign line then
    some ⟨.DisallowAssign, m⟩
  else if let some m := findStringSubmatch isDisallowCopyAndAssign line then
    some ⟨.DisallowCopyAndAssign, m⟩
  else if let some m := findStringSubmatch isDisallowImplicitCtors line then
    some ⟨.DisallowImplicitConstructors, m⟩
  else if matchString isEnumClass line then
    some ⟨.Unrelated, []⟩
  else if let some m := findStringSubmatch extractClassDeclFinal line then
    if badClassName m then none else some ⟨.ClassDecl, m⟩
  else if let some m := findStringSubmatch extractClassDecl line then
    if badClassName m then none else some ⟨.ClassDecl, m⟩
  else if let some m := findStringSubmatch extractLabel line then
    some ⟨.Label, m⟩
  else if numIndent line = -1 then
    some ⟨.Empty, []⟩
  else
    some ⟨.Unrelated, []⟩

/-! ## The scanner -/

/-- The two errors `scan` returns (source lines 110 and 112), with the values
their messages are formatted from: the invocation, its line number, the owner
line and its line number (both one-based, as printed). -/
inductive ScanError where
  | mismatches (l : Line) (lineNo : Nat) (owner : Line) (ownerNo : Nat)
  | differs (l : Line) (lineNo : Nat) (owner : Line) (ownerNo : Nat)
  | ErrTooLong
  deriving DecidableEq, Repr

/-- How a run ends: `ok` is `return out, nil`, `err` is `return "", err`,
`fatal` is the `log.Fatalf` exit inside `detect`, `panic` is a Go run-time
panic (an index out of range). -/
inductive Result (α : Type) where
  | ok (a : α) : Result α
  | err (e : ScanError) : Result α
  | fatal : Result α
  | panic : Result α
  deriving DecidableEq

/-- Sequencing of results. -/
def Result.bind {α β : Type} (r : Result α) (f : α → Result β) : Result β :=
  match r with
  | .ok a => f a
  | .err m => .err m
  | .fatal => .fatal
  | .panic => .panic

/-- Indexing `xs[i]` as Go does it: out of range panics. -/
def idx {α : Type} (xs : List α) (i : Nat) : Result α :=
  match xs[i]? with
  | some a => .ok a
  | none => .panic

/-- `Action` of the source. -/
inductive Action where
  | Add
  | Rem
  deriving DecidableEq, Repr

/-- `Change` of the source; an omitted field is Go's zero value. -/
structure Change where
  Action : Action
  From : Nat
  To : Nat
  Data : List Char
  deriving DecidableEq, Repr

/-- `scannerState` of the source. -/
structure scannerState where
  startOfIndent : List Nat
  labels : Nat → List Nat
  changes : List Change

/-- `dropCR` of `bufio`: a trailing carriage return is cut off. -/
def dropCR (l : List Char) : List Char :=
  if l.getLast? = some '\r' then l.dropLast else l

/-- The text cut at every newline; the last piece is what follows the last
newline. -/
def splitNL : List Char → List (List Char)
  | [] => [[]]
  | c :: t =>
    if c = '\n' then [] :: splitNL t
    else
      match splitNL t with
      | [] => [[c]]
      | s :: ss => (c :: s) :: ss

/-- The lines of a text as `bufio.ScanLines` cuts them: pieces ended by a
newline, and the unterminated rest when it is not empty, each without its
trailing carriage return.  These are the lines `bufio.Scanner` yields when
every one of them fits its buffer. -/
def scanLines (text : List Char) : List (List Char) :=
  let segs := splitNL text
  (if segs.getLast? = some [] then segs.dropLast else segs).map dropCR

/-- The constant `bufio.MaxScanTokenSize`: the size the buffer of the scanner
grows to. -/
def maxScanTokenSize : Nat := 64 * 1024

/-- The length of a Go string in bytes. -/
def byteLen (l : List Char) : Nat := (l.map Char.utf8Size).sum

/-- Whether `s.Err()` is `bufio.ErrTooLong` after the loop over `s.Scan()`: some
piece between two newlines (its carriage return included) has
`maxScanTokenSize` bytes or more, so it fills the buffer before its newline or
the end of the text is seen. -/
def tooLong (text : List Char) : Bool :=
  (splitNL text).any fun seg => decide (maxScanTokenSize ≤ byteLen seg)

/-- The lines `s.Scan()` yields before it returns `false`: all lines of the
text, or the lines before the first one that does not fit the buffer. -/
def scannedLines (text : List Char) : List (List Char) :=
  if tooLong text then
    ((splitNL text).takeWhile fun seg => decide (byteLen seg < maxScanTokenSize)).map dropCR
  else scanLines text

/-- One update of the indentation stack at a line of depth `ind` (source lines
58-64): pad with the line number while `ind >= len`, cut to `ind+1` entries,
write slot `ind`. -/
def track (st : List Nat) (ind lineNum : Nat) : List Nat :=
  let st := st ++ List.replicate (ind + 1 - st.length) lineNum
  (st.take (ind + 1)).set ind lineNum

/-- The map `labels` with `v` appended at key `k`. -/
def addLabel (labels : Nat → List Nat) (k v : Nat) : Nat → List Nat :=
  fun j => if j = k then labels k ++ [v] else labels j

/-- Body of the first loop of `scan` (source lines 43-72) at line `lineNum`. -/
def body1 (line : List Char) (lineNum : Nat) (lineStuff : List Line) (st : scannerState) :
    Result (List Line × scannerState) :=
  match detect line with
  | none => .fatal
  | some l =>
    let ind := numIndent line
    let lineStuff := lineStuff ++ [l]
    if l.typ = .Empty ∨ l.typ = .PreprocessorDirective then .ok (lineStuff, st)
    else if ind ≥ (st.startOfIndent.length : Int) + 2 then .ok (lineStuff, st)
    else if ind < 0 then .panic
    else
      let d := ind.toNat
      let st := { st with startOfIndent := track st.startOfIndent d lineNum }
      if l.typ = .Label then
        if d = 0 then .panic
        else
          (idx st.startOfIndent (d - 1)).bind fun minusOne =>
          (idx lineStuff minusOne).bind fun minusOneData =>
          if minusOneData.typ = .ClassDecl then
            .ok (lineStuff, { st with labels := addLabel st.labels minusOne lineNum })
          else .ok (lineStuff, st)
      else .ok (lineStuff, st)

/-- First loop of `scan` (source lines 42-73), from line `lineNum` on. -/
def pass1 : List (List Char) → Nat → List Line → scannerState →
    Result (List Line × scannerState)
  | [], _, lineStuff, st => .ok (lineStuff, st)
  | line :: more, lineNum, lineStuff, st =>
    (body1 line lineNum lineStuff st).bind fun (lineStuff, st) =>
    pass1 more (lineNum + 1) lineStuff st

/-- The loop of source lines 119-132: the earliest label and the earliest label
named `public` among the recorded labels (`none` is `-1`). -/
def firstLabels (lineStuff : List Line) :
    List Nat → Option Nat → Option Nat → Result (Option Nat × Option Nat)
  | [], firstLabel, firstPublic => .ok (firstLabel, firstPublic)
  | labelLine :: more, firstLabel, firstPublic =>
    (idx lineStuff labelLine).bind fun data =>
    if data.typ = .Label then
      firstLabels lineStuff more
        (if firstLabel.isNone then some labelLine else firstLabel)
        (if data.Data = "public".toList ∧ firstPublic.isNone then some labelLine
          else firstPublic)
    else
      firstLabels lineStuff more firstLabel firstPublic

/-- The table `replacements` applied by `fmt.Sprintf` to the type name `t` and
the indentation `ind` (arguments `%[1]s` and `%[2]s`). -/
def replacements (ty : LineType) (t ind : List Char) : List Char :=
  match ty with
  | .DisallowCopy => ind ++ t ++ "(const ".toList ++ t ++ "&) = delete;".toList
  | .DisallowAssign => ind ++ t ++ "& operator=(const ".toList ++ t ++ "&) = delete;".toList
  | .DisallowCopyAndAssign =>
    ind ++ t ++ "(const ".toList ++ t ++ "&) = delete;\n".toList ++
    (ind ++ t ++ "& operator=(const ".toList ++ t ++ "&) = delete;".toList)
  | .DisallowImplicitConstructors =>
    ind ++ t ++ "() = delete;\n".toList ++
    (ind ++ t ++ "(const ".toList ++ t ++ "&) = delete;\n".toList) ++
    (ind ++ t ++ "& operator=(const ".toList ++ t ++ "&) = delete;".toList)
  | _ => []

/-- Whether a category is one of the four macro invocations. -/
def LineType.isDisallow (ty : LineType) : Bool :=
  ty = .DisallowCopy ∨ ty = .DisallowAssign ∨ ty = .DisallowCopyAndAssign ∨
    ty = .DisallowImplicitConstructors

/-- The text of the `Add` change for invocation `l` at depth `ind`: the
expansion, behind a synthesized `public:` line unless a `public` label exists
(source lines 139-157). -/
def addData (l : Line) (ind : Nat) (withLabel : Bool) : List Char :=
  let indentStr := List.replicate ind ' '
  if withLabel then
    indentStr.take (ind - 1) ++ "public:\n".toList ++ replacements l.typ l.Data indentStr
  else replacements l.typ l.Data indentStr

/-- The branch of the second loop for a macro invocation `l` at line `lineNum`
and depth `ind >= 2` (source lines 105-158): the two changes it appends. -/
def plan (lineStuff : List Line) (labels : Nat → List Nat) (st : List Nat)
    (l : Line) (lineNum ind : Nat) : Result (List Change) :=
  (idx st (ind - 2)).bind fun minusTwo =>
  (idx lineStuff minusTwo).bind fun minusTwoData =>
  if minusTwoData.typ ≠ .ClassDecl then
    .err (.mismatches l (lineNum + 1) minusTwoData (minusTwo + 1))
  else if l.Data ≠ minusTwoData.Data then
    .err (.differs l (lineNum + 1) minusTwoData (minusTwo + 1))
  else
    (idx st (ind - 1)).bind fun minusOne =>
    (idx lineStuff minusOne).bind fun _ =>
    (firstLabels lineStuff (labels minusTwo) none none).bind fun found =>
    let rem : Change := { Action := .Rem, From := lineNum, To := 0, Data := [] }
    match found with
    | (_, some firstPublic) =>
      .ok [rem, { Action := .Add, From := 0, To := firstPublic + 1, Data := addData l ind false }]
    | (some firstLabel, none) =>
      .ok [rem, { Action := .Add, From := 0, To := firstLabel, Data := addData l ind true }]
    | (none, none) =>
      .ok [rem, { Action := .Add, From := 0, To := minusTwo + 1, Data := addData l ind true }]

/-- Body of the second loop of `scan` (source lines 80-160) at line `lineNum`. -/
def body2 (lineStuff : List Line) (line : List Char) (lineNum : Nat) (st : scannerState) :
    Result scannerState :=
  (idx lineStuff lineNum).bind fun l =>
  let ind := numIndent line
  if l.typ = .Empty ∨ l.typ = .PreprocessorDirective then .ok st
  else if ind ≥ (st.startOfIndent.length : Int) + 2 then .ok st
  else if ind < 0 then .panic
  else
    let d := ind.toNat
    let st := { st with startOfIndent := track st.startOfIndent d lineNum }
    if l.typ.isDisallow then
      if d < 2 then .ok st
      else
        (plan lineStuff st.labels st.startOfIndent l lineNum d).bind fun cs =>
        .ok { st with changes := st.changes ++ cs }
    else .ok st

/-- Second loop of `scan` (source lines 79-161), from line `lineNum` on. -/
def pass2 (lineStuff : List Line) : List (List Char) → Nat → scannerState → Result scannerState
  | [], _, st => .ok st
  | line :: more, lineNum, st =>
    (body2 lineStuff line lineNum st).bind fun st => pass2 lineStuff more (lineNum + 1) st

/-- The marker `remSentinel`. -/
def remSentinel : List Char := "!!!REM!!!".toList

/-- One round of the loop over the changes (source lines 168-179). -/
def applyChange (lines : List (List Char)) (chg : Change) : Result (List (List Char)) :=
  match chg.Action with
  | .Rem =>
    if chg.From < lines.length then .ok (lines.set chg.From remSentinel) else .panic
  | .Add =>
    (idx lines chg.To).bind fun cur =>
    if cur = remSentinel then .ok (lines.set chg.To chg.Data)
    else .ok (lines.set chg.To (chg.Data ++ '\n' :: cur))

/-- The loop over the changes. -/
def applyChanges : List Change → List (List Char) → Result (List (List Char))
  | [], lines => .ok lines
  | chg :: more, lines => (applyChange lines chg).bind (applyChanges more)

/-- The final loop (source lines 180-187): every line that is not the marker,
followed by a newline. -/
def render : List (List Char) → List Char
  | [] => []
  | line :: more => if line = remSentinel then render more else line ++ '\n' :: render more

/-- The state in which `scan` starts each loop. -/
def initState : scannerState := { startOfIndent := [0], labels := fun _ => [], changes := [] }

/-- The two loops of `scan` (source lines 36-161): the planned changes. -/
def planChanges (lines : List (List Char)) : Result (List Change) :=
  (pass1 lines 0 [] initState).bind fun (lineStuff, st) =>
  (pass2 lineStuff lines 0 { st with startOfIndent := [0] }).bind fun st =>
  .ok st.changes

/-- What `scan` makes of the lines when the scanner has yielded them without
error: the two loops and the patch applier (source lines 42-73 and 78-189). -/
def scanOfLines (lines : List (List Char)) : Result (List Char) :=
  (planChanges lines).bind fun changes =>
  if changes.length = 0 then .ok []
  else (applyChanges changes lines).bind fun lines => .ok (render lines)

/-- `scan` of remove_disallow on the text of the reader (source lines 34-190):
the first loop over the lines the scanner yields, the return of the scanner's
error, the second loop, the patch applier. -/
def scan (r : String) : Result String :=
  (pass1 (scannedLines r.toList) 0 [] initState).bind fun (lineStuff, st) =>
  if tooLong r.toList then .err .ErrTooLong
  else
    (pass2 lineStuff (scannedLines r.toList) 0 { st with startOfIndent := [0] }).bind fun st =>
    if st.changes.length = 0 then .ok ""
    else
      (applyChanges st.changes (scannedLines r.toList)).bind fun lines =>
      .ok (String.mk (render lines))

/-! ## Notions used to state the properties -/

/-- The line a change targets: `From` of a `Rem`, `To` of an `Add`. -/
def Change.target (chg : Change) : Nat :=
  match chg.Action with
  | .Rem => chg.From
  | .Add => chg.To

/-- What one change makes of the content `cur` of the line it targets. -/
def cellStep (cur : List Char) (chg : Change) : List Char :=
  match chg.Action with
  | .Rem => remSentinel
  | .Add => if cur = remSentinel then chg.Data else chg.Data ++ '\n' :: cur

/-- What the changes, applied in order, make of the content `cur` of line `j`. -/
def cell (j : Nat) : List Change → List Char → List Char
  | [], cur => cur
  | chg :: more, cur => cell j more (if chg.target = j then cellStep cur chg else cur)

/-- The texts of the `Add` changes that target line `j`, in emission order. -/
def insertsTo (j : Nat) (cs : List Change) : List (List Char) :=
  (cs.filter fun chg => chg.Action = .Add ∧ chg.To = j).map (·.Data)

/-- One line followed by its newline, as the final loop writes it. -/
def withNL (l : List Char) : List Char := l ++ ['\n']

/-- The depth of a line as a natural number (`0` for a blank line). -/
def depth (line : List Char) : Nat := (numIndent line).toNat

/-- Whether the tracker takes a line into account when the stack is `st`: the
line is classified, is neither Empty nor a directive, and is not a
continuation (`ind >= len(stack)+2`). -/
def eligible (st : List Nat) (line : List Char) : Bool :=
  match detect line with
  | none => false
  | some l =>
    l.typ ≠ .Empty ∧ l.typ ≠ .PreprocessorDirective ∧ numIndent line < (st.length : Int) + 2

/-- The stack after the tracker has seen `line` with number `lineNum`. -/
def visit (st : List Nat) (line : List Char) (lineNum : Nat) : List Nat :=
  if eligible st line then track st (depth line) lineNum else st

/-- The stack after the tracker has seen `lines`, numbered from `lineNum`. -/
def stackOf : List (List Char) → Nat → List Nat → List Nat
  | [], _, st => st
  | line :: more, lineNum, st => stackOf more (lineNum + 1) (visit st line lineNum)

/-- The stack when the loop reaches line `k`. -/
def stackBefore (lines : List (List Char)) (k : Nat) : List Nat :=
  stackOf (lines.take k) 0 [0]

/-- The stack right after the tracker update for line `k`. -/
def stackAt (lines : List (List Char)) (k : Nat) : List Nat :=
  stackOf (lines.take (k + 1)) 0 [0]

/-- The category and payload of line `k` (`Unrelated` out of range or when
`detect` aborts). -/
def lineAt (lines : List (List Char)) (k : Nat) : Line :=
  ((lines[k]?).bind detect).getD ⟨.Unrelated, []⟩

/-- Whether a line is classified as one of the four macro invocations. -/
def isMacroLine (line : List Char) : Bool :=
  match detect line with
  | none => false
  | some l => l.typ.isDisallow

/-- Whether line `k` is a macro invocation the second loop processes: it is
structurally eligible and its depth is at least 2. -/
def processed (lines : List (List Char)) (k : Nat) : Bool :=
  match lines[k]? with
  | none => false
  | some line => isMacroLine line && eligible (stackBefore lines k) line && decide (2 ≤ depth line)

/-- The owner line of line `k`: the stack entry two levels up (`stack[d-2]`). -/
def ownerOf (lines : List (List Char)) (k : Nat) : Nat :=
  (stackAt lines k).getD (depth (lines.getD k []) - 2) 0

/-- The categories of the lines, as the first loop stores them in `lineStuff`. -/
def classify (lines : List (List Char)) : List Line := lines.filterMap detect

/-- The labels the first loop records (the empty map when it does not finish). -/
def labelsOf (lines : List (List Char)) : Nat → List Nat :=
  match pass1 lines 0 [] initState with
  | .ok (_, st) => st.labels
  | _ => fun _ => []

/-- What the second loop does at line `k`: the result of `plan` for a processed
invocation, no change for any other line. -/
def changesAt (lines : List (List Char)) (labels : Nat → List Nat) (k : Nat) :
    Result (List Change) :=
  if processed lines k then
    plan (classify lines) labels (stackAt lines k) (lineAt lines k) k (depth (lines.getD k []))
  else .ok []

/-- Results in sequence: the first that is not `ok` ends the run. -/
def seqR : List (Result (List Change)) → Result (List Change)
  | [] => .ok []
  | r :: rs => r.bind fun a => (seqR rs).bind fun b => .ok (a ++ b)

/-- The classified owner line of line `k`. -/
def ownerLine (lines : List (List Char)) (k : Nat) : Line := lineAt lines (ownerOf lines k)

/-- The structural mismatch of source lines 109-113 at invocation `k`: the owner
is not a class declaration, or its name is not the argument. -/
def mismatch (lines : List (List Char)) (k : Nat) : Bool :=
  (ownerLine lines k).typ ≠ .ClassDecl ∨ (lineAt lines k).Data ≠ (ownerLine lines k).Data

/-- The error returned for a mismatch at invocation `k`. -/
def errorAt (lines : List (List Char)) (k : Nat) : ScanError :=
  if (ownerLine lines k).typ ≠ .ClassDecl then
    .mismatches (lineAt lines k) (k + 1) (ownerLine lines k) (ownerOf lines k + 1)
  else .differs (lineAt lines k) (k + 1) (ownerLine lines k) (ownerOf lines k + 1)

/-- The earliest label recorded for the type declared at line `o`. -/
def firstLabelOf (lines : List (List Char)) (o : Nat) : Option Nat := (labelsOf lines o).head?

/-- The earliest label named `public` recorded for the type declared at line `o`. -/
def firstPublicOf (lines : List (List Char)) (o : Nat) : Option Nat :=
  (labelsOf lines o).find? fun x => decide ((lineAt lines x).Data = "public".toList)

/-- The line the `Add` change of invocation `k` targets (source lines 140-157). -/
def targetOf (lines : List (List Char)) (k : Nat) : Nat :=
  match firstPublicOf lines (ownerOf lines k), firstLabelOf lines (ownerOf lines k) with
  | some fp, _ => fp + 1
  | none, some fl => fl
  | none, none => ownerOf lines k + 1

/-- The `Rem` change of invocation `k`. -/
def remOf (k : Nat) : Change := { Action := .Rem, From := k, To := 0, Data := [] }

/-- The `Add` change of invocation `k`. -/
def addOf (lines : List (List Char)) (k : Nat) : Change :=
  { Action := .Add, From := 0, To := targetOf lines k,
    Data := addData (lineAt lines k) (depth (lines.getD k []))
      (firstPublicOf lines (ownerOf lines k)).isNone }

/-- The changes line `k` contributes when no mismatch stops the run. -/
def plannedAt (lines : List (List Char)) (k : Nat) : List Change :=
  if processed lines k then [remOf k, addOf lines k] else []

/-- Whether a line is classified as a visibility label. -/
def isLabelLine (line : List Char) : Bool :=
  match detect line with
  | none => false
  | some l => l.typ = .Label

/-- The condition under which the first loop finishes: `detect` classifies every
line, and no label line sits at depth 0. -/
def firstLoopFinishes (lines : List (List Char)) : Prop :=
  ∀ line ∈ lines, (detect line).isSome = true ∧ (isLabelLine line = true → numIndent line ≠ 0)

instance (lines : List (List Char)) : Decidable (firstLoopFinishes lines) := by
  unfold firstLoopFinishes
  infer_instance

/-- Whether `re` can match a text made of spaces only (an over-approximation). -/
def spaceOnly : RE → Bool
  | .bot => true
  | .eot => true
  | .wordb => true
  | .cls f => f ' '
  | .eps => true
  | .seq a b => spaceOnly a && spaceOnly b
  | .alt a b => spaceOnly a || spaceOnly b
  | .star _ => true
  | .group a => spaceOnly a

/-- The line sequence after all changes: line `j` holds `cell j cs` of its
original content. -/
def cells (cs : List Change) (lines : List (List Char)) : List (List Char) :=
  (List.range lines.length).map fun j => cell j cs (lines.getD j [])

/-- What the final loop writes for one line: nothing for the marker. -/
def block (l : List Char) : List Char := if l = remSentinel then [] else withNL l

/-- Whether `re` has no capture group. -/
def noGroup : RE → Bool
  | .bot => true
  | .eot => true
  | .wordb => true
  | .cls _ => true
  | .eps => true
  | .seq a b => noGroup a && noGroup b
  | .alt a b => noGroup a && noGroup b
  | .star a => noGroup a
  | .group _ => false

/-- The character that follows the first `)` of a text. -/
def afterParen : List Char → Option Char
  | [] => none
  | c :: t => if c = ')' then t.head? else afterParen t

/-- Whether a space directly follows an `s` in `text`, `prev` being the
character before it. -/
def spaceAfterS (prev : Char) : List Char → Bool
  | [] => false
  | c :: t => (prev == 's' && c == ' ') || spaceAfterS c t

/-- The pieces of a text joined by newlines. -/
def joinNL : List (List Char) → List Char
  | [] => []
  | [a] => a
  | a :: b :: t => a ++ '\n' :: joinNL (b :: t)

/-- The lines of the expansion of a macro invocation of category `ty` for the
type name `t` at indentation `ind`. -/
def expansionLines (ty : LineType) (t ind : List Char) : List (List Char) :=
  match ty with
  | .DisallowCopy => [ind ++ t ++ "(const ".toList ++ t ++ "&) = delete;".toList]
  | .DisallowAssign => [ind ++ t ++ "& operator=(const ".toList ++ t ++ "&) = delete;".toList]
  | .DisallowCopyAndAssign =>
    [ind ++ t ++ "(const ".toList ++ t ++ "&) = delete;".toList,
     ind ++ t ++ "& operator=(const ".toList ++ t ++ "&) = delete;".toList]
  | .DisallowImplicitConstructors =>
    [ind ++ t ++ "() = delete;".toList,
     ind ++ t ++ "(const ".toList ++ t ++ "&) = delete;".toList,
     ind ++ t ++ "& operator=(const ".toList ++ t ++ "&) = delete;".toList]
  | _ => []

/-- The lines of the text of an `Add` change. -/
def dataLines (l : Line) (ind : Nat) (withLabel : Bool) : List (List Char) :=
  (if withLabel then [List.replicate (ind - 1) ' ' ++ "public:".toList] else []) ++
    expansionLines l.typ l.Data (List.replicate ind ' ')

/-- The four shapes of an inserted line: the synthesized label, the deleted
copy constructor, assignment operator and default constructor. -/
def IsDataLine (t : List Char) (d : Nat) (e : List Char) : Prop :=
  e = List.replicate (d - 1) ' ' ++ "public:".toList ∨
  e = List.replicate d ' ' ++ (t ++ '(' :: ("const ".toList ++ (t ++ "&) = delete;".toList))) ∨
  e = List.replicate d ' ' ++ (t ++ '&' :: (" operator=(const ".toList ++
    (t ++ "&) = delete;".toList))) ∨
  e = List.replicate d ' ' ++ (t ++ '(' :: ") = delete;".toList)

/-- The text ends with the character `c`. -/
def EndsWith (c : Char) (e : List Char) : Prop := ∃ u, e = u ++ [c]

/-- The content of a line slot is the marker, or lines taken from `A` joined by
newlines. -/
def Shape (A : List Char → Prop) (v : List Char) : Prop :=
  v = remSentinel ∨ ∃ ps : List (List Char), ps ≠ [] ∧ v = joinNL ps ∧ ∀ p ∈ ps, A p

/-- The lines that may stand in the output: the input lines that are not
processed invocations, and the lines of the inserted texts. -/
def Kept (lines : List (List Char)) (p : List Char) : Prop :=
  (∃ j, j < lines.length ∧ processed lines j = false ∧ p = lines.getD j []) ∨
  ∃ k b, processed lines k = true ∧ p ∈ dataLines (lineAt lines k) (depth (lines.getD k [])) b

/-- The name captured by the first type-declaration pattern that matches the
line: the pattern with `final` is tried before the plain one. -/
def firstClassName (line : List Char) : Option (List Char) :=
  match findStringSubmatch extractClassDeclFinal line with
  | some m => some m
  | none => findStringSubmatch extractClassDecl line

/-- Whether one of the four macro patterns matches the line. -/
def matchesMacro (line : List Char) : Bool :=
  (findStringSubmatch isDisallowCopy line).isSome ||
  (findStringSubmatch isDisallowAssign line).isSome ||
  (findStringSubmatch isDisallowCopyAndAssign line).isSome ||
  (findStringSubmatch isDisallowImplicitCtors line).isSome

/-- Whether a line sits at depth 0 and is neither Empty nor a directive: the
lines that write slot 0 of the indentation stack. -/
def topLevel (line : List Char) : Bool :=
  match detect line with
  | none => false
  | some l => l.typ ≠ .Empty ∧ l.typ ≠ .PreprocessorDirective ∧ numIndent line = 0

/-- The number of the latest `topLevel` line among `lines`, numbered from
`lineNum`; `cur` when there is none. -/
def lastTopLevel : List (List Char) → Nat → Nat → Nat
  | [], _, cur => cur
  | line :: more, lineNum, cur =>
    lastTopLevel more (lineNum + 1) (if topLevel line then lineNum else cur)

/-- The indentation stack the first loop ends with (`none` when it does not
finish). -/
def stackAfterPass1 (lines : List (List Char)) : Option (List Nat) :=
  match pass1 lines 0 [] initState with
  | .ok (_, st) => some st.startOfIndent
  | _ => none

/-- The indentation stack the second loop ends with (`none` when one of the
loops does not finish). -/
def stackAfterPass2 (lines : List (List Char)) : Option (List Nat) :=
  match pass1 lines 0 [] initState with
  | .ok (lineStuff, st) =>
    match pass2 lineStuff lines 0 { st with startOfIndent := [0] } with
    | .ok st => some st.startOfIndent
    | _ => none
  | _ => none

/-- Whether the label line `x` belongs in the registry under line `o`: line `x`
is a visibility label, is structurally eligible, has depth `d >= 1`, `o` is the
stack entry at depth `d - 1` right after the tracker update for `x`, and line
`o` is classified as a type declaration. -/
def recordedUnder (lines : List (List Char)) (o x : Nat) : Bool :=
  match lines[x]? with
  | none => false
  | some line =>
    isLabelLine line && eligible (stackBefore lines x) line && decide (1 ≤ depth line) &&
      decide ((stackAt lines x)[depth line - 1]? = some o) &&
      decide ((lineAt lines o).typ = .ClassDecl)

/-- How the first loop ends: `ok` when it finishes, `fatal` when `detect`
aborts, `panic` on an index out of range. -/
def pass1Outcome (lines : List (List Char)) : Result Unit :=
  (pass1 lines 0 [] initState).bind fun _ => .ok ()

/-- The character before the position reached from one with `prev` before it by
reading `s`. -/
def prevAfter (prev : Option Char) : List Char → Option Char
  | [] => prev
  | c :: t => prevAfter (some c) t

/-! ## The scanner of remove_base_macros -/

/-- The constant `includeBaseMacros` of remove_base_macros. -/
def RemoveBaseMacros.includeBaseMacros : List Char := "#include \"base/macros.h\"".toList

/-- The pattern `baseMacroUsage` of remove_base_macros. -/
def RemoveBaseMacros.baseMacroUsage : RE :=
  .cat [.wordb,
    .alt (.lit "ignore_result".toList)
      (.seq (.lit "DISALLOW_".toList)
        (.alt (.lit "COPY".toList) (.alt (.lit "ASSIGN".toList)
          (.alt (.lit "COPY_AND_ASSIGN".toList) (.lit "IMPLICIT_CONSTRUCTORS".toList))))),
    .wordb]

/-- The first loop of `scan` of remove_base_macros (source lines 23-28): the
flags `seenInclude` and `seenUsage` after the lines. -/
def RemoveBaseMacros.seen : List (List Char) → Bool × Bool → Bool × Bool
  | [], flags => flags
  | line :: more, (seenInclude, seenUsage) =>
    RemoveBaseMacros.seen more
      (seenInclude || decide (line = RemoveBaseMacros.includeBaseMacros),
        seenUsage || matchString RemoveBaseMacros.baseMacroUsage line)

/-- The second loop of `scan` of remove_base_macros (source lines 33-40): every
line that is not the directive, followed by a newline. -/
def RemoveBaseMacros.build : List (List Char) → List Char
  | [] => []
  | line :: more =>
    if line = RemoveBaseMacros.includeBaseMacros then RemoveBaseMacros.build more
    else line ++ '\n' :: RemoveBaseMacros.build more

/-- `scan` of remove_base_macros on the text of the reader (source lines
19-42): the loop over the lines the scanner yields, the early return with the
scanner's error (`nil` or `bufio.ErrTooLong`), the second loop. -/
def RemoveBaseMacros.scan (r : String) : Result String :=
  match RemoveBaseMacros.seen (scannedLines r.toList) (false, false) with
  | (seenInclude, seenUsage) =>
    if !seenInclude || seenUsage || tooLong r.toList then
      if tooLong r.toList then .err .ErrTooLong else .ok ""
    else .ok (String.mk (RemoveBaseMacros.build (scannedLines r.toList)))

/-- The five names the specification lists for remove_base_macros. -/
def RemoveBaseMacros.macroWords : List (List Char) :=
  ["ignore_result".toList, "DISALLOW_COPY".toList, "DISALLOW_ASSIGN".toList,
    "DISALLOW_COPY_AND_ASSIGN".toList, "DISALLOW_IMPLICIT_CONSTRUCTORS".toList]

/-- Whether `w` stands as a whole word at the start of `suf`, `prev` being the
character before: no word character (letter, digit, underscore) before it and
none after it. -/
def wordAt (w : List Char) (prev : Option Char) (suf : List Char) : Bool :=
  !isWordAt prev && w.isPrefixOf suf && !isWordAt (suf.drop w.length).head?

/-- Whether `w` occurs as a whole word somewhere in a text that `prev`
precedes. -/
def containsWord (w : List Char) : Option Char → List Char → Bool
  | prev, [] => wordAt w prev []
  | prev, c :: t => wordAt w prev (c :: t) || containsWord w (some c) t

/-! ## Results -/

@[simp] theorem Result.bind_ok {α β : Type} (a : α) (f : α → Result β) :
    (Result.ok a).bind f = f a := rfl

@[simp] theorem Result.bind_err {α β : Type} (e : ScanError) (f : α → Result β) :
    (Result.err e : Result α).bind f = .err e := rfl

@[simp] theorem Result.bind_fatal {α β : Type} (f : α → Result β) :
    (Result.fatal : Result α).bind f = .fatal := rfl

@[simp] theorem Result.bind_panic {α β : Type} (f : α → Result β) :
    (Result.panic : Result α).bind f = .panic := rfl

theorem Result.bind_eq_ok {α β : Type} {r : Result α} {f : α → Result β} {b : β}
    (h : r.bind f = .ok b) : ∃ a, r = .ok a ∧ f a = .ok b := by
  cases r <;> simp_all

theorem Result.bind_assoc {α β γ : Type} (r : Result α) (f : α → Result β)
    (g : β → Result γ) : (r.bind f).bind g = r.bind fun a => (f a).bind g := by
  cases r <;> rfl

theorem Result.bind_ne_err {α β : Type} {r : Result α} {f : α → Result β} {e : ScanError}
    (hr : r ≠ .err e) (hf : ∀ a, f a ≠ .err e) : r.bind f ≠ .err e := by
  cases r <;> simp_all [Result.bind]

theorem idx_ne_err {α : Type} {xs : List α} {i : Nat} {e : ScanError} : idx xs i ≠ .err e := by
  unfold idx
  split <;> simp

theorem idx_eq_ok {α : Type} {xs : List α} {i : Nat} {a : α} :
    idx xs i = .ok a ↔ xs[i]? = some a := by
  unfold idx
  cases h : xs[i]? <;> simp

theorem idx_of_lt {α : Type} {xs : List α} {i : Nat} (h : i < xs.length) :
    idx xs i = .ok xs[i] := by
  simp [idx, List.getElem?_eq_getElem h]

/-! ## The matcher -/

theorem starRun_suffix {step : Pos → List Pos}
    (hs : ∀ p q, q ∈ step p → q.rest <:+ p.rest) :
    ∀ (n : Nat) (p q : Pos), q ∈ starRun step n p → q.rest <:+ p.rest
  | 0, p, q, h => by
    simp only [starRun, List.mem_singleton] at h
    subst h
    exact List.suffix_refl _
  | n + 1, p, q, h => by
    simp only [starRun, List.mem_append, List.mem_flatMap, List.mem_singleton] at h
    rcases h with ⟨m, hm, hq⟩ | rfl
    · exact (starRun_suffix hs n m q hq).trans (hs p m hm)
    · exact List.suffix_refl _

theorem run_suffix : ∀ (re : RE) (p q : Pos), q ∈ run re p → q.rest <:+ p.rest
  | .bot, p, q, h => by
    simp only [run] at h
    split at h <;> simp_all
  | .eot, p, q, h => by
    simp only [run] at h
    split at h <;> simp_all
  | .wordb, p, q, h => by
    simp only [run] at h
    split at h <;> simp_all
  | .cls f, p, q, h => by
    simp only [run] at h
    split at h
    · simp at h
    · rename_i c t hc
      split at h
      · simp only [List.mem_singleton] at h
        subst h
        rw [hc]
        exact List.suffix_cons _ _
      · simp at h
  | .eps, p, q, h => by
    simp only [run, List.mem_singleton] at h
    subst h
    exact List.suffix_refl _
  | .seq a b, p, q, h => by
    simp only [run, List.mem_flatMap] at h
    obtain ⟨m, hm, hq⟩ := h
    exact (run_suffix b m q hq).trans (run_suffix a p m hm)
  | .alt a b, p, q, h => by
    simp only [run, List.mem_append] at h
    rcases h with h | h
    · exact run_suffix a p q h
    · exact run_suffix b p q h
  | .star a, p, q, h => by
    simp only [run] at h
    exact starRun_suffix (run_suffix a) _ p q h
  | .group a, p, q, h => by
    simp only [run, List.mem_map] at h
    obtain ⟨m, hm, rfl⟩ := h
    exact run_suffix a p m hm

theorem run_spaces : ∀ (re : RE), spaceOnly re = false →
    ∀ p : Pos, (∀ c ∈ p.rest, c = ' ') → run re p = []
  | .bot, h, _, _ => by simp [spaceOnly] at h
  | .eot, h, _, _ => by simp [spaceOnly] at h
  | .wordb, h, _, _ => by simp [spaceOnly] at h
  | .eps, h, _, _ => by simp [spaceOnly] at h
  | .star _, h, _, _ => by simp [spaceOnly] at h
  | .cls f, h, p, hp => by
    simp only [spaceOnly] at h
    simp only [run]
    split
    · rfl
    · rename_i c t hc
      have : c = ' ' := hp c (by simp [hc])
      subst this
      simp [h]
  | .seq a b, h, p, hp => by
    simp only [spaceOnly, Bool.and_eq_false_iff] at h
    simp only [run]
    rcases h with h | h
    · simp [run_spaces a h p hp]
    · rw [List.flatMap_eq_nil_iff]
      intro m hm
      exact run_spaces b h m fun c hc => hp c ((run_suffix a p m hm).subset hc)
  | .alt a b, h, p, hp => by
    simp only [spaceOnly, Bool.or_eq_false_iff] at h
    simp [run, run_spaces a h.1 p hp, run_spaces b h.2 p hp]
  | .group a, h, p, hp => by
    simp only [spaceOnly] at h
    simp [run, run_spaces a h p hp]

theorem findFrom_spaces (re : RE) (h : spaceOnly re = false) :
    ∀ (line : List Char) (prev : Option Char), (∀ c ∈ line, c = ' ') →
      findFrom re prev line = none
  | [], prev, _ => by simp [findFrom, run_spaces re h ⟨prev, [], none⟩ (by simp)]
  | c :: t, prev, hl => by
    simp only [findFrom, run_spaces re h ⟨prev, c :: t, none⟩ hl, List.head?_nil]
    exact findFrom_spaces re h t _ fun x hx => hl x (List.mem_cons_of_mem _ hx)

theorem numIndent_ge : ∀ line : List Char, -1 ≤ numIndent line
  | [] => by simp [numIndent]
  | c :: t => by
    have ih := numIndent_ge t
    simp only [numIndent]
    split
    · omega
    · split <;> omega

theorem numIndent_neg_iff : ∀ line : List Char, numIndent line = -1 ↔ ∀ c ∈ line, c = ' '
  | [] => by simp [numIndent]
  | c :: t => by
    have ih := numIndent_neg_iff t
    have hge := numIndent_ge t
    simp only [numIndent]
    by_cases hc : c = ' '
    · subst hc
      simp only [ne_eq, not_true_eq_false, ↓reduceIte, List.mem_cons, forall_eq_or_imp, true_and]
      rw [← ih]
      split <;> constructor <;> intro h' <;> omega
    · simp [hc]

theorem detect_spaces (line : List Char) (h : numIndent line = -1) :
    detect line = some ⟨.Empty, []⟩ := by
  have hs := (numIndent_neg_iff line).1 h
  have f : ∀ re, spaceOnly re = false → findFrom re none line = none :=
    fun re hre => findFrom_spaces re hre line none hs
  simp [detect, matchString, findStringSubmatch, h,
    f isPreprocDirective (by decide), f isDisallowCopy (by decide),
    f isDisallowAssign (by decide), f isDisallowCopyAndAssign (by decide),
    f isDisallowImplicitCtors (by decide), f isEnumClass (by decide),
    f extractClassDeclFinal (by decide), f extractClassDecl (by decide),
    f extractLabel (by decide)]

theorem numIndent_nonneg_of_detect {line : List Char} {l : Line} (h : detect line = some l)
    (hne : l.typ ≠ .Empty) : 0 ≤ numIndent line := by
  by_contra hlt
  have h1 : numIndent line = -1 := by have := numIndent_ge line; omega
  rw [detect_spaces line h1] at h
  simp only [Option.some.injEq] at h
  subst h
  exact hne rfl

/-! ### What a match reads and captures -/

theorem mem_run_seq {a b : RE} {p q : Pos} :
    q ∈ run (.seq a b) p ↔ ∃ m, m ∈ run a p ∧ q ∈ run b m := by
  simp [run, List.mem_flatMap]

theorem mem_run_alt {a b : RE} {p q : Pos} :
    q ∈ run (.alt a b) p ↔ q ∈ run a p ∨ q ∈ run b p := by
  simp [run]

theorem mem_run_eps {p q : Pos} : q ∈ run .eps p ↔ q = p := by
  simp [run]

theorem run_cls {f : Char → Bool} {p q : Pos} (h : q ∈ run (.cls f) p) :
    ∃ c, f c = true ∧ p.rest = c :: q.rest ∧ q.cap = p.cap ∧ q.prev = some c := by
  simp only [run] at h
  split at h
  · simp at h
  · rename_i c t hc
    split at h
    · rename_i hf
      simp only [List.mem_singleton] at h
      subst h
      exact ⟨c, hf, hc, rfl, rfl⟩
    · simp at h

theorem run_chr {c : Char} {p q : Pos} (h : q ∈ run (.chr c) p) :
    p.rest = c :: q.rest ∧ q.cap = p.cap := by
  obtain ⟨x, hx, hr, hc, -⟩ := run_cls h
  simp only [beq_iff_eq] at hx
  subst hx
  exact ⟨hr, hc⟩

theorem run_lit : ∀ (s : List Char) {p q : Pos}, q ∈ run (.lit s) p →
    p.rest = s ++ q.rest ∧ q.cap = p.cap
  | [], p, q, h => by
    simp only [RE.lit, run, List.mem_singleton] at h
    subst h
    simp
  | c :: t, p, q, h => by
    simp only [RE.lit] at h
    obtain ⟨m, hm, hq⟩ := mem_run_seq.1 h
    obtain ⟨h1, h2⟩ := run_chr hm
    obtain ⟨h3, h4⟩ := run_lit t hq
    exact ⟨by rw [h1, h3]; rfl, by rw [h4, h2]⟩

theorem starRun_cls {f : Char → Bool} : ∀ (n : Nat) {p q : Pos},
    q ∈ starRun (run (.cls f)) n p →
    ∃ w, p.rest = w ++ q.rest ∧ (∀ c ∈ w, f c = true) ∧ q.cap = p.cap
  | 0, p, q, h => by
    simp only [starRun, List.mem_singleton] at h
    subst h
    exact ⟨[], rfl, by simp, rfl⟩
  | n + 1, p, q, h => by
    simp only [starRun, List.mem_append, List.mem_flatMap, List.mem_singleton] at h
    rcases h with ⟨m, hm, hq⟩ | rfl
    · obtain ⟨c, hc, hr, hcap, -⟩ := run_cls hm
      obtain ⟨w, hw, hf, hcap'⟩ := starRun_cls n hq
      refine ⟨c :: w, by rw [hr, hw]; rfl, ?_, by rw [hcap', hcap]⟩
      intro x hx
      rcases List.mem_cons.1 hx with rfl | hx
      · exact hc
      · exact hf x hx
    · exact ⟨[], rfl, by simp, rfl⟩

theorem run_star_cls {f : Char → Bool} {p q : Pos} (h : q ∈ run (.star (.cls f)) p) :
    ∃ w, p.rest = w ++ q.rest ∧ (∀ c ∈ w, f c = true) ∧ q.cap = p.cap := by
  simp only [run] at h
  exact starRun_cls _ h

theorem run_group_star_cls {f : Char → Bool} {p q : Pos}
    (h : q ∈ run (.group (.star (.cls f))) p) :
    ∃ w, p.rest = w ++ q.rest ∧ (∀ c ∈ w, f c = true) ∧ q.cap = some w := by
  simp only [run, List.mem_map] at h
  obtain ⟨m, hm, rfl⟩ := h
  obtain ⟨w, hw, hf, -⟩ := starRun_cls _ hm
  refine ⟨w, hw, hf, ?_⟩
  simp [hw]

theorem starRun_noGroup {step : Pos → List Pos}
    (hs : ∀ p q, q ∈ step p → q.cap = p.cap) :
    ∀ (n : Nat) (p q : Pos), q ∈ starRun step n p → q.cap = p.cap
  | 0, p, q, h => by
    simp only [starRun, List.mem_singleton] at h
    subst h
    rfl
  | n + 1, p, q, h => by
    simp only [starRun, List.mem_append, List.mem_flatMap, List.mem_singleton] at h
    rcases h with ⟨m, hm, hq⟩ | rfl
    · rw [starRun_noGroup hs n m q hq, hs p m hm]
    · rfl

theorem run_noGroup : ∀ (re : RE), noGroup re = true → ∀ (p q : Pos), q ∈ run re p →
    q.cap = p.cap
  | .bot, _, p, q, h => by
    simp only [run] at h
    split at h <;> simp_all
  | .eot, _, p, q, h => by
    simp only [run] at h
    split at h <;> simp_all
  | .wordb, _, p, q, h => by
    simp only [run] at h
    split at h <;> simp_all
  | .cls f, _, p, q, h => (run_cls h).choose_spec.2.2.1
  | .eps, _, p, q, h => by
    simp only [run, List.mem_singleton] at h
    subst h
    rfl
  | .seq a b, hn, p, q, h => by
    simp only [noGroup, Bool.and_eq_true] at hn
    obtain ⟨m, hm, hq⟩ := mem_run_seq.1 h
    rw [run_noGroup b hn.2 m q hq, run_noGroup a hn.1 p m hm]
  | .alt a b, hn, p, q, h => by
    simp only [noGroup, Bool.and_eq_true] at hn
    simp only [run, List.mem_append] at h
    rcases h with h | h
    · exact run_noGroup a hn.1 p q h
    · exact run_noGroup b hn.2 p q h
  | .star a, hn, p, q, h => by
    simp only [noGroup] at hn
    simp only [run] at h
    exact starRun_noGroup (run_noGroup a hn) _ p q h
  | .group a, hn, _, _, _ => by simp [noGroup] at hn

/-- A capture is made of characters of the text. -/
theorem starRun_cap {step : Pos → List Pos}
    (hs : ∀ p q, q ∈ step p → q.rest <:+ p.rest ∧
      (q.cap = p.cap ∨ ∃ w, q.cap = some w ∧ ∀ c ∈ w, c ∈ p.rest)) :
    ∀ (n : Nat) (p q : Pos), q ∈ starRun step n p →
      q.cap = p.cap ∨ ∃ w, q.cap = some w ∧ ∀ c ∈ w, c ∈ p.rest
  | 0, p, q, h => by
    simp only [starRun, List.mem_singleton] at h
    subst h
    exact Or.inl rfl
  | n + 1, p, q, h => by
    simp only [starRun, List.mem_append, List.mem_flatMap, List.mem_singleton] at h
    rcases h with ⟨m, hm, hq⟩ | rfl
    · obtain ⟨hsuf, hcap⟩ := hs p m hm
      rcases starRun_cap hs n m q hq with h1 | ⟨w, hw, hin⟩
      · rcases hcap with h2 | ⟨w, hw, hin⟩
        · exact Or.inl (h1.trans h2)
        · exact Or.inr ⟨w, h1.trans hw, hin⟩
      · exact Or.inr ⟨w, hw, fun c hc => hsuf.subset (hin c hc)⟩
    · exact Or.inl rfl

theorem run_cap : ∀ (re : RE) (p q : Pos), q ∈ run re p →
    q.cap = p.cap ∨ ∃ w, q.cap = some w ∧ ∀ c ∈ w, c ∈ p.rest
  | .bot, p, q, h => Or.inl (run_noGroup .bot rfl p q h)
  | .eot, p, q, h => Or.inl (run_noGroup .eot rfl p q h)
  | .wordb, p, q, h => Or.inl (run_noGroup .wordb rfl p q h)
  | .cls f, p, q, h => Or.inl (run_noGroup (.cls f) rfl p q h)
  | .eps, p, q, h => Or.inl (run_noGroup .eps rfl p q h)
  | .seq a b, p, q, h => by
    obtain ⟨m, hm, hq⟩ := mem_run_seq.1 h
    have hsuf := run_suffix a p m hm
    rcases run_cap b m q hq with h1 | ⟨w, hw, hin⟩
    · rcases run_cap a p m hm with h2 | ⟨w, hw, hin⟩
      · exact Or.inl (h1.trans h2)
      · exact Or.inr ⟨w, h1.trans hw, hin⟩
    · exact Or.inr ⟨w, hw, fun c hc => hsuf.subset (hin c hc)⟩
  | .alt a b, p, q, h => by
    simp only [run, List.mem_append] at h
    rcases h with h | h
    · exact run_cap a p q h
    · exact run_cap b p q h
  | .star a, p, q, h => by
    simp only [run] at h
    exact starRun_cap (fun p q hq => ⟨run_suffix a p q hq, run_cap a p q hq⟩) _ p q h
  | .group a, p, q, h => by
    simp only [run, List.mem_map] at h
    obtain ⟨m, hm, rfl⟩ := h
    exact Or.inr ⟨_, rfl, fun c hc => List.mem_of_mem_take hc⟩

/-- Where a leftmost match starts: at a suffix of the text. -/
theorem findFrom_some (re : RE) : ∀ (line : List Char) (prev : Option Char) (q : Pos),
    findFrom re prev line = some q →
    ∃ prev' suf, suf <:+ line ∧ q ∈ run re ⟨prev', suf, none⟩ ∧
      ((prev' = prev ∧ suf = line) ∨ ∃ c, prev' = some c)
  | [], prev, q, h => by
    simp only [findFrom] at h
    exact ⟨prev, [], List.suffix_refl _, List.mem_of_mem_head? h, Or.inl ⟨rfl, rfl⟩⟩
  | c :: t, prev, q, h => by
    simp only [findFrom] at h
    split at h
    · rename_i q' hq'
      simp only [Option.some.injEq] at h
      subst h
      exact ⟨prev, c :: t, List.suffix_refl _, List.mem_of_mem_head? hq', Or.inl ⟨rfl, rfl⟩⟩
    · obtain ⟨prev', suf, hsuf, hq, hor⟩ := findFrom_some re t (some c) q h
      refine ⟨prev', suf, hsuf.trans (List.suffix_cons _ _), hq, Or.inr ?_⟩
      rcases hor with ⟨h1, -⟩ | h1
      · exact ⟨c, h1⟩
      · exact h1

theorem findFrom_none_of_run (re : RE) : ∀ (line : List Char) (prev : Option Char),
    (∀ prev' suf, suf <:+ line → run re ⟨prev', suf, none⟩ = []) → findFrom re prev line = none
  | [], prev, h => by simp [findFrom, h prev [] (List.suffix_refl _)]
  | c :: t, prev, h => by
    simp only [findFrom, h prev (c :: t) (List.suffix_refl _), List.head?_nil]
    exact findFrom_none_of_run re t _ fun prev' suf hs =>
      h prev' suf (hs.trans (List.suffix_cons _ _))

theorem findStringSubmatch_subset {re : RE} {line m : List Char}
    (h : findStringSubmatch re line = some m) : ∀ c ∈ m, c ∈ line := by
  simp only [findStringSubmatch, Option.map_eq_some'] at h
  obtain ⟨q, hq, rfl⟩ := h
  obtain ⟨prev', suf, hsuf, hrun, -⟩ := findFrom_some re line none q hq
  rcases run_cap re _ q hrun with h1 | ⟨w, hw, hin⟩
  · simp only at h1
    simp [h1]
  · simp only [hw, Option.getD_some]
    exact fun c hc => hsuf.subset (hin c hc)

/-! ### What the patterns of the source require of a line -/

theorem afterParen_append {u : List Char} (v : List Char) (h : ∀ c ∈ u, c ≠ ')') :
    afterParen (u ++ v) = afterParen v := by
  induction u with
  | nil => rfl
  | cons x xs ih =>
    have hx : x ≠ ')' := h x (List.mem_cons_self _ _)
    simp only [List.cons_append, afterParen, hx, if_false]
    exact ih fun c hc => h c (List.mem_cons_of_mem _ hc)

theorem run_bot {p q : Pos} (h : q ∈ run .bot p) : q = p ∧ p.prev = none := by
  simp only [run] at h
  split at h
  · rename_i hp
    simp only [List.mem_singleton] at h
    exact ⟨h, by simpa using hp⟩
  · simp at h

theorem run_wordb {p q : Pos} (h : q ∈ run .wordb p) : q = p := by
  simp only [run] at h
  split at h
  · simpa using h
  · simp at h

/-- A line one of the macro patterns matches: spaces, the macro name with its
parenthesis, an argument without `)`, then `);`. -/
theorem run_macroPattern (name : List Char) {prev : Option Char} {line : List Char} {q : Pos}
    (h : q ∈ run (.cat [.bot, .star (.chr ' '), .lit name, .group (.star (.notIn [')'])),
      .lit ");".toList]) ⟨prev, line, none⟩) :
    ∃ sp w rest, line = sp ++ (name ++ (w ++ (')' :: ';' :: rest))) ∧ (∀ c ∈ sp, c = ' ') ∧
      (∀ c ∈ w, c ≠ ')') ∧ q.cap = some w := by
  simp only [RE.cat] at h
  obtain ⟨p1, h1, h⟩ := mem_run_seq.1 h
  obtain ⟨p2, h2, h⟩ := mem_run_seq.1 h
  obtain ⟨p3, h3, h⟩ := mem_run_seq.1 h
  obtain ⟨p4, h4, h⟩ := mem_run_seq.1 h
  obtain ⟨p5, h5, h⟩ := mem_run_seq.1 h
  simp only [run, List.mem_singleton] at h
  subst h
  obtain ⟨rfl, -⟩ := run_bot h1
  obtain ⟨sp, hsp, hspf, -⟩ := run_star_cls h2
  obtain ⟨hname, -⟩ := run_lit name h3
  obtain ⟨w, hw, hwf, hcap⟩ := run_group_star_cls h4
  obtain ⟨hend, hcap'⟩ := run_lit _ h5
  refine ⟨sp, w, q.rest, ?_, ?_, ?_, by rw [hcap', hcap]⟩
  · simp only at hsp
    rw [hsp, hname, hw, hend]
    rfl
  · intro c hc
    simpa using hspf c hc
  · intro c hc
    have := hwf c hc
    simpa using this

theorem macroPattern_match (name : List Char) (hname : ∀ c ∈ name, c ≠ ')') {line m : List Char}
    (h : findStringSubmatch (.cat [.bot, .star (.chr ' '), .lit name,
      .group (.star (.notIn [')'])), .lit ");".toList]) line = some m) :
    afterParen line = some ';' ∧ ∀ c ∈ m, c ≠ ')' := by
  simp only [findStringSubmatch, Option.map_eq_some'] at h
  obtain ⟨q, hq, rfl⟩ := h
  obtain ⟨prev', suf, hsuf, hrun, hor⟩ := findFrom_some _ line none q hq
  have hstart : prev' = none ∧ suf = line := by
    rcases hor with h1 | ⟨c, rfl⟩
    · exact h1
    · exfalso
      simp only [RE.cat] at hrun
      obtain ⟨p1, h1, -⟩ := mem_run_seq.1 hrun
      have := (run_bot h1).2
      simp at this
  obtain ⟨rfl, rfl⟩ := hstart
  obtain ⟨sp, w, rest, hl, hsp, hw, hcap⟩ := run_macroPattern name hrun
  refine ⟨?_, by simpa [hcap] using hw⟩
  rw [hl, afterParen_append _ (fun c hc => by rw [hsp c hc]; decide),
    afterParen_append _ hname, afterParen_append _ hw]
  simp [afterParen]

theorem spaceAfterS_of_suffix : ∀ (line r : List Char) (c0 : Char),
    ("class ".toList ++ r) <:+ line → spaceAfterS c0 line = true
  | [], r, c0, h => by
    have := List.eq_nil_of_suffix_nil h
    simp at this
  | x :: t, r, c0, h => by
    rcases List.suffix_cons_iff.1 h with h | h
    · have hx : x :: t = 'c' :: 'l' :: 'a' :: 's' :: 's' :: ' ' :: r := h.symm
      rw [hx]
      simp [spaceAfterS]
    · simp only [spaceAfterS, Bool.or_eq_true]
      exact Or.inr (spaceAfterS_of_suffix t r x h)

/-- Both class patterns start with the word `class` followed by a space. -/
theorem run_classPrefix (tail : RE) {p q : Pos}
    (h : q ∈ run (.seq .wordb (.seq (.lit "class".toList) (.seq .wordb
      (.seq (.opt (.cat [.chr ' ', .star (.notIn [':'])])) (.seq (.chr ' ') tail))))) p) :
    ∃ r p5, p.rest = "class ".toList ++ r ∧ q ∈ run tail p5 ∧ p5.cap = p.cap := by
  obtain ⟨p1, h1, g1⟩ := mem_run_seq.1 h
  obtain ⟨p2, h2, g2⟩ := mem_run_seq.1 g1
  obtain ⟨p3, h3, g3⟩ := mem_run_seq.1 g2
  obtain ⟨p4, h4, g4⟩ := mem_run_seq.1 g3
  obtain ⟨p5, h5, g5⟩ := mem_run_seq.1 g4
  have e1 : p1 = p := run_wordb h1
  obtain ⟨hl, hc2⟩ := run_lit _ h2
  have e3 : p3 = p2 := run_wordb h3
  obtain ⟨h5r, hc5⟩ := run_chr h5
  have hc4 : p4.cap = p3.cap := run_noGroup _ (by rfl) _ _ h4
  have hsp : ∃ r, p3.rest = ' ' :: r := by
    rcases mem_run_alt.1 h4 with h4 | h4
    · obtain ⟨m, hm, -⟩ := mem_run_seq.1 h4
      exact ⟨_, (run_chr hm).1⟩
    · rw [← mem_run_eps.1 h4]
      exact ⟨_, h5r⟩
  obtain ⟨r, hr⟩ := hsp
  refine ⟨r, p5, ?_, g5, ?_⟩
  · rw [← e1, hl, ← e3, hr]; rfl
  · rw [hc5, hc4, e3, hc2, e1]

theorem classDecl_match {line m : List Char}
    (h : findStringSubmatch extractClassDecl line = some m) :
    (∀ c0, spaceAfterS c0 line = true) ∧ ∀ c ∈ m, c ≠ ' ' := by
  simp only [findStringSubmatch, Option.map_eq_some'] at h
  obtain ⟨q, hq, rfl⟩ := h
  obtain ⟨prev', suf, hsuf, hrun, -⟩ := findFrom_some _ line none q hq
  simp only [extractClassDecl, RE.cat] at hrun
  obtain ⟨r, p5, hr, htail, -⟩ := run_classPrefix _ hrun
  simp only at hr
  refine ⟨fun c0 => spaceAfterS_of_suffix line r c0 (hr ▸ hsuf), ?_⟩
  obtain ⟨p6, -, htail⟩ := mem_run_seq.1 htail
  obtain ⟨p7, h7, htail⟩ := mem_run_seq.1 htail
  obtain ⟨w, -, hwf, hcap⟩ := run_group_star_cls h7
  have hq7 : q.cap = p7.cap := run_noGroup _ (by rfl) _ _ htail
  rw [hq7, hcap]
  intro c hc
  have := hwf c hc
  simp only [RE.notIn] at this
  intro hcs
  subst hcs
  simp at this

theorem classDeclFinal_match {line m : List Char}
    (h : findStringSubmatch extractClassDeclFinal line = some m) :
    (∀ c0, spaceAfterS c0 line = true) ∧ ∀ c ∈ m, c ≠ ' ' := by
  simp only [findStringSubmatch, Option.map_eq_some'] at h
  obtain ⟨q, hq, rfl⟩ := h
  obtain ⟨prev', suf, hsuf, hrun, -⟩ := findFrom_some _ line none q hq
  simp only [extractClassDeclFinal, RE.cat] at hrun
  obtain ⟨r, p5, hr, htail, -⟩ := run_classPrefix _ hrun
  simp only at hr
  refine ⟨fun c0 => spaceAfterS_of_suffix line r c0 (hr ▸ hsuf), ?_⟩
  obtain ⟨p6, -, htail⟩ := mem_run_seq.1 htail
  obtain ⟨p7, h7, htail⟩ := mem_run_seq.1 htail
  obtain ⟨w, -, hwf, hcap⟩ := run_group_star_cls h7
  have hq7 : q.cap = p7.cap := run_noGroup _ (by rfl) _ _ htail
  rw [hq7, hcap]
  intro c hc
  have := hwf c hc
  simp only [RE.notIn] at this
  intro hcs
  subst hcs
  simp at this

/-- What the category `detect` returns says about the line and the payload: a
macro invocation has `;` after its first `)` and an argument without `)`; a
class name has no space; the payload is made of characters of the line. -/
theorem detect_facts {line : List Char} {l : Line} (h : detect line = some l) :
    (l.typ.isDisallow = true → afterParen line = some ';' ∧ ∀ c ∈ l.Data, c ≠ ')') ∧
    (l.typ = .ClassDecl → ∀ c ∈ l.Data, c ≠ ' ') ∧
    (∀ c ∈ l.Data, c ∈ line) := by
  unfold detect at h
  split at h
  · simp only [Option.some.injEq] at h; subst h; simp [LineType.isDisallow]
  split at h
  · rename_i m hm
    simp only [Option.some.injEq] at h; subst h
    exact ⟨fun _ => macroPattern_match "DISALLOW_COPY(".toList (by decide) hm,
      by simp, findStringSubmatch_subset hm⟩
  split at h
  · rename_i m hm
    simp only [Option.some.injEq] at h; subst h
    exact ⟨fun _ => macroPattern_match "DISALLOW_ASSIGN(".toList (by decide) hm,
      by simp, findStringSubmatch_subset hm⟩
  split at h
  · rename_i m hm
    simp only [Option.some.injEq] at h; subst h
    exact ⟨fun _ => macroPattern_match "DISALLOW_COPY_AND_ASSIGN(".toList (by decide) hm,
      by simp, findStringSubmatch_subset hm⟩
  split at h
  · rename_i m hm
    simp only [Option.some.injEq] at h; subst h
    exact ⟨fun _ => macroPattern_match "DISALLOW_IMPLICIT_CONSTRUCTORS(".toList (by decide) hm,
      by simp, findStringSubmatch_subset hm⟩
  split at h
  · simp only [Option.some.injEq] at h; subst h; simp [LineType.isDisallow]
  split at h
  · rename_i m hm
    split at h
    · cases h
    · simp only [Option.some.injEq] at h; subst h
      exact ⟨by simp [LineType.isDisallow], fun _ => (classDeclFinal_match hm).2,
        findStringSubmatch_subset hm⟩
  split at h
  · rename_i m hm
    split at h
    · cases h
    · simp only [Option.some.injEq] at h; subst h
      exact ⟨by simp [LineType.isDisallow], fun _ => (classDecl_match hm).2,
        findStringSubmatch_subset hm⟩
  split at h
  · rename_i m hm
    simp only [Option.some.injEq] at h; subst h
    exact ⟨by simp [LineType.isDisallow], by simp, findStringSubmatch_subset hm⟩
  split at h
  · simp only [Option.some.injEq] at h; subst h; simp [LineType.isDisallow]
  · simp only [Option.some.injEq] at h; subst h; simp [LineType.isDisallow]

/-- A line that has no `;` after its first `)` and no space after an `s` is
classified, and not as a macro invocation. -/
theorem detect_safe {line : List Char} (h1 : afterParen line ≠ some ';') {c0 : Char}
    (h2 : spaceAfterS c0 line = false) :
    ∃ l, detect line = some l ∧ l.typ.isDisallow = false := by
  have hmac : ∀ name : List Char, (∀ c ∈ name, c ≠ ')') →
      findStringSubmatch (.cat [.bot, .star (.chr ' '), .lit name,
        .group (.star (.notIn [')'])), .lit ");".toList]) line = none := by
    intro name hname
    cases hm : findStringSubmatch (.cat [.bot, .star (.chr ' '), .lit name,
        .group (.star (.notIn [')'])), .lit ");".toList]) line with
    | none => rfl
    | some m => exact absurd (macroPattern_match name hname hm).1 h1
  have e1 : findStringSubmatch isDisallowCopy line = none :=
    hmac "DISALLOW_COPY(".toList (by decide)
  have e2 : findStringSubmatch isDisallowAssign line = none :=
    hmac "DISALLOW_ASSIGN(".toList (by decide)
  have e3 : findStringSubmatch isDisallowCopyAndAssign line = none :=
    hmac "DISALLOW_COPY_AND_ASSIGN(".toList (by decide)
  have e4 : findStringSubmatch isDisallowImplicitCtors line = none :=
    hmac "DISALLOW_IMPLICIT_CONSTRUCTORS(".toList (by decide)
  have e5 : findStringSubmatch extractClassDeclFinal line = none := by
    cases hm : findStringSubmatch extractClassDeclFinal line with
    | none => rfl
    | some m =>
      have := (classDeclFinal_match hm).1 c0
      rw [h2] at this
      cases this
  have e6 : findStringSubmatch extractClassDecl line = none := by
    cases hm : findStringSubmatch extractClassDecl line with
    | none => rfl
    | some m =>
      have := (classDecl_match hm).1 c0
      rw [h2] at this
      cases this
  unfold detect
  simp only [e1, e2, e3, e4, e5, e6]
  split
  · exact ⟨_, rfl, rfl⟩
  split
  · exact ⟨_, rfl, rfl⟩
  split
  · exact ⟨_, rfl, rfl⟩
  split
  · exact ⟨_, rfl, rfl⟩
  · exact ⟨_, rfl, rfl⟩

/-! ## The indentation tracker -/

theorem track_length (st : List Nat) (d n : Nat) : (track st d n).length = d + 1 := by
  simp only [track, List.length_set, List.length_take, List.length_append, List.length_replicate]
  omega

theorem mem_track {st : List Nat} {d n x : Nat} (h : x ∈ track st d n) : x ∈ st ∨ x = n := by
  simp only [track] at h
  rcases List.mem_or_eq_of_mem_set h with h | h
  · have := List.mem_of_mem_take h
    simp only [List.mem_append, List.mem_replicate] at this
    rcases this with h | h
    · exact Or.inl h
    · exact Or.inr h.2
  · exact Or.inr h

theorem stackOf_append : ∀ (a b : List (List Char)) (n : Nat) (st : List Nat),
    stackOf (a ++ b) n st = stackOf b (n + a.length) (stackOf a n st)
  | [], b, n, st => by simp [stackOf]
  | x :: a, b, n, st => by
    have ih := stackOf_append a b (n + 1) (visit st x n)
    show stackOf (a ++ b) (n + 1) (visit st x n) =
      stackOf b (n + (a.length + 1)) (stackOf a (n + 1) (visit st x n))
    rw [ih, show n + 1 + a.length = n + (a.length + 1) by omega]

theorem visit_le {st : List Nat} {line : List Char} {n : Nat} (h : ∀ x ∈ st, x ≤ n) :
    ∀ x ∈ visit st line n, x ≤ n := by
  intro x hx
  unfold visit at hx
  split at hx
  · rcases mem_track hx with h' | h'
    · exact h x h'
    · omega
  · exact h x hx

theorem stackOf_le : ∀ (lines : List (List Char)) (n : Nat) (st : List Nat),
    (∀ x ∈ st, x ≤ n) → ∀ x ∈ stackOf lines n st, x ≤ n + lines.length
  | [], n, st, h => by simpa [stackOf] using h
  | line :: more, n, st, h => by
    intro x hx
    simp only [stackOf] at hx
    have := stackOf_le more (n + 1) (visit st line n)
      (fun y hy => Nat.le_succ_of_le (visit_le h y hy)) x hx
    simp only [List.length_cons]
    omega

theorem stackBefore_le (lines : List (List Char)) (k : Nat) :
    ∀ x ∈ stackBefore lines k, x ≤ k := by
  intro x hx
  have := stackOf_le (lines.take k) 0 [0] (by simp) x hx
  simp only [List.length_take] at this
  omega

theorem stackAt_eq (lines : List (List Char)) (k : Nat) (hk : k < lines.length) :
    stackAt lines k = visit (stackBefore lines k) lines[k] k := by
  unfold stackAt stackBefore
  rw [List.take_succ, stackOf_append]
  simp [List.getElem?_eq_getElem hk, stackOf, List.length_take, Nat.min_eq_left (Nat.le_of_lt hk)]

theorem stackAt_le (lines : List (List Char)) (k : Nat) (hk : k < lines.length) :
    ∀ x ∈ stackAt lines k, x ≤ k := by
  rw [stackAt_eq lines k hk]
  exact visit_le (stackBefore_le lines k)

/-! ## The first loop -/

theorem eligible_iff {st : List Nat} {line : List Char} {l : Line} (hd : detect line = some l) :
    eligible st line = true ↔
      ¬ (l.typ = .Empty ∨ l.typ = .PreprocessorDirective) ∧
      ¬ (numIndent line ≥ (st.length : Int) + 2) := by
  simp only [eligible, hd, decide_eq_true_eq, not_or, not_le, ge_iff_le]
  tauto

theorem eligible_depth {st : List Nat} {line : List Char} (h : eligible st line = true) :
    numIndent line = (depth line : Int) := by
  unfold eligible at h
  split at h
  · simp at h
  · rename_i l hd
    simp only [decide_eq_true_eq] at h
    have := numIndent_nonneg_of_detect hd h.1
    simp only [depth]
    omega

/-- What `body1` returns when it returns. -/
theorem body1_ok {line : List Char} {n : Nat} {ls ls' : List Line} {st st' : scannerState}
    (h : body1 line n ls st = .ok (ls', st')) :
    ∃ l, detect line = some l ∧ ls' = ls ++ [l] ∧
      st'.startOfIndent = visit st.startOfIndent line n ∧ st'.changes = st.changes ∧
      (st'.labels = st.labels ∨
        ∃ o d, l.typ = .Label ∧ eligible st.startOfIndent line = true ∧ depth line = d + 1 ∧
          (visit st.startOfIndent line n)[d]? = some o ∧
          (∃ lo, (ls ++ [l])[o]? = some lo ∧ lo.typ = .ClassDecl) ∧
          st'.labels = addLabel st.labels o n) := by
  unfold body1 at h
  split at h
  · simp at h
  · rename_i l hd
    refine ⟨l, hd, ?_⟩
    simp only at h
    split at h
    · rename_i he
      simp only [Result.ok.injEq, Prod.mk.injEq] at h
      obtain ⟨rfl, rfl⟩ := h
      have : eligible st.startOfIndent line = false := by
        rw [Bool.eq_false_iff]
        intro hc
        exact ((eligible_iff hd).1 hc).1 he
      simp [visit, this]
    · rename_i he
      split at h
      · rename_i hc
        simp only [Result.ok.injEq, Prod.mk.injEq] at h
        obtain ⟨rfl, rfl⟩ := h
        have : eligible st.startOfIndent line = false := by
          rw [Bool.eq_false_iff]
          intro hc'
          exact ((eligible_iff hd).1 hc').2 hc
        simp [visit, this]
      · rename_i hc
        have hel : eligible st.startOfIndent line = true := (eligible_iff hd).2 ⟨he, hc⟩
        split at h
        · simp at h
        · split at h
          · rename_i hlab
            split at h
            · simp at h
            · rename_i hd0
              obtain ⟨o, ho, h⟩ := Result.bind_eq_ok h
              obtain ⟨lo, hlo, h⟩ := Result.bind_eq_ok h
              rw [idx_eq_ok] at ho hlo
              split at h
              · rename_i hcd
                simp only [Result.ok.injEq, Prod.mk.injEq] at h
                obtain ⟨rfl, rfl⟩ := h
                refine ⟨rfl, by simp [visit, hel, depth], rfl, Or.inr ?_⟩
                refine ⟨o, depth line - 1, hlab, hel, ?_, ?_, ⟨lo, hlo, hcd⟩, rfl⟩
                · simp only [depth]; omega
                · simpa [visit, hel, depth] using ho
              · simp only [Result.ok.injEq, Prod.mk.injEq] at h
                obtain ⟨rfl, rfl⟩ := h
                exact ⟨rfl, by simp [visit, hel, depth], rfl, Or.inl rfl⟩
          · simp only [Result.ok.injEq, Prod.mk.injEq] at h
            obtain ⟨rfl, rfl⟩ := h
            exact ⟨rfl, by simp [visit, hel, depth], rfl, Or.inl rfl⟩

/-- The first loop never returns an error value. -/
theorem body1_ne_err {line : List Char} {n : Nat} {ls : List Line} {st : scannerState}
    {e : ScanError} : body1 line n ls st ≠ .err e := by
  unfold body1
  split
  · simp
  · simp only
    split_ifs
    all_goals first
      | exact fun h => by cases h
      | (refine Result.bind_ne_err idx_ne_err fun o => Result.bind_ne_err idx_ne_err fun lo => ?_
         split <;> simp)

/-- When the first loop finishes, `lineStuff` holds the categories of all lines,
the stack is the tracker's, and no change has been recorded. -/
theorem pass1_ok : ∀ (lines : List (List Char)) (n : Nat) (ls ls' : List Line)
    (st st' : scannerState), pass1 lines n ls st = .ok (ls', st') →
    ls' = ls ++ classify lines ∧ (∀ line ∈ lines, (detect line).isSome) ∧
      st'.startOfIndent = stackOf lines n st.startOfIndent ∧ st'.changes = st.changes
  | [], n, ls, ls', st, st', h => by
    simp only [pass1, Result.ok.injEq, Prod.mk.injEq] at h
    obtain ⟨rfl, rfl⟩ := h
    simp [classify, stackOf]
  | line :: more, n, ls, ls', st, st', h => by
    simp only [pass1] at h
    obtain ⟨⟨ls1, st1⟩, h1, h2⟩ := Result.bind_eq_ok h
    obtain ⟨l, hd, rfl, hst, hch, -⟩ := body1_ok h1
    obtain ⟨rfl, hall, hst', hch'⟩ := pass1_ok more (n + 1) _ _ _ _ h2
    refine ⟨by simp [classify, List.filterMap_cons, hd], ?_, ?_, ?_⟩
    · intro x hx
      rcases List.mem_cons.1 hx with rfl | hx
      · simp [hd]
      · exact hall x hx
    · simp [stackOf, hst', hst]
    · rw [hch', hch]

theorem classify_length {lines : List (List Char)} (h : ∀ line ∈ lines, (detect line).isSome) :
    (classify lines).length = lines.length := by
  induction lines with
  | nil => rfl
  | cons x xs ih =>
    have hx := h x (List.mem_cons_self _ _)
    obtain ⟨l, hl⟩ := Option.isSome_iff_exists.1 hx
    have ih' := ih fun y hy => h y (List.mem_cons_of_mem _ hy)
    simp only [classify] at ih'
    simp [classify, List.filterMap_cons, hl, ih']

theorem classify_getElem? {lines : List (List Char)}
    (h : ∀ line ∈ lines, (detect line).isSome) (k : Nat) :
    (classify lines)[k]? = (lines[k]?).bind detect := by
  induction lines generalizing k with
  | nil => simp [classify]
  | cons x xs ih =>
    have hx := h x (List.mem_cons_self _ _)
    obtain ⟨l, hl⟩ := Option.isSome_iff_exists.1 hx
    have ih' := ih (fun y hy => h y (List.mem_cons_of_mem _ hy))
    cases k with
    | zero => simp [classify, List.filterMap_cons, hl]
    | succ k =>
      simp only [classify, List.filterMap_cons, hl, List.getElem?_cons_succ]
      exact ih' k

theorem classify_append (a b : List (List Char)) : classify (a ++ b) = classify a ++ classify b := by
  simp [classify, List.filterMap_append]

theorem pass1_labels_inv : ∀ (lines : List (List Char)) (n : Nat) (ls ls' : List Line)
    (st st' : scannerState), pass1 lines n ls st = .ok (ls', st') → ls.length = n →
    (∀ o x, x ∈ st.labels o → ∃ l, ls[x]? = some l ∧ l.typ = .Label) →
    ∀ o x, x ∈ st'.labels o → ∃ l, ls'[x]? = some l ∧ l.typ = .Label
  | [], n, ls, ls', st, st', h, _, hinv => by
    simp only [pass1, Result.ok.injEq, Prod.mk.injEq] at h
    obtain ⟨rfl, rfl⟩ := h
    exact hinv
  | line :: more, n, ls, ls', st, st', h, hlen, hinv => by
    simp only [pass1] at h
    obtain ⟨⟨ls1, st1⟩, h1, h2⟩ := Result.bind_eq_ok h
    obtain ⟨l, hd, rfl, -, -, hlab⟩ := body1_ok h1
    refine pass1_labels_inv more (n + 1) _ _ _ _ h2 (by simp [hlen]) ?_
    have hold : ∀ o x, x ∈ st.labels o → ∃ l', (ls ++ [l])[x]? = some l' ∧ l'.typ = .Label := by
      intro o x hx
      obtain ⟨l', hl', ht⟩ := hinv o x hx
      have hxl : x < ls.length := by
        by_contra hc
        rw [List.getElem?_eq_none (Nat.le_of_not_lt hc)] at hl'
        cases hl'
      exact ⟨l', by rw [List.getElem?_append_left hxl]; exact hl', ht⟩
    rcases hlab with hlab | ⟨o, d, hty, -, -, -, -, hlab⟩
    · rw [hlab]; exact hold
    · rw [hlab]
      intro o' x hx
      simp only [addLabel] at hx
      split at hx
      · rcases List.mem_append.1 hx with hx | hx
        · exact hold o x hx
        · simp only [List.mem_singleton] at hx
          subst hx
          exact ⟨l, by simp [← hlen], hty⟩
      · exact hold o' x hx

theorem body1_total {line : List Char} {n : Nat} {ls : List Line} {st : scannerState} {l : Line}
    (hd : detect line = some l) (h0 : l.typ = .Label → numIndent line ≠ 0)
    (hlen : ls.length = n) (hst : ∀ x ∈ st.startOfIndent, x ≤ n) :
    ∃ r, body1 line n ls st = .ok r := by
  unfold body1
  simp only [hd]
  split_ifs with h1 h2 h3 h4 h5
  · exact ⟨_, rfl⟩
  · exact ⟨_, rfl⟩
  · exact absurd (numIndent_nonneg_of_detect hd (fun h => h1 (Or.inl h))) (by omega)
  · exact absurd (h0 h4) (by omega)
  · have hlt : (numIndent line).toNat - 1 < (track st.startOfIndent (numIndent line).toNat n).length := by
      rw [track_length]; omega
    rw [idx_of_lt hlt]
    simp only [Result.bind_ok]
    have hle : (track st.startOfIndent (numIndent line).toNat n)[(numIndent line).toNat - 1] ≤ n := by
      rcases mem_track (List.getElem_mem hlt) with hm | hm
      · exact hst _ hm
      · omega
    have hlt2 : (track st.startOfIndent (numIndent line).toNat n)[(numIndent line).toNat - 1] <
        (ls ++ [l]).length := by
      simp only [List.length_append, List.length_singleton]; omega
    rw [idx_of_lt hlt2]
    simp only [Result.bind_ok]
    split <;> exact ⟨_, rfl⟩
  · exact ⟨_, rfl⟩

/-- The first loop finishes when every line is classified and no label line sits
at depth 0. -/
theorem pass1_total : ∀ (lines : List (List Char)) (n : Nat) (ls : List Line)
    (st : scannerState), ls.length = n → (∀ x ∈ st.startOfIndent, x ≤ n) →
    (∀ line ∈ lines, ∃ l, detect line = some l ∧ (l.typ = .Label → numIndent line ≠ 0)) →
    ∃ r, pass1 lines n ls st = .ok r
  | [], n, ls, st, _, _, _ => ⟨_, rfl⟩
  | line :: more, n, ls, st, hlen, hst, hall => by
    obtain ⟨l, hd, h0⟩ := hall line (List.mem_cons_self _ _)
    obtain ⟨⟨ls1, st1⟩, h1⟩ := body1_total hd h0 hlen hst
    obtain ⟨l', hd', rfl, hsoi, -, -⟩ := body1_ok h1
    simp only [pass1, h1, Result.bind_ok]
    refine pass1_total more (n + 1) _ _ (by simp [hlen]) ?_
      fun x hx => hall x (List.mem_cons_of_mem _ hx)
    rw [hsoi]
    exact fun y hy => Nat.le_succ_of_le (visit_le hst y hy)

/-! ## The second loop -/

theorem body2_eq {ls : List Line} {line : List Char} {n : Nat} {st : scannerState} {l : Line}
    (hi : ls[n]? = some l) (hd : detect line = some l) :
    body2 ls line n st =
      (if (isMacroLine line && eligible st.startOfIndent line && decide (2 ≤ depth line)) = true
        then plan ls st.labels (visit st.startOfIndent line n) l n (depth line)
        else .ok []).bind fun cs =>
      .ok { startOfIndent := visit st.startOfIndent line n, labels := st.labels,
            changes := st.changes ++ cs } := by
  unfold body2
  rw [idx_eq_ok.2 hi]
  simp only [Result.bind_ok]
  by_cases h1 : l.typ = .Empty ∨ l.typ = .PreprocessorDirective
  · have hel : eligible st.startOfIndent line = false := by
      rw [Bool.eq_false_iff]; intro hc; exact ((eligible_iff hd).1 hc).1 h1
    simp [h1, hel, visit]
  · by_cases h2 : numIndent line ≥ (st.startOfIndent.length : Int) + 2
    · have hel : eligible st.startOfIndent line = false := by
        rw [Bool.eq_false_iff]; intro hc; exact ((eligible_iff hd).1 hc).2 h2
      simp [h1, h2, hel, visit]
    · have hel : eligible st.startOfIndent line = true := (eligible_iff hd).2 ⟨h1, h2⟩
      have hnn : ¬ numIndent line < 0 := by
        have := numIndent_nonneg_of_detect hd (fun h => h1 (Or.inl h)); omega
      have hv : visit st.startOfIndent line n = track st.startOfIndent (depth line) n := by
        simp [visit, hel]
      simp only [if_neg h1, if_neg h2, if_neg hnn, hel, hv, isMacroLine, hd, Bool.and_true]
      by_cases h3 : l.typ.isDisallow = true
      · by_cases h4 : depth line < 2
        · have h4' : (numIndent line).toNat < 2 := h4
          have h5 : ¬ 2 ≤ depth line := by omega
          have h5' : ¬ 2 ≤ (numIndent line).toNat := h5
          simp [h3, h4', h5', depth]
        · have h4' : ¬ (numIndent line).toNat < 2 := h4
          have h5 : 2 ≤ depth line := by omega
          simp only [h3, if_true, if_neg h4', h5, decide_True, Bool.and_true]
          rfl
      · simp [h3, depth]

theorem getElem?_append_cons_length {α : Type} (pre : List α) (x : α) (suf : List α) :
    (pre ++ x :: suf)[pre.length]? = some x := by
  rw [List.getElem?_append_right (Nat.le_refl _)]
  simp

theorem getElem_append_cons_length {α : Type} (pre : List α) (x : α) (suf : List α)
    (h : pre.length < (pre ++ x :: suf).length) : (pre ++ x :: suf)[pre.length] = x := by
  have := getElem?_append_cons_length pre x suf
  rw [List.getElem?_eq_getElem h] at this
  exact Option.some.inj this

theorem getD_append_cons_length {α : Type} (pre : List α) (x : α) (suf : List α) (d : α) :
    (pre ++ x :: suf).getD pre.length d = x := by
  rw [List.getD_eq_getElem?_getD, getElem?_append_cons_length]
  rfl

theorem stackBefore_append (pre suf : List (List Char)) :
    stackBefore (pre ++ suf) pre.length = stackOf pre 0 [0] := by
  simp [stackBefore]

theorem processed_append (pre : List (List Char)) (line : List Char) (more : List (List Char)) :
    processed (pre ++ line :: more) pre.length =
      (isMacroLine line && eligible (stackOf pre 0 [0]) line && decide (2 ≤ depth line)) := by
  simp only [processed, getElem?_append_cons_length, stackBefore_append]

theorem stackAt_append (pre : List (List Char)) (line : List Char) (more : List (List Char)) :
    stackAt (pre ++ line :: more) pre.length = visit (stackOf pre 0 [0]) line pre.length := by
  rw [stackAt_eq _ _ (by simp), getElem_append_cons_length]
  simp [stackBefore_append]

/-- The second loop is the sequence of what it does at each line. -/
theorem pass2_eq (lines : List (List Char)) (hall : ∀ line ∈ lines, (detect line).isSome)
    (labels : Nat → List Nat) :
    ∀ (suf pre : List (List Char)), lines = pre ++ suf → ∀ cs0 : List Change,
      pass2 (classify lines) suf pre.length
          { startOfIndent := stackOf pre 0 [0], labels := labels, changes := cs0 } =
        (seqR ((List.range' pre.length suf.length).map (changesAt lines labels))).bind fun cs =>
          .ok { startOfIndent := stackOf lines 0 [0], labels := labels, changes := cs0 ++ cs }
  | [], pre, hl, cs0 => by
    simp only [List.append_nil] at hl
    subst hl
    simp [pass2, seqR]
  | line :: more, pre, hl, cs0 => by
    have hd : (detect line).isSome := hall line (by rw [hl]; simp)
    obtain ⟨l, hl'⟩ := Option.isSome_iff_exists.1 hd
    have hi : (classify lines)[pre.length]? = some l := by
      rw [classify_getElem? hall, hl, getElem?_append_cons_length]
      simpa using hl'
    have hca : changesAt lines labels pre.length =
        if (isMacroLine line && eligible (stackOf pre 0 [0]) line && decide (2 ≤ depth line)) = true
        then plan (classify lines) labels (visit (stackOf pre 0 [0]) line pre.length) l pre.length
          (depth line)
        else .ok [] := by
      subst hl
      simp only [changesAt, processed_append, stackAt_append, lineAt,
        getElem?_append_cons_length, Option.some_bind, hl', Option.getD_some,
        getD_append_cons_length]
    have ih := pass2_eq lines hall labels more (pre ++ [line]) (by simp [hl])
    simp only [pass2, body2_eq hi hl', List.range'_succ, List.map_cons, seqR, hca, List.length_cons]
    simp only [List.length_append, List.length_singleton, stackOf_append, stackOf,
      Nat.zero_add] at ih
    generalize (if (isMacroLine line && eligible (stackOf pre 0 [0]) line &&
      decide (2 ≤ depth line)) = true
        then plan (classify lines) labels (visit (stackOf pre 0 [0]) line pre.length) l pre.length
          (depth line)
        else Result.ok []) = r
    cases r with
    | ok a =>
      simp only [Result.bind_ok, ih]
      cases seqR (List.map (changesAt lines labels) (List.range' (pre.length + 1) more.length)) <;>
        simp
    | err e => rfl
    | fatal => rfl
    | panic => rfl

theorem seqR_eq_ok : ∀ (rs : List (Result (List Change))) (cs : List Change),
    seqR rs = .ok cs → ∃ css : List (List Change), rs = css.map .ok ∧ cs = css.flatten
  | [], cs, h => by
    simp only [seqR, Result.ok.injEq] at h
    exact ⟨[], rfl, by simp [← h]⟩
  | r :: rs, cs, h => by
    simp only [seqR] at h
    obtain ⟨a, ha, h2⟩ := Result.bind_eq_ok h
    obtain ⟨b, hb, h3⟩ := Result.bind_eq_ok h2
    have h4 : a ++ b = cs := by simpa using h3
    obtain ⟨css, hcss, hfl⟩ := seqR_eq_ok rs b hb
    exact ⟨a :: css, by simp [ha, hcss], by simp [← h4, hfl]⟩

theorem seqR_map_ok (css : List (List Change)) : seqR (css.map .ok) = .ok css.flatten := by
  induction css with
  | nil => rfl
  | cons a t ih => simp [seqR, ih]

theorem seqR_eq_err : ∀ (rs : List (Result (List Change))) (e : ScanError),
    seqR rs = .err e → .err e ∈ rs
  | [], e, h => by simp [seqR] at h
  | r :: rs, e, h => by
    simp only [seqR] at h
    cases r with
    | ok a =>
      simp only [Result.bind_ok] at h
      have : seqR rs = .err e := by
        cases hs : seqR rs <;> rw [hs] at h <;> simp_all
      exact List.mem_cons_of_mem _ (seqR_eq_err rs e this)
    | err e' =>
      simp only [Result.bind_err, Result.err.injEq] at h
      subst h
      exact List.mem_cons_self _ _
    | fatal => simp at h
    | panic => simp at h

/-- A sequence of results that are all `ok` or `err` is `ok` or `err`. -/
theorem seqR_ok_or_err : ∀ (rs : List (Result (List Change))),
    (∀ r ∈ rs, r ≠ .panic ∧ r ≠ .fatal) →
    (∃ cs, seqR rs = .ok cs) ∨ ∃ e, seqR rs = .err e
  | [], _ => Or.inl ⟨[], rfl⟩
  | r :: rs, h => by
    have hr := h r (List.mem_cons_self _ _)
    have ih := seqR_ok_or_err rs fun x hx => h x (List.mem_cons_of_mem _ hx)
    cases r with
    | ok a =>
      rcases ih with ⟨cs, hcs⟩ | ⟨e, he⟩
      · exact Or.inl ⟨a ++ cs, by simp [seqR, hcs]⟩
      · exact Or.inr ⟨e, by simp [seqR, he]⟩
    | err e => exact Or.inr ⟨e, rfl⟩
    | fatal => exact absurd rfl hr.2
    | panic => exact absurd rfl hr.1

/-- The planned changes: the first loop has to finish, then the second loop is
the sequence of what it does at each line. -/
theorem planChanges_eq (lines : List (List Char)) {r : List Line × scannerState}
    (h1 : pass1 lines 0 [] initState = .ok r) :
    planChanges lines =
      seqR ((List.range lines.length).map (changesAt lines (labelsOf lines))) := by
  obtain ⟨ls, st⟩ := r
  obtain ⟨hls, hall, -, hch⟩ := pass1_ok lines 0 [] ls initState st h1
  simp only [List.nil_append] at hls
  subst hls
  have hlab : labelsOf lines = st.labels := by simp [labelsOf, h1]
  have := pass2_eq lines hall st.labels lines [] rfl st.changes
  simp only [List.length_nil, stackOf] at this
  simp only [planChanges, h1, Result.bind_ok, this, hlab, List.range_eq_range']
  simp only [hch, initState, List.nil_append]
  cases seqR (List.map (changesAt lines st.labels) (List.range' 0 lines.length)) <;> rfl

theorem planChanges_ok_pass1 {lines : List (List Char)} {cs : List Change}
    (h : planChanges lines = .ok cs) : ∃ r, pass1 lines 0 [] initState = .ok r := by
  unfold planChanges at h
  obtain ⟨r, hr, -⟩ := Result.bind_eq_ok h
  exact ⟨r, hr⟩

theorem firstLabels_eq (ls : List Line) : ∀ (labs : List Nat) (a b : Option Nat),
    (∀ x ∈ labs, ∃ l, ls[x]? = some l ∧ l.typ = .Label) →
    firstLabels ls labs a b =
      .ok (a <|> labs.head?,
        b <|> labs.find? fun x => decide (((ls[x]?).getD ⟨.Unrelated, []⟩).Data = "public".toList))
  | [], a, b, _ => by simp [firstLabels]
  | x :: more, a, b, h => by
    obtain ⟨l, hl, hty⟩ := h x (List.mem_cons_self _ _)
    have ih := fun a b => firstLabels_eq ls more a b fun y hy => h y (List.mem_cons_of_mem _ hy)
    simp only [firstLabels, idx_eq_ok.2 hl, Result.bind_ok, hty, if_true, ih, List.head?_cons,
      List.find?_cons, hl, Option.getD_some]
    generalize "public".toList = pub
    cases a <;> cases b <;> by_cases hp : l.Data = pub <;> simp [hp]

theorem pass1_finishes {lines : List (List Char)} (h : firstLoopFinishes lines) :
    ∃ r, pass1 lines 0 [] initState = .ok r := by
  refine pass1_total lines 0 [] initState rfl (by simp [initState]) fun line hl => ?_
  obtain ⟨h1, h2⟩ := h line hl
  obtain ⟨l, hd⟩ := Option.isSome_iff_exists.1 h1
  exact ⟨l, hd, fun ht => h2 (by simp [isLabelLine, hd, ht])⟩

theorem labelsOf_valid {lines : List (List Char)} {r : List Line × scannerState}
    (h1 : pass1 lines 0 [] initState = .ok r) (o x : Nat) (hx : x ∈ labelsOf lines o) :
    ∃ l, (classify lines)[x]? = some l ∧ l.typ = .Label := by
  obtain ⟨ls, st⟩ := r
  have hls := (pass1_ok lines 0 [] ls initState st h1).1
  simp only [List.nil_append] at hls
  subst hls
  have hlab : labelsOf lines = st.labels := by simp [labelsOf, h1]
  rw [hlab] at hx
  exact pass1_labels_inv lines 0 [] _ initState st h1 rfl (by simp [initState]) o x hx

theorem lineAt_eq_classify {lines : List (List Char)} (hall : ∀ line ∈ lines, (detect line).isSome)
    (k : Nat) : lineAt lines k = ((classify lines)[k]?).getD ⟨.Unrelated, []⟩ := by
  rw [classify_getElem? hall]
  rfl

theorem processed_lt {lines : List (List Char)} {k : Nat} (h : processed lines k = true) :
    k < lines.length := by
  by_contra hc
  simp [processed, List.getElem?_eq_none (Nat.le_of_not_lt hc)] at h

theorem processed_iff {lines : List (List Char)} {k : Nat} (hk : k < lines.length) :
    processed lines k = true ↔
      isMacroLine lines[k] = true ∧ eligible (stackBefore lines k) lines[k] = true ∧
        2 ≤ depth lines[k] := by
  simp [processed, List.getElem?_eq_getElem hk, and_assoc]

/-- What the second loop does at line `k` once the first loop has finished:
nothing at a line that is not processed, an error at a mismatch, and otherwise
the `Rem` of the line and the `Add` at the target. -/
theorem changesAt_eq {lines : List (List Char)} {r : List Line × scannerState}
    (h1 : pass1 lines 0 [] initState = .ok r) (k : Nat) :
    changesAt lines (labelsOf lines) k =
      if processed lines k = true ∧ mismatch lines k = true then .err (errorAt lines k)
      else .ok (plannedAt lines k) := by
  have hall := (pass1_ok lines 0 [] r.1 initState r.2 h1).2.1
  by_cases hp : processed lines k = true
  swap
  · simp [changesAt, plannedAt, hp]
  have hk := processed_lt hp
  obtain ⟨hm, hel, hd2⟩ := (processed_iff hk).1 hp
  have hgd : lines.getD k [] = lines[k] := by
    rw [List.getD_eq_getElem?_getD, List.getElem?_eq_getElem hk]; rfl
  have hst : stackAt lines k = track (stackBefore lines k) (depth lines[k]) k := by
    rw [stackAt_eq lines k hk]; simp [visit, hel]
  have hlen : (stackAt lines k).length = depth lines[k] + 1 := by rw [hst, track_length]
  have hcl := classify_length hall
  have hi2 : depth lines[k] - 2 < (stackAt lines k).length := by omega
  have ho : (stackAt lines k)[depth lines[k] - 2] = ownerOf lines k := by
    simp only [ownerOf, hgd, List.getD_eq_getElem?_getD, List.getElem?_eq_getElem hi2]; rfl
  have hole : ownerOf lines k ≤ k := by
    rw [← ho]; exact stackAt_le lines k hk _ (List.getElem_mem hi2)
  have hol : ownerOf lines k < (classify lines).length := by omega
  have hold : (classify lines)[ownerOf lines k] = ownerLine lines k := by
    simp only [ownerLine, lineAt_eq_classify hall, List.getElem?_eq_getElem hol]; rfl
  have hi1 : depth lines[k] - 1 < (stackAt lines k).length := by omega
  have h1le : (stackAt lines k)[depth lines[k] - 1] < (classify lines).length := by
    have := stackAt_le lines k hk _ (List.getElem_mem hi1); omega
  simp only [changesAt, hp, if_true, plan, hgd, idx_of_lt hi2, Result.bind_ok, ho, idx_of_lt hol,
    hold, true_and]
  by_cases hmm : mismatch lines k = true
  · simp only [hmm, if_true]
    simp only [mismatch, decide_eq_true_eq] at hmm
    simp only [errorAt]
    by_cases hc : (ownerLine lines k).typ = .ClassDecl
    · have hdiff := hmm.resolve_left (fun h => h hc)
      simp [hc, hdiff]
    · simp [hc]
  · simp only [hmm, Bool.false_eq_true, if_false]
    simp only [mismatch, decide_eq_true_eq, not_or, not_not] at hmm
    simp only [hmm.1, hmm.2, ne_eq, not_true_eq_false, if_false, idx_of_lt hi1,
      Result.bind_ok, idx_of_lt h1le]
    rw [firstLabels_eq _ _ _ _ (labelsOf_valid h1 _)]
    simp only [Result.bind_ok, Option.none_orElse, plannedAt, hp, if_true, remOf, addOf, targetOf,
      firstPublicOf, firstLabelOf, hgd, ← lineAt_eq_classify hall]
    cases hfp : List.find? (fun x => decide ((lineAt lines x).Data = "public".toList))
        (labelsOf lines (ownerOf lines k)) with
    | some fp => simp
    | none => cases hfl : (labelsOf lines (ownerOf lines k)).head? <;> simp

/-- The change list the two loops produce: the planned changes of all lines in
order, unless a processed invocation has a mismatch. -/
theorem planChanges_ok_iff {lines : List (List Char)} {r : List Line × scannerState}
    (h1 : pass1 lines 0 [] initState = .ok r) (cs : List Change) :
    planChanges lines = .ok cs ↔
      (∀ k, processed lines k = true → mismatch lines k = false) ∧
        cs = (List.range lines.length).flatMap (plannedAt lines) := by
  rw [planChanges_eq lines h1]
  constructor
  · intro h
    obtain ⟨css, hcss, hfl⟩ := seqR_eq_ok _ _ h
    have hnm : ∀ k, processed lines k = true → mismatch lines k = false := by
      intro k hp
      by_contra hm
      have hm' : mismatch lines k = true := by simpa using hm
      have hk := processed_lt hp
      have : changesAt lines (labelsOf lines) k ∈
          (List.range lines.length).map (changesAt lines (labelsOf lines)) :=
        List.mem_map.2 ⟨k, List.mem_range.2 hk, rfl⟩
      rw [hcss, changesAt_eq h1, if_pos ⟨hp, hm'⟩] at this
      simp at this
    refine ⟨hnm, ?_⟩
    have hmap : (List.range lines.length).map (changesAt lines (labelsOf lines)) =
        ((List.range lines.length).map (plannedAt lines)).map .ok := by
      rw [List.map_map]
      refine List.map_congr_left fun k _ => ?_
      rw [changesAt_eq h1]
      by_cases hp : processed lines k = true
      · simp [hp, hnm k hp]
      · simp [hp]
    rw [hmap, seqR_map_ok] at h
    simp only [Result.ok.injEq] at h
    rw [← h, List.flatMap_def]
  · rintro ⟨hnm, rfl⟩
    have hmap : (List.range lines.length).map (changesAt lines (labelsOf lines)) =
        ((List.range lines.length).map (plannedAt lines)).map .ok := by
      rw [List.map_map]
      refine List.map_congr_left fun k _ => ?_
      rw [changesAt_eq h1]
      by_cases hp : processed lines k = true
      · simp [hp, hnm k hp]
      · simp [hp]
    rw [hmap, seqR_map_ok, List.flatMap_def]

theorem planChanges_err_iff {lines : List (List Char)} {r : List Line × scannerState}
    (h1 : pass1 lines 0 [] initState = .ok r) :
    (∃ e, planChanges lines = .err e) ↔
      ∃ k, processed lines k = true ∧ mismatch lines k = true := by
  constructor
  · rintro ⟨e, he⟩
    rw [planChanges_eq lines h1] at he
    have := seqR_eq_err _ _ he
    obtain ⟨k, -, hk⟩ := List.mem_map.1 this
    rw [changesAt_eq h1] at hk
    split at hk
    · rename_i h; exact ⟨k, h⟩
    · cases hk
  · rintro ⟨k, hp, hm⟩
    have hoe := seqR_ok_or_err ((List.range lines.length).map (changesAt lines (labelsOf lines)))
      (by
        intro x hx
        obtain ⟨j, -, rfl⟩ := List.mem_map.1 hx
        rw [changesAt_eq h1]
        split <;> simp)
    rw [← planChanges_eq lines h1] at hoe
    rcases hoe with ⟨cs, hcs⟩ | he
    · have := ((planChanges_ok_iff h1 cs).1 hcs).1 k hp
      rw [hm] at this
      cases this
    · exact he

theorem planChanges_err_value {lines : List (List Char)} {r : List Line × scannerState}
    (h1 : pass1 lines 0 [] initState = .ok r) {e : ScanError} (he : planChanges lines = .err e) :
    ∃ k, processed lines k = true ∧ mismatch lines k = true ∧ e = errorAt lines k := by
  rw [planChanges_eq lines h1] at he
  have := seqR_eq_err _ _ he
  obtain ⟨k, -, hk⟩ := List.mem_map.1 this
  rw [changesAt_eq h1] at hk
  split at hk
  · rename_i h
    simp only [Result.err.injEq] at hk
    exact ⟨k, h.1, h.2, hk.symm⟩
  · cases hk

/-! ## The patch applier -/

theorem remSentinel_no_newline : '\n' ∉ remSentinel := by decide

theorem applyChange_eq {lines : List (List Char)} {chg : Change}
    (h : chg.target < lines.length) :
    applyChange lines chg = .ok (lines.set chg.target (cellStep lines[chg.target] chg)) := by
  obtain ⟨a, f, t, d⟩ := chg
  cases a
  · have h' : t < lines.length := h
    simp only [applyChange, Change.target, cellStep, idx_of_lt h', Result.bind_ok]
    split <;> rfl
  · have h' : f < lines.length := h
    simp [applyChange, Change.target, cellStep, h']

theorem applyChange_ok {lines lines' : List (List Char)} {chg : Change}
    (h : applyChange lines chg = .ok lines') : chg.target < lines.length := by
  obtain ⟨a, f, t, d⟩ := chg
  cases a
  · by_contra hlt
    have hlt' : lines.length ≤ t := Nat.le_of_not_lt hlt
    simp [applyChange, idx, List.getElem?_eq_none hlt'] at h
  · by_contra hlt
    have hlt' : ¬ f < lines.length := hlt
    simp [applyChange, hlt'] at h

theorem applyChanges_ok : ∀ (cs : List Change) (lines lines' : List (List Char)),
    applyChanges cs lines = .ok lines' →
    lines'.length = lines.length ∧
      ∀ j (hj : j < lines.length), lines'[j]? = some (cell j cs lines[j])
  | [], lines, lines', h => by
    simp only [applyChanges, Result.ok.injEq] at h
    subst h
    exact ⟨rfl, fun j hj => by simp [cell, List.getElem?_eq_getElem hj]⟩
  | chg :: more, lines, lines', h => by
    simp only [applyChanges] at h
    obtain ⟨mid, h1, h2⟩ := Result.bind_eq_ok h
    have ht := applyChange_ok h1
    rw [applyChange_eq ht] at h1
    simp only [Result.ok.injEq] at h1
    subst h1
    obtain ⟨hl, hc⟩ := applyChanges_ok more _ _ h2
    refine ⟨by simpa using hl, fun j hj => ?_⟩
    have := hc j (by simpa using hj)
    rw [this]
    simp only [cell, List.getElem_set]
    by_cases hjt : chg.target = j
    · simp [hjt]
    · simp [hjt]

theorem applyChanges_total : ∀ (cs : List Change) (lines : List (List Char)),
    (∀ chg ∈ cs, chg.target < lines.length) → ∃ lines', applyChanges cs lines = .ok lines'
  | [], lines, _ => ⟨lines, rfl⟩
  | chg :: more, lines, h => by
    have ht := h chg (List.mem_cons_self _ _)
    simp only [applyChanges, applyChange_eq ht, Result.bind_ok]
    exact applyChanges_total more _ fun c hc => by
      simpa using h c (List.mem_cons_of_mem _ hc)

theorem applyChanges_targets : ∀ (cs : List Change) (lines lines' : List (List Char)),
    applyChanges cs lines = .ok lines' → ∀ chg ∈ cs, chg.target < lines.length
  | [], _, _, _ => by simp
  | chg :: more, lines, lines', h => by
    simp only [applyChanges] at h
    obtain ⟨mid, h1, h2⟩ := Result.bind_eq_ok h
    have ht := applyChange_ok h1
    rw [applyChange_eq ht] at h1
    simp only [Result.ok.injEq] at h1
    subst h1
    intro c hc
    rcases List.mem_cons.1 hc with rfl | hc
    · exact ht
    · simpa using applyChanges_targets more _ _ h2 c hc

theorem render_append (a b : List (List Char)) : render (a ++ b) = render a ++ render b := by
  induction a with
  | nil => rfl
  | cons x xs ih =>
    simp only [List.cons_append, render]
    split <;> simp [ih]

theorem render_eq_flatMap (ls : List (List Char)) :
    render ls = ls.flatMap fun l => if l = remSentinel then [] else withNL l := by
  induction ls with
  | nil => rfl
  | cons x xs ih =>
    simp only [render, ih, List.flatMap_cons, withNL]
    split <;> simp

theorem applyChanges_eq_cells {cs : List Change} {lines lines' : List (List Char)}
    (h : applyChanges cs lines = .ok lines') : lines' = cells cs lines := by
  obtain ⟨hl, hc⟩ := applyChanges_ok cs lines lines' h
  apply List.ext_getElem?
  intro j
  by_cases hj : j < lines.length
  · rw [hc j hj]
    simp [cells, List.getElem?_map, List.getElem?_range hj, List.getD_eq_getElem?_getD,
      List.getElem?_eq_getElem hj]
  · have hj' : lines.length ≤ j := Nat.le_of_not_lt hj
    rw [List.getElem?_eq_none (by omega), List.getElem?_eq_none (by simp [cells]; omega)]

theorem render_eq_blocks (ls : List (List Char)) : render ls = (ls.map block).flatten := by
  rw [render_eq_flatMap, List.flatMap_def]
  rfl

theorem cell_append (j : Nat) : ∀ (a b : List Change) (cur : List Char),
    cell j (a ++ b) cur = cell j b (cell j a cur)
  | [], _, _ => rfl
  | c :: a, b, cur => by
    simp only [List.cons_append, cell]
    exact cell_append j a b _

theorem cell_untouched (j : Nat) : ∀ (cs : List Change) (cur : List Char),
    (∀ chg ∈ cs, chg.target ≠ j) → cell j cs cur = cur
  | [], _, _ => rfl
  | c :: cs, cur, h => by
    simp only [cell, h c (List.mem_cons_self _ _), if_false]
    exact cell_untouched j cs cur fun x hx => h x (List.mem_cons_of_mem _ hx)

theorem insertsTo_cons (j : Nat) (c : Change) (cs : List Change) :
    insertsTo j (c :: cs) =
      if c.Action = .Add ∧ c.To = j then c.Data :: insertsTo j cs else insertsTo j cs := by
  simp only [insertsTo, List.filter_cons]
  by_cases h : c.Action = .Add ∧ c.To = j
  · simp [h]
  · have h' : (decide (c.Action = Action.Add) && decide (c.To = j)) = false := by
      simpa using h
    simp [h, h']

theorem insertsTo_append (j : Nat) (a b : List Change) :
    insertsTo j (a ++ b) = insertsTo j a ++ insertsTo j b := by
  simp [insertsTo]

theorem ne_remSentinel_of_newline {l : List Char} (h : '\n' ∈ l) : l ≠ remSentinel := by
  rintro rfl
  exact remSentinel_no_newline h

/-- A line that no `Rem` targets and that is not the marker ends up as its
inserts, the last emitted first, each followed by a newline, before its
original content. -/
theorem cell_no_rem (j : Nat) : ∀ (cs : List Change) (cur : List Char),
    (∀ chg ∈ cs, chg.Action = .Rem → chg.From ≠ j) → cur ≠ remSentinel →
    cell j cs cur = (insertsTo j cs).reverse.flatMap withNL ++ cur ∧ cell j cs cur ≠ remSentinel
  | [], cur, _, hc => by simp [cell, insertsTo, hc]
  | c :: cs, cur, h, hc => by
    have hrest : ∀ chg ∈ cs, chg.Action = .Rem → chg.From ≠ j :=
      fun x hx => h x (List.mem_cons_of_mem _ hx)
    obtain ⟨a, f, t, d⟩ := c
    cases a
    · by_cases ht : t = j
      · have ih := cell_no_rem j cs (d ++ '\n' :: cur) hrest
          (ne_remSentinel_of_newline (by simp))
        simp only [cell, Change.target, ht, if_true, cellStep, if_neg hc, insertsTo_cons,
          and_self, List.reverse_cons, List.flatMap_append, List.flatMap_singleton, withNL,
          List.append_assoc, List.singleton_append]
        simpa [withNL] using ih
      · simp only [cell, Change.target, ht, if_false, insertsTo_cons, and_false]
        exact cell_no_rem j cs cur hrest hc
    · have hf : f ≠ j := h _ (List.mem_cons_self _ _) rfl
      simp only [cell, Change.target, hf, if_false, insertsTo_cons]
      simpa using cell_no_rem j cs cur hrest hc

theorem render_ends : ∀ ls : List (List Char), render ls = [] ∨ (render ls).getLast? = some '\n'
  | [] => Or.inl rfl
  | l :: ls => by
    simp only [render]
    split
    · exact render_ends ls
    · rcases render_ends ls with h | h
      · right; simp [h]
      · right
        have hne : render ls ≠ [] := by rintro h'; rw [h'] at h; cases h
        rw [show l ++ '\n' :: render ls = (l ++ ['\n']) ++ render ls by simp,
          List.getLast?_append_of_ne_nil _ hne]
        exact h

theorem withNL_ends (l : List Char) : (withNL l).getLast? = some '\n' := by
  simp [withNL]

theorem flatMap_withNL_ends : ∀ ls : List (List Char),
    ls.flatMap withNL = [] ∨ (ls.flatMap withNL).getLast? = some '\n'
  | [] => Or.inl rfl
  | l :: ls => by
    right
    simp only [List.flatMap_cons]
    rcases flatMap_withNL_ends ls with h | h
    · rw [h, List.append_nil]; exact withNL_ends l
    · have hne : ls.flatMap withNL ≠ [] := by rintro h'; rw [h'] at h; cases h
      rw [List.getLast?_append_of_ne_nil _ hne]
      exact h

theorem append_ends {a b : List Char} (ha : a = [] ∨ a.getLast? = some '\n')
    (hb : b = [] ∨ b.getLast? = some '\n') : a ++ b = [] ∨ (a ++ b).getLast? = some '\n' := by
  rcases hb with rfl | hb
  · simpa using ha
  · right
    have hne : b ≠ [] := by rintro h'; rw [h'] at hb; cases hb
    rw [List.getLast?_append_of_ne_nil _ hne]
    exact hb

/-! ## The whole scan -/

theorem applyChange_ne_err (ls : List (List Char)) (c : Change) (e : ScanError) :
    applyChange ls c ≠ .err e := by
  by_cases h : c.target < ls.length
  · rw [applyChange_eq h]; simp
  · intro hc
    obtain ⟨a, f, t, d⟩ := c
    cases a
    · have h' : ls.length ≤ t := Nat.le_of_not_lt h
      simp [applyChange, idx, List.getElem?_eq_none h'] at hc
    · have h' : ¬ f < ls.length := h
      simp [applyChange, h'] at hc

theorem applyChanges_ne_err : ∀ (cs : List Change) (ls : List (List Char)) (e : ScanError),
    applyChanges cs ls ≠ .err e
  | [], _, _ => by simp [applyChanges]
  | c :: t, ls, e => by
    simp only [applyChanges]
    exact Result.bind_ne_err (applyChange_ne_err ls c e) fun m => applyChanges_ne_err t m e

theorem scanOfLines_err_iff (lines : List (List Char)) (e : ScanError) :
    scanOfLines lines = .err e ↔ planChanges lines = .err e := by
  unfold scanOfLines
  cases hp : planChanges lines with
  | ok cs =>
    simp only [Result.bind_ok]
    split
    · simp
    · have := applyChanges_ne_err cs lines e
      cases ha : applyChanges cs lines <;> simp_all
  | err e' => simp
  | fatal => simp
  | panic => simp

/-- When every line fits the buffer of the scanner, `scan` is the two loops and
the patch applier on all lines of the text. -/
theorem scan_of_fits {r : String} (hfit : tooLong r.toList = false) :
    scan r = (scanOfLines (scanLines r.toList)).bind fun out => .ok (String.mk out) := by
  unfold scan scannedLines scanOfLines planChanges
  simp only [hfit, Bool.false_eq_true, if_false]
  cases pass1 (scanLines r.toList) 0 [] initState with
  | ok a =>
    simp only [Result.bind_ok]
    cases pass2 a.1 (scanLines r.toList) 0 { a.2 with startOfIndent := [0] } with
    | ok st =>
      simp only [Result.bind_ok]
      split
      · rfl
      · cases applyChanges st.changes (scanLines r.toList) <;> rfl
    | err e => rfl
    | fatal => rfl
    | panic => rfl
  | err e => rfl
  | fatal => rfl
  | panic => rfl

/-- When a line does not fit the buffer, `scan` returns the scanner's error
after the first loop over the lines before it. -/
theorem scan_of_tooLong {r : String} (hlong : tooLong r.toList = true) :
    scan r = (pass1 (scannedLines r.toList) 0 [] initState).bind fun _ => .err .ErrTooLong := by
  unfold scan
  simp only [hlong, if_true]

theorem scan_ok_fits {r out : String} (h : scan r = .ok out) : tooLong r.toList = false := by
  cases hl : tooLong r.toList with
  | false => rfl
  | true =>
    rw [scan_of_tooLong hl] at h
    cases hp : pass1 (scannedLines r.toList) 0 [] initState <;> rw [hp] at h <;> cases h

theorem scan_eq_err_iff (r : String) (hfit : tooLong r.toList = false) (e : ScanError) :
    scan r = .err e ↔ planChanges (scanLines r.toList) = .err e := by
  rw [← scanOfLines_err_iff, scan_of_fits hfit]
  cases scanOfLines (scanLines r.toList) <;> simp

theorem scan_of_planChanges_nil {r : String} (hfit : tooLong r.toList = false)
    (h : planChanges (scanLines r.toList) = .ok []) :
    scan r = .ok "" := by
  rw [scan_of_fits hfit]
  unfold scanOfLines
  rw [h]
  rfl

theorem plannedAt_of_not_processed {lines : List (List Char)} {k : Nat}
    (h : processed lines k = false) : plannedAt lines k = [] := by
  simp [plannedAt, h]

theorem flatMap_plannedAt_nil {lines : List (List Char)}
    (h : ∀ k, k < lines.length → processed lines k = false) :
    (List.range lines.length).flatMap (plannedAt lines) = [] := by
  rw [List.flatMap_eq_nil_iff]
  intro k hk
  exact plannedAt_of_not_processed (h k (List.mem_range.1 hk))

theorem pass1_ne_err : ∀ (lines : List (List Char)) (n : Nat) (ls : List Line)
    (st : scannerState) (e : ScanError), pass1 lines n ls st ≠ .err e
  | [], _, _, _, _ => by simp [pass1]
  | line :: more, n, ls, st, e => by
    simp only [pass1]
    exact Result.bind_ne_err body1_ne_err fun a => pass1_ne_err more (n + 1) a.1 a.2 e

theorem planChanges_err_pass1 {lines : List (List Char)} {e : ScanError}
    (h : planChanges lines = .err e) : ∃ r, pass1 lines 0 [] initState = .ok r := by
  unfold planChanges at h
  cases h1 : pass1 lines 0 [] initState with
  | ok r => exact ⟨r, rfl⟩
  | err e' => exact absurd h1 (pass1_ne_err _ _ _ _ _)
  | fatal => rw [h1] at h; cases h
  | panic => rw [h1] at h; cases h

theorem mem_flatMap_plannedAt {lines : List (List Char)} {chg : Change} {n : Nat}
    (h : chg ∈ (List.range n).flatMap (plannedAt lines)) :
    ∃ j, processed lines j = true ∧ (chg = remOf j ∨ chg = addOf lines j) := by
  obtain ⟨j, -, hj⟩ := List.mem_flatMap.1 h
  unfold plannedAt at hj
  split at hj
  · rename_i hp
    simp only [List.mem_cons, List.mem_singleton, List.not_mem_nil, or_false] at hj
    exact ⟨j, hp, hj⟩
  · cases hj

theorem processed_getD {lines : List (List Char)} {k : Nat} (h : processed lines k = true) :
    (lineAt lines k).typ.isDisallow = true ∧ 2 ≤ depth (lines.getD k []) := by
  have hk := processed_lt h
  obtain ⟨hm, -, hd⟩ := (processed_iff hk).1 h
  have hgd : lines.getD k [] = lines[k] := by
    rw [List.getD_eq_getElem?_getD, List.getElem?_eq_getElem hk]; rfl
  refine ⟨?_, by rw [hgd]; exact hd⟩
  simp only [lineAt, List.getElem?_eq_getElem hk, Option.some_bind]
  unfold isMacroLine at hm
  split at hm
  · cases hm
  · rename_i l hl
    simpa [hl] using hm

/-- What a successful `scan` with a non-empty output is made of: a non-empty
change list and the final loop over the changed lines. -/
theorem scan_ok_nonempty {r : String} {out : String} (h : scan r = .ok out) (hne : out ≠ "") :
    ∃ cs, planChanges (scanLines r.toList) = .ok cs ∧ cs ≠ [] ∧
      (∀ chg ∈ cs, chg.target < (scanLines r.toList).length) ∧
      out.toList = render (cells cs (scanLines r.toList)) := by
  rw [scan_of_fits (scan_ok_fits h)] at h
  unfold scanOfLines at h
  obtain ⟨o, h2, ho⟩ := Result.bind_eq_ok h
  obtain ⟨cs, hcs, h3⟩ := Result.bind_eq_ok h2
  simp only [Result.ok.injEq] at ho
  subst ho
  refine ⟨cs, hcs, ?_⟩
  split at h3
  · simp only [Result.ok.injEq] at h3
    subst h3
    exact absurd rfl hne
  · rename_i hlen
    obtain ⟨lines', hap, h4⟩ := Result.bind_eq_ok h3
    simp only [Result.ok.injEq] at h4
    subst h4
    refine ⟨fun hc => hlen (by simp [hc]), applyChanges_targets _ _ _ hap, ?_⟩
    rw [applyChanges_eq_cells hap]
    rfl

theorem scan_of_changes {r : String} {cs : List Change} (hfit : tooLong r.toList = false)
    (hcs : planChanges (scanLines r.toList) = .ok cs) (hne : cs ≠ [])
    (ht : ∀ chg ∈ cs, chg.target < (scanLines r.toList).length) :
    scan r = .ok (String.mk (render (cells cs (scanLines r.toList)))) := by
  obtain ⟨lines', hap⟩ := applyChanges_total cs _ ht
  have hl : ¬ cs.length = 0 := fun h => hne (List.length_eq_zero.1 h)
  rw [scan_of_fits hfit]
  unfold scanOfLines
  rw [hcs]
  simp only [Result.bind_ok, if_neg hl, hap, applyChanges_eq_cells hap]

theorem cells_length (cs : List Change) (lines : List (List Char)) :
    (cells cs lines).length = lines.length := by
  simp [cells]

theorem cells_getElem? (cs : List Change) (lines : List (List Char)) {j : Nat}
    (hj : j < lines.length) : (cells cs lines)[j]? = some (cell j cs (lines.getD j [])) := by
  simp [cells, List.getElem?_map, List.getElem?_range hj]

theorem list_split_at {α : Type} (l : List α) {j : Nat} {x : α} (h : l[j]? = some x) :
    l = l.take j ++ x :: l.drop (j + 1) := by
  have hj : j < l.length := by
    by_contra hc
    rw [List.getElem?_eq_none (Nat.le_of_not_lt hc)] at h
    cases h
  rw [List.getElem?_eq_getElem hj] at h
  simp only [Option.some.injEq] at h
  subst h
  have := List.take_append_drop j l
  rw [List.drop_eq_getElem_cons hj] at this
  exact this.symm

theorem render_cells_split (cs : List Change) (lines : List (List Char)) {j : Nat}
    (hj : j < lines.length) :
    render (cells cs lines) =
      render ((cells cs lines).take j) ++ block (cell j cs (lines.getD j [])) ++
        render ((cells cs lines).drop (j + 1)) := by
  have := list_split_at (cells cs lines) (cells_getElem? cs lines hj)
  conv_lhs => rw [this]
  rw [render_append]
  simp only [render, block, withNL]
  split <;> simp

theorem range_split {k n : Nat} (hk : k < n) :
    List.range n = List.range k ++ k :: List.range' (k + 1) (n - k - 1) := by
  have h1 : n = (n - k - 1) + 1 + k := by omega
  conv_lhs => rw [h1, List.range_eq_range', ← List.range'_append_1 0 k ((n - k - 1) + 1)]
  rw [List.range'_succ, List.range_eq_range', Nat.zero_add]

theorem flatMap_congr' {α β : Type} {l : List α} {f g : α → List β}
    (h : ∀ x ∈ l, f x = g x) : l.flatMap f = l.flatMap g := by
  rw [List.flatMap_def, List.flatMap_def, List.map_congr_left h]

/-- The change list, cut at line `k`. -/
theorem planned_split (lines : List (List Char)) {k : Nat} (hk : k < lines.length) :
    (List.range lines.length).flatMap (plannedAt lines) =
      (List.range k).flatMap (plannedAt lines) ++ plannedAt lines k ++
        (List.range' (k + 1) (lines.length - k - 1)).flatMap (plannedAt lines) := by
  rw [range_split hk, List.flatMap_append, List.flatMap_cons, List.append_assoc]

theorem mem_planned_before {lines : List (List Char)} {chg : Change} {k : Nat}
    (h : chg ∈ (List.range k).flatMap (plannedAt lines)) :
    ∃ j, j < k ∧ processed lines j = true ∧ (chg = remOf j ∨ chg = addOf lines j) := by
  obtain ⟨j, hj, hc⟩ := List.mem_flatMap.1 h
  unfold plannedAt at hc
  split at hc
  · rename_i hp
    simp only [List.mem_cons, List.mem_singleton, List.not_mem_nil, or_false] at hc
    exact ⟨j, List.mem_range.1 hj, hp, hc⟩
  · cases hc

theorem mem_planned_after {lines : List (List Char)} {chg : Change} {k m : Nat}
    (h : chg ∈ (List.range' (k + 1) m).flatMap (plannedAt lines)) :
    ∃ j, k < j ∧ processed lines j = true ∧ (chg = remOf j ∨ chg = addOf lines j) := by
  obtain ⟨j, hj, hc⟩ := List.mem_flatMap.1 h
  unfold plannedAt at hc
  split at hc
  · rename_i hp
    simp only [List.mem_cons, List.mem_singleton, List.not_mem_nil, or_false] at hc
    exact ⟨j, by have := (List.mem_range'_1.1 hj).1; omega, hp, hc⟩
  · cases hc

theorem lineAt_of_lt {lines : List (List Char)} {k : Nat} (hk : k < lines.length) :
    lineAt lines k = (detect (lines.getD k [])).getD ⟨.Unrelated, []⟩ := by
  simp [lineAt, List.getD_eq_getElem?_getD, List.getElem?_eq_getElem hk]

theorem lineAt_of_ge {lines : List (List Char)} {k : Nat} (hk : lines.length ≤ k) :
    lineAt lines k = ⟨.Unrelated, []⟩ := by
  simp [lineAt, List.getElem?_eq_none hk]

theorem detect_remSentinel : detect remSentinel = some ⟨.Unrelated, []⟩ := by decide

/-- A line classified as anything but `Unrelated` is not the marker. -/
theorem ne_remSentinel_of_typ {lines : List (List Char)} {k : Nat}
    (h : (lineAt lines k).typ ≠ .Unrelated) : lines.getD k [] ≠ remSentinel := by
  intro hs
  by_cases hk : k < lines.length
  · rw [lineAt_of_lt hk, hs, detect_remSentinel] at h
    exact h rfl
  · rw [lineAt_of_ge (Nat.le_of_not_lt hk)] at h
    exact h rfl

theorem lt_of_typ {lines : List (List Char)} {k : Nat}
    (h : (lineAt lines k).typ ≠ .Unrelated) : k < lines.length := by
  by_contra hk
  rw [lineAt_of_ge (Nat.le_of_not_lt hk)] at h
  exact h rfl

theorem replacements_head {ty : LineType} (t : List Char) {d : Nat} (hty : ty.isDisallow = true)
    (hd : 1 ≤ d) : ∃ u, replacements ty t (List.replicate d ' ') = ' ' :: u := by
  obtain ⟨e, rfl⟩ : ∃ e, d = e + 1 := ⟨d - 1, by omega⟩
  cases ty <;> simp [LineType.isDisallow] at hty <;>
    simp [replacements, List.replicate_succ]

theorem addData_head (l : Line) {d : Nat} (b : Bool) (hty : l.typ.isDisallow = true)
    (hd : 2 ≤ d) : ∃ u, addData l d b = ' ' :: u := by
  unfold addData
  cases b
  · simpa using replacements_head l.Data hty (by omega)
  · obtain ⟨e, rfl⟩ : ∃ e, d = e + 2 := ⟨d - 2, by omega⟩
    simp [List.replicate_succ]

theorem cons_space_ne_remSentinel (u : List Char) : ' ' :: u ≠ remSentinel := by
  intro h
  have h2 := congrArg List.head? h
  rw [List.head?_cons] at h2
  exact absurd h2 (by decide)

theorem addData_true (l : Line) (d : Nat) :
    addData l d true =
      List.replicate (d - 1) ' ' ++ "public:\n".toList ++
        replacements l.typ l.Data (List.replicate d ' ') := by
  simp [addData, List.take_replicate]

theorem withNL_addData_true (l : Line) (d : Nat) :
    withNL (addData l d true) =
      withNL (List.replicate (d - 1) ' ' ++ "public:".toList) ++
        withNL (replacements l.typ l.Data (List.replicate d ' ')) := by
  simp [addData_true, withNL]

/-- The owner of a processed invocation without mismatch: an earlier line,
classified as a type declaration. -/
theorem owner_facts {lines : List (List Char)} {k : Nat} (hp : processed lines k = true)
    (hm : mismatch lines k = false) :
    ownerOf lines k < k ∧ (lineAt lines (ownerOf lines k)).typ = .ClassDecl ∧
      (lineAt lines k).Data = (lineAt lines (ownerOf lines k)).Data := by
  have hk := processed_lt hp
  obtain ⟨-, hel, hd2⟩ := (processed_iff hk).1 hp
  have hgd : lines.getD k [] = lines[k] := by
    rw [List.getD_eq_getElem?_getD, List.getElem?_eq_getElem hk]; rfl
  have hst : stackAt lines k = track (stackBefore lines k) (depth lines[k]) k := by
    rw [stackAt_eq lines k hk]; simp [visit, hel]
  have hlen : (stackAt lines k).length = depth lines[k] + 1 := by rw [hst, track_length]
  have hi2 : depth lines[k] - 2 < (stackAt lines k).length := by omega
  have ho : (stackAt lines k)[depth lines[k] - 2] = ownerOf lines k := by
    simp only [ownerOf, hgd, List.getD_eq_getElem?_getD, List.getElem?_eq_getElem hi2]; rfl
  have hole : ownerOf lines k ≤ k := by
    rw [← ho]; exact stackAt_le lines k hk _ (List.getElem_mem hi2)
  simp only [mismatch, ownerLine, Bool.decide_or, Bool.or_eq_false_iff, decide_eq_false_iff_not,
    not_not, ne_eq] at hm
  refine ⟨?_, hm.1, hm.2⟩
  rcases Nat.lt_or_eq_of_le hole with h | h
  · exact h
  · exfalso
    have h1 := (processed_getD hp).1
    rw [← h, hm.1] at h1
    simp [LineType.isDisallow] at h1

theorem render_concat (a : List (List Char)) (x : List Char) :
    render (a ++ [x]) = render a ++ block x := by
  rw [render_append]
  simp only [render, block, withNL]

theorem render_cells_split2 (cs : List Change) (lines : List (List Char)) {j : Nat}
    (hj : j + 1 < lines.length) :
    render (cells cs lines) =
      render ((cells cs lines).take j) ++ block (cell j cs (lines.getD j [])) ++
        block (cell (j + 1) cs (lines.getD (j + 1) [])) ++
        render ((cells cs lines).drop (j + 2)) := by
  rw [render_cells_split cs lines hj, List.take_succ,
    cells_getElem? cs lines (Nat.lt_of_succ_lt hj), Option.toList_some, render_concat]

/-- The line an `Add` targets last: its final content starts with the text of
that `Add`, on lines of its own. -/
theorem block_cell_last_add (j : Nat) (cur : List Char) (rem add : Change)
    (hadd : add.Action = .Add) (hto : add.To = j)
    (hd : ∃ u, add.Data = ' ' :: u) :
    ∃ tail, block (cell j [rem, add] cur) = withNL add.Data ++ tail := by
  obtain ⟨u, hu⟩ := hd
  have hne : add.Data ≠ remSentinel := by rw [hu]; exact cons_space_ne_remSentinel u
  have hta : add.target = j := by simp [Change.target, hadd, hto]
  simp only [cell, hta, if_true]
  generalize (if rem.target = j then cellStep cur rem else cur) = x
  simp only [cellStep, hadd]
  by_cases hx : x = remSentinel
  · exact ⟨[], by simp [hx, block, hne]⟩
  · refine ⟨withNL x, ?_⟩
    have hne2 : add.Data ++ '\n' :: x ≠ remSentinel := by
      rw [hu]; exact cons_space_ne_remSentinel _
    simp [hx, block, hne2, withNL]

theorem processed_ne_of_typ {lines : List (List Char)} {j o : Nat}
    (hp : processed lines j = true) (ho : (lineAt lines o).typ.isDisallow = false) : j ≠ o := by
  rintro rfl
  rw [(processed_getD hp).1] at ho
  cases ho

/-- No `Rem` of the change list targets a line that is not a macro invocation. -/
theorem no_rem_of_typ {lines : List (List Char)} {o n : Nat}
    (ho : (lineAt lines o).typ.isDisallow = false) :
    ∀ chg ∈ (List.range n).flatMap (plannedAt lines), chg.Action = .Rem → chg.From ≠ o := by
  intro chg hc hr
  obtain ⟨j, hpj, hj | hj⟩ := mem_flatMap_plannedAt hc
  · subst hj
    exact processed_ne_of_typ hpj ho
  · subst hj
    simp [addOf] at hr

theorem flatMap_insert_at {n q : Nat} (hq : q < n) (x : List Char) (keep : Nat → List Char) :
    (List.range n).flatMap (fun j => (if j = q then x else []) ++ keep j) =
      (List.range q).flatMap keep ++ x ++ (List.range' q (n - q)).flatMap keep := by
  obtain ⟨m, rfl⟩ : ∃ m, n = q + 1 + m := ⟨n - q - 1, by omega⟩
  have e1 : q + 1 + m - q = m + 1 := by omega
  rw [range_split hq, List.flatMap_append, List.flatMap_cons, e1, Nat.add_sub_cancel,
    List.range'_succ, List.flatMap_cons]
  have h1 : (List.range q).flatMap (fun j => (if j = q then x else []) ++ keep j) =
      (List.range q).flatMap keep := by
    refine flatMap_congr' fun j hj => ?_
    have : j ≠ q := Nat.ne_of_lt (List.mem_range.1 hj)
    simp [this]
  have h2 : (List.range' (q + 1) m).flatMap
      (fun j => (if j = q then x else []) ++ keep j) =
      (List.range' (q + 1) m).flatMap keep := by
    refine flatMap_congr' fun j hj => ?_
    have : j ≠ q := by have := (List.mem_range'_1.1 hj).1; omega
    simp [this]
  rw [h1, h2]
  simp

theorem render_cells_eq (cs : List Change) (lines : List (List Char)) :
    render (cells cs lines) =
      (List.range lines.length).flatMap fun j => block (cell j cs (lines.getD j [])) := by
  rw [render_eq_blocks, cells, List.map_map, List.flatMap_def]
  rfl

theorem head?_mem' {α : Type} {l : List α} {a : α} (h : l.head? = some a) : a ∈ l := by
  cases l with
  | nil => cases h
  | cons x xs =>
    simp only [List.head?_cons, Option.some.injEq] at h
    subst h
    exact List.mem_cons_self _ _

/-- A recorded label is a line of the input classified as a label. -/
theorem label_facts {lines : List (List Char)} {r : List Line × scannerState}
    (h1 : pass1 lines 0 [] initState = .ok r) {o x : Nat} (hx : x ∈ labelsOf lines o) :
    (lineAt lines x).typ = .Label := by
  have hall := (pass1_ok lines 0 [] r.1 initState r.2 h1).2.1
  obtain ⟨l, hl, hty⟩ := labelsOf_valid h1 o x hx
  rw [lineAt_eq_classify hall, hl]
  exact hty

/-! ## The lines of the inserted texts -/

theorem spaceAfterS_skip {u : List Char} (hu : ∀ x ∈ u, x ≠ ' ') (c y : Char) (v : List Char)
    (hy : y ≠ ' ') : spaceAfterS c (u ++ y :: v) = spaceAfterS y v := by
  induction u generalizing c with
  | nil => simp [spaceAfterS, hy]
  | cons x xs ih =>
    have hx : (x == ' ') = false := by
      simpa using hu x (List.mem_cons_self _ _)
    simp only [List.cons_append, spaceAfterS, hx, Bool.and_false, Bool.false_or]
    exact ih (fun z hz => hu z (List.mem_cons_of_mem _ hz)) x

theorem spaceAfterS_spaces (n : Nat) {c : Char} (hc : c ≠ 's') (v : List Char) :
    ∃ c', c' ≠ 's' ∧ spaceAfterS c (List.replicate n ' ' ++ v) = spaceAfterS c' v := by
  induction n generalizing c with
  | zero => exact ⟨c, hc, rfl⟩
  | succ n ih =>
    obtain ⟨c', hc', h⟩ := ih (c := ' ') (by decide)
    refine ⟨c', hc', ?_⟩
    have hc2 : (c == 's') = false := by simpa using hc
    simp only [List.replicate_succ, List.cons_append, spaceAfterS, hc2, Bool.false_and,
      Bool.false_or]
    exact h

theorem mem_expansionLines {ty : LineType} {t : List Char} {d : Nat} {e : List Char}
    (h : e ∈ expansionLines ty t (List.replicate d ' ')) : IsDataLine t d e := by
  unfold IsDataLine
  cases ty <;> simp only [expansionLines, List.mem_cons, List.mem_singleton, List.not_mem_nil,
    or_false] at h
  · subst h; right; left; simp
  · subst h; right; right; left; simp
  · rcases h with rfl | rfl
    · right; left; simp
    · right; right; left; simp
  · rcases h with rfl | rfl | rfl
    · right; right; right; simp
    · right; left; simp
    · right; right; left; simp

theorem mem_dataLines {l : Line} {d : Nat} {b : Bool} {e : List Char}
    (h : e ∈ dataLines l d b) : IsDataLine l.Data d e := by
  simp only [dataLines, List.mem_append] at h
  rcases h with h | h
  · cases b
    · simp at h
    · simp only [if_true, List.mem_singleton] at h
      exact Or.inl h
  · exact mem_expansionLines h

theorem replacements_eq_joinNL {ty : LineType} (t ind : List Char)
    (hty : ty.isDisallow = true) :
    replacements ty t ind = joinNL (expansionLines ty t ind) ∧ expansionLines ty t ind ≠ [] := by
  cases ty <;> simp [LineType.isDisallow] at hty <;>
    simp [replacements, expansionLines, joinNL]

theorem addData_eq_joinNL (l : Line) (d : Nat) (b : Bool) (hty : l.typ.isDisallow = true) :
    addData l d b = joinNL (dataLines l d b) ∧ dataLines l d b ≠ [] := by
  obtain ⟨h1, h2⟩ := replacements_eq_joinNL l.Data (List.replicate d ' ') hty
  cases b
  · simp [addData, dataLines, h1, h2]
  · refine ⟨?_, by simp [dataLines]⟩
    rw [addData_true, h1]
    simp only [dataLines, if_true]
    cases he : expansionLines l.typ l.Data (List.replicate d ' ') with
    | nil => exact absurd he h2
    | cons x xs => simp [joinNL]

theorem afterParen_cons {c : Char} (v : List Char) (h : c ≠ ')') :
    afterParen (c :: v) = afterParen v := by
  simp [afterParen, h]

theorem EndsWith.append {c : Char} {v : List Char} (h : EndsWith c v) (u : List Char) :
    EndsWith c (u ++ v) := by
  obtain ⟨w, rfl⟩ := h
  exact ⟨u ++ w, by simp⟩

theorem EndsWith.cons {c : Char} {v : List Char} (h : EndsWith c v) (x : Char) :
    EndsWith c (x :: v) := by
  obtain ⟨w, rfl⟩ := h
  exact ⟨x :: w, by simp⟩

theorem dropCR_of_endsWith {c : Char} {e : List Char} (h : EndsWith c e) (hc : c ≠ '\r') :
    dropCR e = e := by
  obtain ⟨u, rfl⟩ := h
  have : ¬ c = '\r' := hc
  simp [dropCR, this]

theorem endsWith_delete : EndsWith ';' "&) = delete;".toList := ⟨"&) = delete".toList, rfl⟩

/-- What an inserted line is like, for a type name without space, `)` or
newline, at depth at least 2: it starts with a space, has no newline, does not
end in a carriage return, has no `;` after its first `)` and no space after an
`s`. -/
theorem dataLine_facts {t : List Char} {d : Nat} {e : List Char} (h : IsDataLine t d e)
    (hd : 2 ≤ d) (hsp : ∀ c ∈ t, c ≠ ' ') (hpar : ∀ c ∈ t, c ≠ ')') (hnl : ∀ c ∈ t, c ≠ '\n') :
    (∃ u, e = ' ' :: u) ∧ '\n' ∉ e ∧ dropCR e = e ∧ afterParen e ≠ some ';' ∧
      spaceAfterS ' ' e = false := by
  obtain ⟨n, rfl⟩ : ∃ n, d = n + 2 := ⟨d - 2, by omega⟩
  have hrp : ∀ k : Nat, ∀ c ∈ List.replicate k ' ', c ≠ ')' := by
    intro k c hc; rw [(List.mem_replicate.1 hc).2]; decide
  have hnl' : '\n' ∉ t := fun hc => hnl _ hc rfl
  rcases h with rfl | rfl | rfl | rfl
  · refine ⟨⟨List.replicate n ' ' ++ "public:".toList, by simp [List.replicate_succ]⟩,
      by simp, ?_, ?_, ?_⟩
    · exact dropCR_of_endsWith (EndsWith.append ⟨"public".toList, rfl⟩ _) (by decide)
    · rw [afterParen_append _ (hrp _)]
      decide
    · obtain ⟨c', hc', h⟩ := spaceAfterS_spaces (n + 2 - 1) (c := ' ') (by decide)
        "public:".toList
      rw [h]
      have hc2 : (c' == 's') = false := by simpa using hc'
      simp [spaceAfterS, hc2]
  · refine ⟨⟨List.replicate (n + 1) ' ' ++ _, by rw [List.replicate_succ]; rfl⟩,
      by simp [hnl'], ?_, ?_, ?_⟩
    · exact dropCR_of_endsWith (EndsWith.append (EndsWith.append (EndsWith.cons
        (EndsWith.append (EndsWith.append endsWith_delete _) _) _) _) _) (by decide)
    · rw [afterParen_append _ (hrp _), afterParen_append _ hpar,
        afterParen_cons _ (by decide), afterParen_append _ (by decide),
        afterParen_append _ hpar]
      decide
    · obtain ⟨c', hc', h⟩ := spaceAfterS_spaces (n + 2) (c := ' ') (by decide)
        (t ++ '(' :: ("const ".toList ++ (t ++ "&) = delete;".toList)))
      rw [h, spaceAfterS_skip hsp _ _ _ (by decide)]
      have : "const ".toList ++ (t ++ "&) = delete;".toList) =
          'c' :: 'o' :: 'n' :: 's' :: 't' :: ' ' :: (t ++ '&' :: ") = delete;".toList) := by simp
      rw [this]
      simp only [spaceAfterS]
      rw [spaceAfterS_skip hsp _ _ _ (by decide)]
      decide
  · refine ⟨⟨List.replicate (n + 1) ' ' ++ _, by rw [List.replicate_succ]; rfl⟩,
      by simp [hnl'], ?_, ?_, ?_⟩
    · exact dropCR_of_endsWith (EndsWith.append (EndsWith.append (EndsWith.cons
        (EndsWith.append (EndsWith.append endsWith_delete _) _) _) _) _) (by decide)
    · rw [afterParen_append _ (hrp _), afterParen_append _ hpar,
        afterParen_cons _ (by decide), afterParen_append _ (by decide),
        afterParen_append _ hpar]
      decide
    · obtain ⟨c', hc', h⟩ := spaceAfterS_spaces (n + 2) (c := ' ') (by decide)
        (t ++ '&' :: (" operator=(const ".toList ++ (t ++ "&) = delete;".toList)))
      rw [h, spaceAfterS_skip hsp _ _ _ (by decide)]
      have : " operator=(const ".toList ++ (t ++ "&) = delete;".toList) =
          ' ' :: 'o' :: 'p' :: 'e' :: 'r' :: 'a' :: 't' :: 'o' :: 'r' :: '=' :: '(' :: 'c' ::
            'o' :: 'n' :: 's' :: 't' :: ' ' :: (t ++ '&' :: ") = delete;".toList) := by simp
      rw [this]
      simp only [spaceAfterS]
      rw [spaceAfterS_skip hsp _ _ _ (by decide)]
      decide
  · refine ⟨⟨List.replicate (n + 1) ' ' ++ _, by rw [List.replicate_succ]; rfl⟩,
      by simp [hnl'], ?_, ?_, ?_⟩
    · exact dropCR_of_endsWith (EndsWith.append (EndsWith.append (EndsWith.cons
        ⟨") = delete".toList, rfl⟩ _) _) _) (by decide)
    · rw [afterParen_append _ (hrp _), afterParen_append _ hpar,
        afterParen_cons _ (by decide)]
      decide
    · obtain ⟨c', hc', h⟩ := spaceAfterS_spaces (n + 2) (c := ' ') (by decide)
        (t ++ '(' :: ") = delete;".toList)
      rw [h, spaceAfterS_skip hsp _ _ _ (by decide)]
      decide

/-! ## Reading the output again -/

theorem splitNL_ne_nil : ∀ t : List Char, splitNL t ≠ []
  | [] => by simp [splitNL]
  | c :: t => by
    simp only [splitNL]
    split
    · simp
    · split <;> simp

theorem splitNL_append_nl : ∀ (p rest : List Char), '\n' ∉ p →
    splitNL (p ++ '\n' :: rest) = p :: splitNL rest
  | [], rest, _ => by simp [splitNL]
  | c :: p, rest, h => by
    have hc : c ≠ '\n' := fun e => h (by simp [e])
    have ih := splitNL_append_nl p rest fun e => h (List.mem_cons_of_mem _ e)
    simp only [List.cons_append, splitNL, if_neg hc]
    rw [show p.append ('\n' :: rest) = p ++ '\n' :: rest from rfl, ih]

theorem splitNL_flatMap : ∀ pieces : List (List Char), (∀ p ∈ pieces, '\n' ∉ p) →
    splitNL (pieces.flatMap withNL) = pieces ++ [[]]
  | [], _ => by simp [splitNL]
  | p :: ps, h => by
    have ih := splitNL_flatMap ps fun q hq => h q (List.mem_cons_of_mem _ hq)
    simp only [List.flatMap_cons, withNL, List.append_assoc, List.singleton_append,
      List.cons_append]
    rw [splitNL_append_nl p _ (h p (List.mem_cons_self _ _)), List.nil_append, ih]

/-- The scanner reads back the lines that were written, each with its newline. -/
theorem scanLines_flatMap_withNL (pieces : List (List Char)) (h : ∀ p ∈ pieces, '\n' ∉ p) :
    scanLines (pieces.flatMap withNL) = pieces.map dropCR := by
  simp [scanLines, splitNL_flatMap pieces h]

theorem splitNL_no_nl : ∀ (t : List Char), ∀ l ∈ splitNL t, '\n' ∉ l
  | [], l, h => by
    simp only [splitNL, List.mem_singleton] at h
    subst h
    simp
  | c :: t, l, h => by
    have ih := splitNL_no_nl t
    simp only [splitNL] at h
    split at h
    · rcases List.mem_cons.1 h with rfl | h
      · simp
      · exact ih l h
    · rename_i hc
      split at h
      · rename_i he
        exact absurd he (splitNL_ne_nil t)
      · rename_i s ss he
        rcases List.mem_cons.1 h with rfl | h
        · intro hm
          rcases List.mem_cons.1 hm with e | hm
          · exact hc e.symm
          · exact ih s (by rw [he]; exact List.mem_cons_self _ _) hm
        · exact ih l (by rw [he]; exact List.mem_cons_of_mem _ h)

theorem scanLines_no_nl (t : List Char) : ∀ l ∈ scanLines t, '\n' ∉ l := by
  intro l hl
  simp only [scanLines, List.mem_map] at hl
  obtain ⟨m, hm, rfl⟩ := hl
  have hm' : m ∈ splitNL t := by
    split at hm
    · exact List.mem_of_mem_dropLast hm
    · exact hm
  have := splitNL_no_nl t m hm'
  unfold dropCR
  split
  · exact fun h => this (List.mem_of_mem_dropLast h)
  · exact this

theorem joinNL_cons (a : List Char) {ps : List (List Char)} (h : ps ≠ []) :
    joinNL (a :: ps) = a ++ '\n' :: joinNL ps := by
  cases ps with
  | nil => exact absurd rfl h
  | cons b t => rfl

theorem joinNL_append : ∀ (a : List (List Char)) {b : List (List Char)}, a ≠ [] → b ≠ [] →
    joinNL (a ++ b) = joinNL a ++ '\n' :: joinNL b
  | [], _, h, _ => absurd rfl h
  | [x], b, _, hb => by simp [joinNL_cons x hb, joinNL]
  | x :: y :: t, b, _, hb => by
    have ih := joinNL_append (y :: t) (by simp) hb
    simp only [List.cons_append] at ih ⊢
    rw [joinNL_cons x (by simp), ih, joinNL_cons x (by simp)]
    simp

theorem withNL_joinNL : ∀ {ps : List (List Char)}, ps ≠ [] →
    withNL (joinNL ps) = ps.flatMap withNL
  | [], h => absurd rfl h
  | [x], _ => by simp [joinNL, withNL]
  | x :: y :: t, _ => by
    have ih := @withNL_joinNL (y :: t) (by simp)
    rw [joinNL_cons x (by simp), List.flatMap_cons, ← ih]
    simp [withNL]

theorem cell_shape {A : List Char → Prop} (j : Nat) : ∀ (cs : List Change) (cur : List Char),
    (∀ chg ∈ cs, chg.Action = .Add →
      ∃ ps : List (List Char), ps ≠ [] ∧ chg.Data = joinNL ps ∧ ∀ p ∈ ps, A p) →
    Shape A cur → Shape A (cell j cs cur)
  | [], cur, _, h => h
  | chg :: cs, cur, hcs, h => by
    simp only [cell]
    refine cell_shape j cs _ (fun c hc => hcs c (List.mem_cons_of_mem _ hc)) ?_
    split
    · unfold cellStep
      cases hA : chg.Action with
      | Rem => exact Or.inl rfl
      | Add =>
        obtain ⟨ps, hps, hd, hall⟩ := hcs chg (List.mem_cons_self _ _) hA
        simp only
        split
        · exact Or.inr ⟨ps, hps, hd, hall⟩
        · rename_i hne
          rcases h with h | ⟨qs, hqs, hq, hqall⟩
          · exact absurd h hne
          · refine Or.inr ⟨ps ++ qs, by simp [hps], ?_, ?_⟩
            · rw [joinNL_append ps hps hqs, hd, hq]
            · intro p hp
              rcases List.mem_append.1 hp with hp | hp
              · exact hall p hp
              · exact hqall p hp
    · exact h

theorem block_shape {A : List Char → Prop} {v : List Char} (h : Shape A v) :
    ∃ ps : List (List Char), block v = ps.flatMap withNL ∧ ∀ p ∈ ps, A p := by
  unfold block
  split
  · exact ⟨[], rfl, by simp⟩
  · rename_i hne
    rcases h with h | ⟨ps, hps, hv, hall⟩
    · exact absurd h hne
    · exact ⟨ps, by rw [hv, withNL_joinNL hps], hall⟩

theorem flatMap_pieces {A : List Char → Prop} (f : Nat → List Char) : ∀ (l : List Nat),
    (∀ j ∈ l, ∃ ps : List (List Char), f j = ps.flatMap withNL ∧ ∀ p ∈ ps, A p) →
    ∃ ps : List (List Char), l.flatMap f = ps.flatMap withNL ∧ ∀ p ∈ ps, A p
  | [], _ => ⟨[], rfl, by simp⟩
  | j :: l, h => by
    obtain ⟨ps, hps, hall⟩ := h j (List.mem_cons_self _ _)
    obtain ⟨qs, hqs, hqall⟩ := flatMap_pieces f l fun k hk => h k (List.mem_cons_of_mem _ hk)
    refine ⟨ps ++ qs, by simp [hps, hqs], ?_⟩
    intro p hp
    rcases List.mem_append.1 hp with hp | hp
    · exact hall p hp
    · exact hqall p hp

/-- The output is made of kept lines, each followed by a newline. -/
theorem render_cells_kept (lines : List (List Char)) :
    ∃ ps : List (List Char),
      render (cells ((List.range lines.length).flatMap (plannedAt lines)) lines) =
        ps.flatMap withNL ∧ ∀ p ∈ ps, Kept lines p := by
  rw [render_cells_eq]
  refine flatMap_pieces _ _ fun j hj => block_shape ?_
  have hjn := List.mem_range.1 hj
  have hadds : ∀ (l : List Nat), ∀ chg ∈ l.flatMap (plannedAt lines), chg.Action = .Add →
      ∃ ps : List (List Char), ps ≠ [] ∧ chg.Data = joinNL ps ∧ ∀ p ∈ ps, Kept lines p := by
    intro l chg hc hadd
    obtain ⟨k, -, hk⟩ := List.mem_flatMap.1 hc
    unfold plannedAt at hk
    split at hk
    · rename_i hp
      simp only [List.mem_cons, List.mem_singleton, List.not_mem_nil, or_false] at hk
      rcases hk with rfl | rfl
      · simp [remOf] at hadd
      · obtain ⟨h1, h2⟩ := addData_eq_joinNL (lineAt lines k) (depth (lines.getD k []))
          (firstPublicOf lines (ownerOf lines k)).isNone (processed_getD hp).1
        exact ⟨_, h2, h1, fun p hp' => Or.inr ⟨k, _, hp, hp'⟩⟩
    · cases hk
  by_cases hp : processed lines j = true
  · rw [planned_split lines hjn, cell_append, cell_append]
    have : plannedAt lines j = [remOf j, addOf lines j] := by simp [plannedAt, hp]
    rw [this]
    have hS : cell j [remOf j, addOf lines j]
        (cell j ((List.range j).flatMap (plannedAt lines)) (lines.getD j [])) =
        cell j [addOf lines j] remSentinel := by
      simp [cell, Change.target, remOf, cellStep]
    rw [hS, ← cell_append]
    refine cell_shape j _ _ ?_ (Or.inl rfl)
    intro chg hc hadd
    rcases List.mem_append.1 hc with hc | hc
    · simp only [List.mem_singleton] at hc
      have : chg ∈ [j].flatMap (plannedAt lines) := by
        simp [plannedAt, hp, hc]
      exact hadds _ chg this hadd
    · exact hadds _ chg hc hadd
  · refine cell_shape j _ _ (hadds _) (Or.inr ⟨[lines.getD j []], by simp, rfl, ?_⟩)
    intro p hp'
    simp only [List.mem_singleton] at hp'
    exact Or.inl ⟨j, hjn, by simpa using hp, hp'⟩

theorem body1_ok_label {line : List Char} {n : Nat} {ls : List Line} {st : scannerState}
    {r : List Line × scannerState} (h : body1 line n ls st = .ok r) {l : Line}
    (hd : detect line = some l) (hl : l.typ = .Label) : numIndent line ≠ 0 := by
  intro h0
  simp [body1, hd, hl, h0] at h
  have : ¬ ((st.startOfIndent.length : Int) + 2 ≤ 0) := by omega
  simp [this] at h

theorem pass1_ok_finishes : ∀ (lines : List (List Char)) (n : Nat) (ls : List Line)
    (st : scannerState) (r : List Line × scannerState), pass1 lines n ls st = .ok r →
    firstLoopFinishes lines
  | [], _, _, _, _, _ => by simp [firstLoopFinishes]
  | line :: more, n, ls, st, r, h => by
    simp only [pass1] at h
    obtain ⟨⟨ls1, st1⟩, h1, h2⟩ := Result.bind_eq_ok h
    obtain ⟨l, hd, -⟩ := body1_ok h1
    have ih := pass1_ok_finishes more (n + 1) ls1 st1 r h2
    intro x hx
    rcases List.mem_cons.1 hx with rfl | hx
    · refine ⟨by simp [hd], fun hlab => ?_⟩
      have hl : l.typ = .Label := by simpa [isLabelLine, hd] using hlab
      exact body1_ok_label h1 hd hl
    · exact ih x hx

theorem numIndent_cons_space (u : List Char) : numIndent (' ' :: u) ≠ 0 := by
  have := numIndent_ge u
  simp only [numIndent, ne_eq, not_true_eq_false, if_false]
  split <;> omega

/-- An input whose macro invocations are all at depth 0 or 1 and on which the
first loop finishes yields no change. -/
theorem scan_of_shallow {r : String} (hfit : tooLong r.toList = false)
    (hfin : firstLoopFinishes (scanLines r.toList))
    (hall : ∀ line ∈ scanLines r.toList, isMacroLine line = true → depth line < 2) :
    scan r = .ok "" := by
  obtain ⟨res, h1⟩ := pass1_finishes hfin
  have hnone : ∀ j, processed (scanLines r.toList) j = false := by
    intro j
    rw [Bool.eq_false_iff]
    intro hp
    have hj := processed_lt hp
    obtain ⟨hmj, -, hdj⟩ := (processed_iff hj).1 hp
    have := hall _ (List.getElem_mem hj) hmj
    omega
  refine scan_of_planChanges_nil hfit ((planChanges_ok_iff h1 []).2 ⟨?_, ?_⟩)
  · intro j hp
    rw [hnone j] at hp
    cases hp
  · exact (flatMap_plannedAt_nil fun j _ => hnone j).symm

theorem lineAt_detect {lines : List (List Char)} {k : Nat} (hk : k < lines.length)
    (hall : ∀ line ∈ lines, (detect line).isSome = true) :
    detect (lines.getD k []) = some (lineAt lines k) := by
  have hmem : lines.getD k [] ∈ lines := by
    rw [List.getD_eq_getElem?_getD, List.getElem?_eq_getElem hk]
    exact List.getElem_mem hk
  obtain ⟨l, hl⟩ := Option.isSome_iff_exists.1 (hall _ hmem)
  rw [lineAt_of_lt hk, hl]
  rfl

/-- What a kept line is like, when no processed invocation has a mismatch, no
line ends in a carriage return and no macro invocation at depth 2 or more is
skipped as a continuation: it has no newline, is read back unchanged, is
classified, is no label at depth 0 and no macro invocation at depth 2 or more. -/
theorem kept_facts {lines : List (List Char)} (hfin : firstLoopFinishes lines)
    (hnm : ∀ k, processed lines k = true → mismatch lines k = false)
    (hnl : ∀ l ∈ lines, '\n' ∉ l) (hcr : ∀ line ∈ lines, dropCR line = line)
    (hcont : ∀ j, j < lines.length → (lineAt lines j).typ.isDisallow = true →
      2 ≤ depth (lines.getD j []) → processed lines j = true)
    {p : List Char} (hp : Kept lines p) :
    '\n' ∉ p ∧ dropCR p = p ∧ (detect p).isSome = true ∧
      (isLabelLine p = true → numIndent p ≠ 0) ∧ (isMacroLine p = true → depth p < 2) := by
  have hall : ∀ line ∈ lines, (detect line).isSome = true := fun l hl => (hfin l hl).1
  rcases hp with ⟨j, hj, hnp, rfl⟩ | ⟨k, b, hpk, he⟩
  · have hmem : lines.getD j [] ∈ lines := by
      rw [List.getD_eq_getElem?_getD, List.getElem?_eq_getElem hj]
      exact List.getElem_mem hj
    refine ⟨hnl _ hmem, hcr _ hmem, (hfin _ hmem).1, (hfin _ hmem).2, fun hm => ?_⟩
    by_contra hd
    have hdis : (lineAt lines j).typ.isDisallow = true := by
      have := lineAt_detect hj hall
      unfold isMacroLine at hm
      rw [this] at hm
      exact hm
    rw [hcont j hj hdis (by omega)] at hnp
    cases hnp
  · have hk := processed_lt hpk
    obtain ⟨hdis, hd2⟩ := processed_getD hpk
    obtain ⟨hok, hcd, hdata⟩ := owner_facts hpk (hnm k hpk)
    have hdk := lineAt_detect hk hall
    have hdo := lineAt_detect (Nat.lt_trans hok hk) hall
    have hmemk : lines.getD k [] ∈ lines := by
      rw [List.getD_eq_getElem?_getD, List.getElem?_eq_getElem hk]
      exact List.getElem_mem hk
    obtain ⟨fk1, -, fk3⟩ := detect_facts hdk
    obtain ⟨-, fo2, -⟩ := detect_facts hdo
    have hpar := (fk1 hdis).2
    have hsp : ∀ c ∈ (lineAt lines k).Data, c ≠ ' ' := by
      rw [hdata]; exact fo2 hcd
    have hnlt : ∀ c ∈ (lineAt lines k).Data, c ≠ '\n' := by
      intro c hc e
      subst e
      exact hnl _ hmemk (fk3 _ hc)
    obtain ⟨⟨u, hu⟩, g2, g3, g4, g5⟩ := dataLine_facts (mem_dataLines he) hd2 hsp hpar hnlt
    obtain ⟨l', hl', hnd⟩ := detect_safe g4 g5
    refine ⟨g2, g3, by simp [hl'], fun _ => by rw [hu]; exact numIndent_cons_space u, ?_⟩
    intro hm
    simp [isMacroLine, hl', hnd] at hm

/-! ## The update rule of the tracker -/

theorem track_spec (s : List Nat) (d L : Nat) (hd : d < s.length + 2) :
    (track s d L).length = d + 1 ∧
    (∀ i, i < min s.length d → (track s d L)[i]? = s[i]?) ∧
    (∀ i, min s.length d ≤ i → i ≤ d → (track s d L)[i]? = some L) := by
  refine ⟨track_length s d L, ?_, ?_⟩
  · intro i hi
    unfold track
    simp only [List.getElem?_set, List.getElem?_take]
    have h1 : i < s.length := by omega
    have h2 : i < d := by omega
    rw [if_neg (by omega), if_pos (by omega), List.getElem?_append_left h1]
  · intro i hi hid
    unfold track
    simp only [List.getElem?_set, List.getElem?_take, List.length_take, List.length_append,
      List.length_replicate]
    by_cases hid' : d = i
    · subst hid'
      rw [if_pos rfl, if_pos (by omega)]
    · rw [if_neg hid', if_pos (by omega)]
      have : s.length ≤ i := by omega
      rw [List.getElem?_append_right this, List.getElem?_replicate, if_pos (by omega)]

/-! ## Slot 0 of the stack -/

theorem visit_slot0 {st : List Nat} {cur : Nat} (h : st[0]? = some cur) (line : List Char)
    (n : Nat) : (visit st line n)[0]? = some (if topLevel line then n else cur) := by
  have hlen : 0 < st.length := by
    rcases st with _ | ⟨a, t⟩
    · simp at h
    · simp
  unfold visit
  by_cases he : eligible st line = true
  · rw [if_pos he]
    have hdep := eligible_depth he
    obtain ⟨l, hd⟩ : ∃ l, detect line = some l := by
      cases hd : detect line with
      | none => simp [eligible, hd] at he
      | some l => exact ⟨l, rfl⟩
    have he' := (eligible_iff hd).1 he
    have hlt : depth line < st.length + 2 := by omega
    by_cases h0 : depth line = 0
    · have ht : topLevel line = true := by
        simp only [topLevel, hd]
        simp only [not_or] at he'
        simp [he'.1.1, he'.1.2, hdep, h0]
      rw [ht, if_pos rfl]
      exact (track_spec st (depth line) n hlt).2.2 0 (by omega) (by omega)
    · have ht : topLevel line = false := by
        simp only [topLevel, hd]
        simp [hdep]
        omega
      rw [ht]
      simp only [Bool.false_eq_true, if_false]
      rw [(track_spec st (depth line) n hlt).2.1 0 (by omega), h]
  · rw [if_neg he]
    have ht : topLevel line = false := by
      cases hd : detect line with
      | none => simp [topLevel, hd]
      | some l =>
        have he' := (eligible_iff hd).not.1 he
        simp only [topLevel, hd]
        by_cases h1 : l.typ = .Empty
        · simp [h1]
        by_cases h2 : l.typ = .PreprocessorDirective
        · simp [h2]
        have : numIndent line ≥ (st.length : Int) + 2 := by
          by_contra hc
          exact he' ⟨by simp [h1, h2], hc⟩
        simp [h1, h2]
        omega
    rw [ht]
    simpa using h

theorem stackOf_slot0 : ∀ (lines : List (List Char)) (n : Nat) (st : List Nat) (cur : Nat),
    st[0]? = some cur → (stackOf lines n st)[0]? = some (lastTopLevel lines n cur)
  | [], _, _, _, h => h
  | line :: more, n, st, cur, h => by
    simp only [stackOf, lastTopLevel]
    exact stackOf_slot0 more (n + 1) _ _ (visit_slot0 h line n)

theorem pass2_ok_stack (ls : List Line) : ∀ (suf : List (List Char)) (n : Nat)
    (st st' : scannerState), pass2 ls suf n st = .ok st' →
    (∀ i, i < suf.length → ∃ l, ls[n + i]? = some l ∧ detect (suf.getD i []) = some l) →
    st'.startOfIndent = stackOf suf n st.startOfIndent
  | [], _, _, _, h, _ => by
    simp only [pass2, Result.ok.injEq] at h
    rw [← h]
    rfl
  | line :: more, n, st, st', h, hal => by
    simp only [pass2] at h
    obtain ⟨st1, h1, h2⟩ := Result.bind_eq_ok h
    obtain ⟨l, hi, hd⟩ := hal 0 (by simp)
    simp only [Nat.add_zero, List.getD_cons_zero] at hi hd
    rw [body2_eq hi hd] at h1
    obtain ⟨cs, -, h3⟩ := Result.bind_eq_ok h1
    simp only [Result.ok.injEq] at h3
    have ih := pass2_ok_stack ls more (n + 1) st1 st' h2 fun i hi => by
      obtain ⟨l', h4, h5⟩ := hal (i + 1) (by simpa using hi)
      refine ⟨l', ?_, ?_⟩
      · rw [← h4]
        congr 1
        omega
      · simpa using h5
    rw [ih, ← h3]
    rfl

/-! ## The last planned change -/

theorem planned_last (lines : List (List Char)) : ∀ l : List Nat,
    l.flatMap (plannedAt lines) ≠ [] →
    ∃ A k, processed lines k = true ∧ l.flatMap (plannedAt lines) = A ++ [remOf k, addOf lines k]
  | [], h => by simp at h
  | x :: t, h => by
    simp only [List.flatMap_cons] at h ⊢
    by_cases ht : t.flatMap (plannedAt lines) = []
    · rw [ht, List.append_nil] at h ⊢
      by_cases hp : processed lines x = true
      · exact ⟨[], x, hp, by simp [plannedAt, hp]⟩
      · simp [plannedAt, hp] at h
    · obtain ⟨A, k, hp, hk⟩ := planned_last lines t ht
      exact ⟨plannedAt lines x ++ A, k, hp, by rw [hk, List.append_assoc]⟩

theorem render_cells_ne_nil {cs : List Change} {lines : List (List Char)} {j : Nat}
    (hj : j < lines.length) (hb : block (cell j cs (lines.getD j [])) ≠ []) :
    render (cells cs lines) ≠ [] := by
  rw [render_eq_blocks]
  intro h
  rw [List.flatten_eq_nil_iff] at h
  apply hb
  apply h
  rw [List.mem_map]
  refine ⟨_, ?_, rfl⟩
  have := cells_getElem? cs lines hj
  exact List.mem_iff_getElem?.2 ⟨j, this⟩

/-! ## The registry the first loop builds -/

theorem body1_eq {line : List Char} {n : Nat} {ls : List Line} {st : scannerState} {l : Line}
    (hd : detect line = some l) (h0 : l.typ = .Label → numIndent line ≠ 0)
    (hlen : ls.length = n) (hst : ∀ x ∈ st.startOfIndent, x ≤ n) :
    body1 line n ls st = .ok (ls ++ [l],
      { startOfIndent := visit st.startOfIndent line n,
        labels := fun o => st.labels o ++
          (if l.typ = .Label ∧ eligible st.startOfIndent line = true ∧
              (visit st.startOfIndent line n)[depth line - 1]? = some o ∧
              ((ls ++ [l])[o]?.map (·.typ)) = some .ClassDecl then [n] else []),
        changes := st.changes }) := by
  obtain ⟨soi, labels, changes⟩ := st
  have hel := @eligible_iff soi line l hd
  unfold body1
  simp only [hd]
  split_ifs with h1 h2 h3 h4 h5
  · have he : eligible soi line = false := by
      rw [Bool.eq_false_iff]
      exact fun h => (hel.1 h).1 h1
    simp only [Result.ok.injEq, Prod.mk.injEq, scannerState.mk.injEq, true_and, and_true, visit,
      he, Bool.false_eq_true, if_false, false_and, and_false, List.append_nil]
  · have he : eligible soi line = false := by
      rw [Bool.eq_false_iff]
      exact fun h => (hel.1 h).2 h2
    simp only [Result.ok.injEq, Prod.mk.injEq, scannerState.mk.injEq, true_and, and_true, visit,
      he, Bool.false_eq_true, if_false, false_and, and_false, List.append_nil]
  · exact absurd (numIndent_nonneg_of_detect hd (fun h => h1 (Or.inl h))) (by omega)
  · exact absurd (h0 h4) (by omega)
  · have he : eligible soi line = true := hel.2 ⟨h1, h2⟩
    have hlt : (numIndent line).toNat - 1 < (track soi (numIndent line).toNat n).length := by
      rw [track_length]; omega
    rw [idx_of_lt hlt]
    simp only [Result.bind_ok]
    have hle : (track soi (numIndent line).toNat n)[(numIndent line).toNat - 1] ≤ n := by
      rcases mem_track (List.getElem_mem hlt) with hm | hm
      · exact hst _ hm
      · omega
    have hlt2 : (track soi (numIndent line).toNat n)[(numIndent line).toNat - 1] <
        (ls ++ [l]).length := by
      simp only [List.length_append, List.length_singleton]; omega
    rw [idx_of_lt hlt2]
    simp only [Result.bind_ok]
    have hv : visit soi line n = track soi (numIndent line).toNat n := by
      simp only [visit, he, if_true, depth]
    have hget : (track soi (numIndent line).toNat n)[depth line - 1]? =
        some (track soi (numIndent line).toNat n)[(numIndent line).toNat - 1] :=
      List.getElem?_eq_getElem hlt
    generalize (track soi (numIndent line).toNat n)[(numIndent line).toNat - 1] = m at hlt2 hget ⊢
    have hm : ((ls ++ [l])[m]?.map (·.typ)) = some (ls ++ [l])[m].typ := by
      rw [List.getElem?_eq_getElem hlt2]
      rfl
    split_ifs with h6
    · simp only [Result.ok.injEq, Prod.mk.injEq, scannerState.mk.injEq, true_and, and_true]
      refine ⟨hv.symm, ?_⟩
      funext o
      rw [hv, hget]
      simp only [addLabel, h4, he, true_and, Option.some.injEq]
      by_cases ho : o = m
      · subst ho
        rw [if_pos rfl, if_pos ⟨rfl, by rw [hm, h6]⟩]
      · rw [if_neg ho, if_neg (fun h => ho h.1.symm), List.append_nil]
    · simp only [Result.ok.injEq, Prod.mk.injEq, scannerState.mk.injEq, true_and, and_true]
      refine ⟨hv.symm, ?_⟩
      funext o
      rw [hv, hget]
      simp only [h4, he, true_and, Option.some.injEq]
      rw [if_neg, List.append_nil]
      rintro ⟨rfl, h7⟩
      rw [hm] at h7
      exact h6 (Option.some.inj h7)
  · have he : eligible soi line = true := hel.2 ⟨h1, h2⟩
    simp only [Result.ok.injEq, Prod.mk.injEq, scannerState.mk.injEq, true_and, and_true, visit,
      he, if_true, h4, false_and, if_false, List.append_nil, depth]
theorem recordedUnder_iff {lines pre more : List (List Char)} {line : List Char} {l : Line}
    (hl : lines = pre ++ line :: more) (hall : ∀ x ∈ lines, (detect x).isSome = true)
    (hd : detect line = some l) (h0 : l.typ = .Label → numIndent line ≠ 0) (o : Nat) :
    recordedUnder lines o pre.length = true ↔
      (l.typ = .Label ∧ eligible (stackOf pre 0 [0]) line = true ∧
        (visit (stackOf pre 0 [0]) line pre.length)[depth line - 1]? = some o ∧
        ((classify pre ++ [l])[o]?.map (·.typ)) = some .ClassDecl) := by
  have hk : pre.length < lines.length := by rw [hl]; simp
  have hget : lines[pre.length]? = some line := by
    rw [hl, List.getElem?_append_right (Nat.le_refl _)]
    simp
  have hget' : lines[pre.length] = line := by
    have := List.getElem?_eq_getElem hk
    rw [hget] at this
    exact (Option.some.inj this).symm
  have hsb : stackBefore lines pre.length = stackOf pre 0 [0] := by
    unfold stackBefore
    rw [hl, List.take_left']
    rfl
  have hsa : stackAt lines pre.length = visit (stackOf pre 0 [0]) line pre.length := by
    rw [stackAt_eq lines _ hk, hsb, hget']
  have hcl : classify lines = (classify pre ++ [l]) ++ classify more := by
    rw [hl, classify_append, show line :: more = [line] ++ more from rfl, classify_append,
      List.append_assoc]
    simp [classify, hd]
  have hlen : (classify pre).length = pre.length :=
    classify_length fun x hx => hall x (by rw [hl]; exact List.mem_append_left _ hx)
  unfold recordedUnder
  rw [hget]
  simp only [Bool.and_eq_true, decide_eq_true_eq, isLabelLine, hd, hsb, hsa]
  constructor
  · rintro ⟨⟨⟨⟨h1, h2⟩, h3⟩, h4⟩, h5⟩
    refine ⟨h1, h2, h4, ?_⟩
    have ho : o ≤ pre.length := by
      have hm := List.mem_iff_getElem?.2 ⟨_, h4⟩
      refine visit_le (fun x hx => ?_) o hm
      simpa using stackOf_le pre 0 [0] (by simp) x hx
    rw [lineAt_eq_classify hall, hcl,
      List.getElem?_append_left (by simp [hlen]; omega)] at h5
    cases hc : (classify pre ++ [l])[o]? with
    | none => rw [hc] at h5; simp at h5
    | some lo => rw [hc] at h5; simpa using h5
  · rintro ⟨h1, h2, h4, h5⟩
    have ho : o ≤ pre.length := by
      have hm := List.mem_iff_getElem?.2 ⟨_, h4⟩
      refine visit_le (fun x hx => ?_) o hm
      simpa using stackOf_le pre 0 [0] (by simp) x hx
    refine ⟨⟨⟨⟨h1, h2⟩, ?_⟩, h4⟩, ?_⟩
    · have := eligible_depth h2
      have := h0 h1
      omega
    · rw [lineAt_eq_classify hall, hcl,
        List.getElem?_append_left (by simp [hlen]; omega)]
      cases hc : (classify pre ++ [l])[o]? with
      | none => rw [hc] at h5; simp at h5
      | some lo => rw [hc] at h5; simpa using h5

theorem pass1_labels_eq (lines : List (List Char)) (hfin : firstLoopFinishes lines) :
    ∀ (suf pre : List (List Char)), lines = pre ++ suf →
    ∀ (labels0 : Nat → List Nat) (cs0 : List Change),
    ∃ ls st, pass1 suf pre.length (classify pre)
        { startOfIndent := stackOf pre 0 [0], labels := labels0, changes := cs0 } = .ok (ls, st) ∧
      ∀ o, st.labels o =
        labels0 o ++ (List.range' pre.length suf.length).filter (recordedUnder lines o)
  | [], pre, _, labels0, cs0 => ⟨_, _, rfl, fun o => by simp⟩
  | line :: more, pre, hl, labels0, cs0 => by
    have hall : ∀ x ∈ lines, (detect x).isSome = true := fun x hx => (hfin x hx).1
    have hmem : line ∈ lines := by rw [hl]; simp
    obtain ⟨l, hd⟩ := Option.isSome_iff_exists.1 (hall line hmem)
    have h0 : l.typ = .Label → numIndent line ≠ 0 := fun h =>
      (hfin line hmem).2 (by simp [isLabelLine, hd, h])
    have hlen : (classify pre).length = pre.length :=
      classify_length fun x hx => hall x (by rw [hl]; exact List.mem_append_left _ hx)
    have hst : ∀ x ∈ stackOf pre 0 [0], x ≤ pre.length := fun x hx => by
      simpa using stackOf_le pre 0 [0] (by simp) x hx
    simp only [pass1]
    rw [body1_eq hd h0 hlen hst]
    simp only [Result.bind_ok]
    have hl' : lines = (pre ++ [line]) ++ more := by rw [hl]; simp
    have hcl : classify (pre ++ [line]) = classify pre ++ [l] := by
      rw [classify_append]
      simp [classify, hd]
    have hso : stackOf (pre ++ [line]) 0 [0] = visit (stackOf pre 0 [0]) line pre.length := by
      rw [stackOf_append]
      simp [stackOf]
    obtain ⟨ls, st, h1, h2⟩ := pass1_labels_eq lines hfin more (pre ++ [line]) hl'
      (fun o => labels0 o ++
        (if l.typ = .Label ∧ eligible (stackOf pre 0 [0]) line = true ∧
            (visit (stackOf pre 0 [0]) line pre.length)[depth line - 1]? = some o ∧
            ((classify pre ++ [l])[o]?.map (·.typ)) = some .ClassDecl then [pre.length] else []))
      cs0
    rw [hcl, hso, List.length_append, List.length_singleton] at h1
    refine ⟨ls, st, h1, fun o => ?_⟩
    rw [h2 o, List.length_append, List.length_singleton, List.length_cons, List.range'_succ,
      List.filter_cons, List.append_assoc]
    congr 1
    by_cases hc : recordedUnder lines o pre.length = true
    · rw [if_pos hc, if_pos ((recordedUnder_iff hl hall hd h0 o).1 hc)]
      rfl
    · rw [if_neg hc, if_neg (fun h => hc ((recordedUnder_iff hl hall hd h0 o).2 h))]
      rfl

/-! ## Matches that exist -/

theorem mem_run_bot (r : List Char) (cap : Option (List Char)) :
    (⟨none, r, cap⟩ : Pos) ∈ run .bot ⟨none, r, cap⟩ := by
  simp [run]

theorem mem_run_cls {f : Char → Bool} {c : Char} (hc : f c = true) (prev : Option Char)
    (t : List Char) (cap : Option (List Char)) :
    (⟨some c, t, cap⟩ : Pos) ∈ run (.cls f) ⟨prev, c :: t, cap⟩ := by
  simp [run, hc]

theorem mem_run_chr (c : Char) (prev : Option Char) (t : List Char) (cap : Option (List Char)) :
    (⟨some c, t, cap⟩ : Pos) ∈ run (.chr c) ⟨prev, c :: t, cap⟩ :=
  mem_run_cls (by simp) prev t cap

theorem mem_run_lit : ∀ (s r : List Char) (prev : Option Char) (cap : Option (List Char)),
    (⟨prevAfter prev s, r, cap⟩ : Pos) ∈ run (.lit s) ⟨prev, s ++ r, cap⟩
  | [], r, prev, cap => by simp [RE.lit, run, prevAfter]
  | c :: t, r, prev, cap =>
    mem_run_seq.2 ⟨_, mem_run_chr c prev (t ++ r) cap, mem_run_lit t r (some c) cap⟩

theorem mem_starRun_self (step : Pos → List Pos) : ∀ (n : Nat) (p : Pos), p ∈ starRun step n p
  | 0, p => by simp [starRun]
  | n + 1, p => by simp [starRun]

theorem mem_starRun_step {step : Pos → List Pos} {n : Nat} {p m q : Pos} (hm : m ∈ step p)
    (hq : q ∈ starRun step n m) : q ∈ starRun step (n + 1) p := by
  simp only [starRun, List.mem_append, List.mem_flatMap]
  exact Or.inl ⟨m, hm, hq⟩

theorem starRun_mono {step : Pos → List Pos} : ∀ (n k : Nat) (p q : Pos),
    q ∈ starRun step n p → q ∈ starRun step (n + k) p
  | 0, k, p, q, h => by
    simp only [starRun, List.mem_singleton] at h
    subst h
    exact mem_starRun_self step _ _
  | n + 1, k, p, q, h => by
    simp only [starRun, List.mem_append, List.mem_flatMap, List.mem_singleton] at h
    rw [show n + 1 + k = (n + k) + 1 by omega]
    rcases h with ⟨m, hm, hq⟩ | rfl
    · exact mem_starRun_step hm (starRun_mono n k m q hq)
    · exact mem_starRun_self step _ _

theorem mem_starRun_cls {f : Char → Bool} : ∀ (w r : List Char) (prev : Option Char)
    (cap : Option (List Char)), (∀ c ∈ w, f c = true) →
    (⟨prevAfter prev w, r, cap⟩ : Pos) ∈ starRun (run (.cls f)) w.length ⟨prev, w ++ r, cap⟩
  | [], r, prev, cap, _ => by simp [starRun, prevAfter]
  | c :: t, r, prev, cap, h =>
    mem_starRun_step (mem_run_cls (h c (List.mem_cons_self _ _)) prev (t ++ r) cap)
      (mem_starRun_cls t r (some c) cap fun x hx => h x (List.mem_cons_of_mem _ hx))

theorem mem_run_star_cls {f : Char → Bool} (w r : List Char) (prev : Option Char)
    (cap : Option (List Char)) (h : ∀ c ∈ w, f c = true) :
    (⟨prevAfter prev w, r, cap⟩ : Pos) ∈ run (.star (.cls f)) ⟨prev, w ++ r, cap⟩ := by
  simp only [run, List.length_append]
  exact starRun_mono _ _ _ _ (mem_starRun_cls w r prev cap h)

theorem mem_run_group {a : RE} {p q : Pos} (h : q ∈ run a p) :
    ({ q with cap := some (p.rest.take (p.rest.length - q.rest.length)) } : Pos) ∈
      run (.group a) p := by
  simp only [run, List.mem_map]
  exact ⟨q, h, rfl⟩

/-! ## Patterns anchored at the start of the line -/

theorem findFrom_bot_some (a : RE) : ∀ (t : List Char) (c : Char),
    findFrom (.seq .bot a) (some c) t = none
  | [], c => by simp [findFrom, run]
  | d :: t, c => by
    simp only [findFrom, run, Option.isNone_some, Bool.false_eq_true, if_false, List.flatMap_nil,
      List.head?_nil]
    exact findFrom_bot_some a t d

theorem findFrom_anchored (a : RE) (line : List Char) :
    findFrom (.seq .bot a) none line = (run (.seq .bot a) ⟨none, line, none⟩).head? := by
  cases line with
  | nil => rfl
  | cons c t =>
    simp only [findFrom]
    cases h : (run (.seq .bot a) ⟨none, c :: t, none⟩).head? with
    | none => exact findFrom_bot_some a t c
    | some q => rfl

theorem findStringSubmatch_anchored {a : RE} {line m : List Char}
    (hne : run (.seq .bot a) ⟨none, line, none⟩ ≠ [])
    (huniq : ∀ q ∈ run (.seq .bot a) ⟨none, line, none⟩, q.cap = some m) :
    findStringSubmatch (.seq .bot a) line = some m := by
  unfold findStringSubmatch
  rw [findFrom_anchored]
  cases h : run (.seq .bot a) ⟨none, line, none⟩ with
  | nil => exact absurd h hne
  | cons q t =>
    have := huniq q (by rw [h]; exact List.mem_cons_self _ _)
    simp [this]

theorem findFrom_anchored_none {a : RE} {line : List Char}
    (h : ∀ q, q ∉ run (.seq .bot a) ⟨none, line, none⟩) :
    findFrom (.seq .bot a) none line = none := by
  rw [findFrom_anchored, List.eq_nil_iff_forall_not_mem.2 h]
  rfl

/-! ## Splitting a text at its leading spaces and at a first character -/

theorem strip_spaces : ∀ {sp : List Char} {n : Nat} {a b : Char} {A B : List Char},
    (∀ c ∈ sp, c = ' ') → a ≠ ' ' → b ≠ ' ' →
    sp ++ a :: A = List.replicate n ' ' ++ b :: B → a :: A = b :: B
  | [], 0, _, _, _, _, _, _, _, h => by simpa using h
  | [], n + 1, a, _, _, _, _, ha, _, h => by
    simp only [List.nil_append, List.replicate_succ, List.cons_append, List.cons.injEq] at h
    exact absurd h.1 ha
  | c :: sp, 0, _, b, _, _, hsp, _, hb, h => by
    simp only [List.cons_append, List.replicate_zero, List.nil_append, List.cons.injEq] at h
    exact absurd (h.1.symm.trans (hsp c (List.mem_cons_self _ _))) hb
  | c :: sp, n + 1, _, _, _, _, hsp, ha, hb, h => by
    simp only [List.cons_append, List.replicate_succ, List.cons.injEq] at h
    exact strip_spaces (fun x hx => hsp x (List.mem_cons_of_mem _ hx)) ha hb h.2

theorem split_first {x : Char} : ∀ {w t r r' : List Char},
    (∀ c ∈ w, c ≠ x) → (∀ c ∈ t, c ≠ x) → w ++ x :: r = t ++ x :: r' → w = t ∧ r = r'
  | [], [], _, _, _, _, h => by simpa using h
  | [], c :: t, _, _, _, ht, h => by
    simp only [List.nil_append, List.cons_append, List.cons.injEq] at h
    exact absurd h.1.symm (ht c (List.mem_cons_self _ _))
  | c :: w, [], _, _, hw, _, h => by
    simp only [List.nil_append, List.cons_append, List.cons.injEq] at h
    exact absurd h.1 (hw c (List.mem_cons_self _ _))
  | c :: w, d :: t, _, _, hw, ht, h => by
    simp only [List.cons_append, List.cons.injEq] at h
    obtain ⟨h1, h2⟩ := split_first (fun y hy => hw y (List.mem_cons_of_mem _ hy))
      (fun y hy => ht y (List.mem_cons_of_mem _ hy)) h.2
    exact ⟨by rw [h.1, h1], h2⟩
/-! ## The macro patterns on an invocation line -/

theorem macroPattern_run_exists (name t : List Char) (n : Nat) (ht : ∀ c ∈ t, c ≠ ')') :
    ∃ q, q ∈ run (.cat [.bot, .star (.chr ' '), .lit name, .group (.star (.notIn [')'])),
      .lit ");".toList]) ⟨none, List.replicate n ' ' ++ (name ++ (t ++ ");".toList)), none⟩ := by
  have h2 := mem_run_star_cls (f := (· == ' ')) (List.replicate n ' ')
    (name ++ (t ++ ");".toList)) none none (by simp)
  have h3 := mem_run_lit name (t ++ ");".toList) (prevAfter none (List.replicate n ' ')) none
  have h4 := mem_run_group (mem_run_star_cls (f := fun c => !([')'] : List Char).contains c) t
    ");".toList (prevAfter (prevAfter none (List.replicate n ' ')) name) none
    (by simpa using ht))
  have h5 := mem_run_lit ");".toList []
    (prevAfter (prevAfter (prevAfter none (List.replicate n ' ')) name) t)
    (some ((t ++ ");".toList).take ((t ++ ");".toList).length - (");".toList).length)))
  exact ⟨_, mem_run_seq.2 ⟨_, mem_run_bot _ _, mem_run_seq.2 ⟨_, h2, mem_run_seq.2 ⟨_, h3,
    mem_run_seq.2 ⟨_, h4, mem_run_seq.2 ⟨_, h5, mem_run_eps.2 rfl⟩⟩⟩⟩⟩⟩

theorem macroPattern_run_cap {name name0 : List Char} {a : Char} (hname : name = a :: name0)
    (ha : a ≠ ' ') {t : List Char} {n : Nat} (ht : ∀ c ∈ t, c ≠ ')') {q : Pos}
    (hq : q ∈ run (.cat [.bot, .star (.chr ' '), .lit name, .group (.star (.notIn [')'])),
      .lit ");".toList]) ⟨none, List.replicate n ' ' ++ (name ++ (t ++ ");".toList)), none⟩) :
    q.cap = some t := by
  obtain ⟨sp, w, rest, hline, hsp, hw, hcap⟩ := run_macroPattern name hq
  subst hname
  have h1 := strip_spaces hsp ha ha hline.symm
  simp only [List.cons_append, List.cons.injEq, true_and] at h1
  have h2 := List.append_cancel_left h1
  have h3 := split_first hw ht (h2.trans (by rfl : t ++ ");".toList = t ++ ')' :: [';']))
  rw [hcap, h3.1]

theorem findStringSubmatch_macroPattern (name : List Char) {name0 : List Char} {a : Char}
    (hname : name = a :: name0) (ha : a ≠ ' ') (t : List Char) (n : Nat)
    (ht : ∀ c ∈ t, c ≠ ')') :
    findStringSubmatch (.cat [.bot, .star (.chr ' '), .lit name, .group (.star (.notIn [')'])),
      .lit ");".toList]) (List.replicate n ' ' ++ (name ++ (t ++ ");".toList))) = some t := by
  apply findStringSubmatch_anchored
  · obtain ⟨q, hq⟩ := macroPattern_run_exists name t n ht
    exact List.ne_nil_of_mem hq
  · exact fun q hq => macroPattern_run_cap hname ha ht hq

theorem findStringSubmatch_macroPattern_none (name other : List Char)
    {name0 other0 : List Char} {a b : Char}
    (hname : name = a :: name0) (ha : a ≠ ' ') (hother : other = b :: other0) (hb : b ≠ ' ')
    (hdiff : ∀ x y : List Char, other ++ x ≠ name ++ y) (t : List Char) (n : Nat) :
    findStringSubmatch (.cat [.bot, .star (.chr ' '), .lit other,
      .group (.star (.notIn [')'])), .lit ");".toList])
      (List.replicate n ' ' ++ (name ++ (t ++ ");".toList))) = none := by
  unfold findStringSubmatch
  rw [show RE.cat [.bot, .star (.chr ' '), .lit other, .group (.star (.notIn [')'])),
      .lit ");".toList] = .seq .bot (RE.cat [.star (.chr ' '), .lit other,
      .group (.star (.notIn [')'])), .lit ");".toList]) from rfl, findFrom_anchored_none]
  · rfl
  · intro q hq
    obtain ⟨sp, w, rest, hline, hsp, hw, hcap⟩ := run_macroPattern other hq
    subst hname hother
    exact hdiff _ _ (strip_spaces hsp hb ha hline.symm)

theorem matchString_preproc_none {a : Char} (ha : a ≠ ' ') (ha' : a ≠ '#') (n : Nat)
    (rest : List Char) :
    matchString isPreprocDirective (List.replicate n ' ' ++ a :: rest) = false := by
  unfold matchString isPreprocDirective
  rw [show RE.cat [.bot, .star (.chr ' '), .chr '#'] =
      .seq .bot (RE.cat [.star (.chr ' '), .chr '#']) from rfl, findFrom_anchored_none]
  · rfl
  · intro q hq
    obtain ⟨m1, hm1, hq⟩ := mem_run_seq.1 hq
    obtain ⟨rfl, -⟩ := run_bot hm1
    obtain ⟨m2, hm2, hq⟩ := mem_run_seq.1 hq
    obtain ⟨sp, hsp, hall, -⟩ := run_star_cls hm2
    obtain ⟨m3, hm3, hq⟩ := mem_run_seq.1 hq
    obtain ⟨h3, -⟩ := run_chr hm3
    simp only at hsp
    rw [h3] at hsp
    have := strip_spaces (fun c hc => by simpa using hall c hc) (by decide : '#' ≠ ' ') ha hsp.symm
    simp only [List.cons.injEq] at this
    exact ha' this.1.symm

/-! ## Whole words and the pattern of remove_base_macros -/

theorem run_lit_prev : ∀ (s : List Char) {p q : Pos}, q ∈ run (.lit s) p →
    q.prev = prevAfter p.prev s
  | [], p, q, h => by
    simp only [RE.lit, run, List.mem_singleton] at h
    subst h
    rfl
  | c :: t, p, q, h => by
    simp only [RE.lit] at h
    obtain ⟨m, hm, hq⟩ := mem_run_seq.1 h
    have h1 := run_lit_prev t hq
    obtain ⟨d, hd, hr, -, hp⟩ := run_cls hm
    have hdc : d = c := by simpa using hd
    rw [h1, hp, hdc]
    rfl

theorem mem_run_lit_iff (s : List Char) {p q : Pos} :
    q ∈ run (.lit s) p ↔ p.rest = s ++ q.rest ∧ q.cap = p.cap ∧ q.prev = prevAfter p.prev s := by
  constructor
  · intro h
    exact ⟨(run_lit s h).1, (run_lit s h).2, run_lit_prev s h⟩
  · rintro ⟨h1, h2, h3⟩
    obtain ⟨pp, pr, pc⟩ := p
    obtain ⟨qp, qr, qc⟩ := q
    simp only at h1 h2 h3
    subst h1 h2 h3
    exact mem_run_lit s qr pp qc

theorem mem_run_wordb_iff {p q : Pos} :
    q ∈ run .wordb p ↔ q = p ∧ isWordAt p.prev ≠ isWordAt p.rest.head? := by
  simp only [run]
  split_ifs with h
  · simp only [List.mem_singleton, iff_self_and]
    intro _
    simpa using h
  · simp only [List.not_mem_nil, false_iff, not_and]
    intro _
    simpa using h

theorem prevAfter_word : ∀ (w : List Char) (prev : Option Char), w ≠ [] →
    (∀ c ∈ w, isWordChar c = true) → isWordAt (prevAfter prev w) = true
  | [], _, h, _ => absurd rfl h
  | [c], _, _, h => by simpa [prevAfter, isWordAt] using h
  | c :: d :: t, _, _, h =>
    prevAfter_word (d :: t) (some c) (by simp) fun x hx => h x (List.mem_cons_of_mem _ hx)

theorem run_word_iff {w : List Char} (hw : w ≠ []) (hall : ∀ c ∈ w, isWordChar c = true)
    (prev : Option Char) (suf : List Char) :
    (∃ q, q ∈ run (.seq .wordb (.seq (.lit w) (.seq .wordb .eps))) ⟨prev, suf, none⟩) ↔
      wordAt w prev suf = true := by
  have hlast := prevAfter_word w prev hw hall
  obtain ⟨c, t, rfl⟩ := List.exists_cons_of_ne_nil hw
  have hc : isWordChar c = true := hall c (List.mem_cons_self _ _)
  simp only [mem_run_seq, mem_run_eps, mem_run_wordb_iff, mem_run_lit_iff, wordAt,
    Bool.and_eq_true, Bool.not_eq_true', List.isPrefixOf_iff_prefix]
  constructor
  · rintro ⟨q, m1, ⟨rfl, h1⟩, m2, ⟨h2, -, h3⟩, m3, ⟨rfl, h4⟩, rfl⟩
    simp only at h1 h2 h3 h4
    rw [h2] at h1 ⊢
    rw [h3, hlast] at h4
    simp only [List.cons_append, List.head?_cons, isWordAt, hc] at h1
    refine ⟨⟨by simpa using h1, ⟨_, rfl⟩⟩, ?_⟩
    rw [List.drop_left']
    · simpa using h4.symm
    · rfl
  · rintro ⟨⟨h1, r, rfl⟩, h2⟩
    rw [List.drop_left' rfl] at h2
    refine ⟨⟨prevAfter prev (c :: t), r, none⟩, ⟨prev, c :: t ++ r, none⟩, ⟨rfl, ?_⟩,
      ⟨prevAfter prev (c :: t), r, none⟩, ⟨rfl, rfl, rfl⟩, _, ⟨rfl, ?_⟩, rfl⟩
    · show isWordAt prev ≠ isWordAt (c :: t ++ r).head?
      rw [h1]
      simp [isWordAt, hc]
    · simp only
      rw [hlast, h2]
      simp

theorem mem_run_lit_append : ∀ (a b : List Char) {p q : Pos},
    (∃ m, m ∈ run (.lit a) p ∧ q ∈ run (.lit b) m) ↔ q ∈ run (.lit (a ++ b)) p
  | [], b, p, q => by simp [RE.lit, mem_run_eps]
  | c :: a, b, p, q => by
    simp only [RE.lit, List.cons_append, mem_run_seq]
    constructor
    · rintro ⟨m, ⟨m1, h1, h2⟩, h3⟩
      exact ⟨m1, h1, (mem_run_lit_append a b).1 ⟨m, h2, h3⟩⟩
    · rintro ⟨m1, h1, h2⟩
      obtain ⟨m, h3, h4⟩ := (mem_run_lit_append a b).2 h2
      exact ⟨m, ⟨m1, h1, h3⟩, h4⟩

theorem mem_run_baseMacroUsage {p q : Pos} :
    q ∈ run RemoveBaseMacros.baseMacroUsage p ↔
      ∃ w ∈ RemoveBaseMacros.macroWords, q ∈ run (.seq .wordb (.seq (.lit w) (.seq .wordb .eps))) p := by
  have key : ∀ (a b : List Char) (m : Pos),
      (∃ m', m' ∈ run (.lit a) m ∧ ∃ m'', m'' ∈ run (.lit b) m' ∧ ∃ m3, m3 ∈ run .wordb m'' ∧ q = m3) ↔
      ∃ m'', m'' ∈ run (.lit (a ++ b)) m ∧ ∃ m3, m3 ∈ run .wordb m'' ∧ q = m3 := by
    intro a b m
    constructor
    · rintro ⟨m', h1, m'', h2, h3⟩
      exact ⟨m'', (mem_run_lit_append a b).1 ⟨m', h1, h2⟩, h3⟩
    · rintro ⟨m'', h1, h3⟩
      obtain ⟨m', h4, h5⟩ := (mem_run_lit_append a b).2 h1
      exact ⟨m', h4, m'', h5, h3⟩
  simp only [RemoveBaseMacros.baseMacroUsage, RemoveBaseMacros.macroWords, RE.cat, mem_run_seq,
    mem_run_alt, mem_run_eps, List.mem_cons, List.mem_singleton, List.not_mem_nil, or_false,
    exists_eq_or_imp, exists_eq_left]
  have e1 : "DISALLOW_COPY".toList = "DISALLOW_".toList ++ "COPY".toList := rfl
  have e2 : "DISALLOW_ASSIGN".toList = "DISALLOW_".toList ++ "ASSIGN".toList := rfl
  have e3 : "DISALLOW_COPY_AND_ASSIGN".toList = "DISALLOW_".toList ++ "COPY_AND_ASSIGN".toList :=
    rfl
  have e4 : "DISALLOW_IMPLICIT_CONSTRUCTORS".toList =
      "DISALLOW_".toList ++ "IMPLICIT_CONSTRUCTORS".toList := rfl
  rw [e1, e2, e3, e4]
  simp only [← key]
  constructor
  · rintro ⟨m, hm, m2, (h | ⟨m', h1, (h | h | h | h)⟩), h3⟩
    · exact Or.inl ⟨m, hm, m2, h, h3⟩
    · exact Or.inr (Or.inl ⟨m, hm, m', h1, m2, h, h3⟩)
    · exact Or.inr (Or.inr (Or.inl ⟨m, hm, m', h1, m2, h, h3⟩))
    · exact Or.inr (Or.inr (Or.inr (Or.inl ⟨m, hm, m', h1, m2, h, h3⟩)))
    · exact Or.inr (Or.inr (Or.inr (Or.inr ⟨m, hm, m', h1, m2, h, h3⟩)))
  · rintro (⟨m, hm, m2, h, h3⟩ | ⟨m, hm, m', h1, m2, h, h3⟩ | ⟨m, hm, m', h1, m2, h, h3⟩ |
      ⟨m, hm, m', h1, m2, h, h3⟩ | ⟨m, hm, m', h1, m2, h, h3⟩)
    · exact ⟨m, hm, m2, Or.inl h, h3⟩
    · exact ⟨m, hm, m2, Or.inr ⟨m', h1, Or.inl h⟩, h3⟩
    · exact ⟨m, hm, m2, Or.inr ⟨m', h1, Or.inr (Or.inl h)⟩, h3⟩
    · exact ⟨m, hm, m2, Or.inr ⟨m', h1, Or.inr (Or.inr (Or.inl h))⟩, h3⟩
    · exact ⟨m, hm, m2, Or.inr ⟨m', h1, Or.inr (Or.inr (Or.inr h))⟩, h3⟩
theorem findFrom_isSome_iff (re : RE) : ∀ (line : List Char) (prev : Option Char),
    (findFrom re prev line).isSome = true ↔
      ∃ pre suf, line = pre ++ suf ∧ ∃ q, q ∈ run re ⟨prevAfter prev pre, suf, none⟩
  | [], prev => by
    simp only [findFrom]
    constructor
    · intro h
      obtain ⟨q, hq⟩ := Option.isSome_iff_exists.1 h
      exact ⟨[], [], rfl, q, List.mem_of_mem_head? hq⟩
    · rintro ⟨pre, suf, h, q, hq⟩
      obtain ⟨rfl, rfl⟩ := List.append_eq_nil.1 h.symm
      cases hr : run re ⟨prev, [], none⟩ with
      | nil => rw [show prevAfter prev [] = prev from rfl, hr] at hq; simp at hq
      | cons a l => simp
  | c :: t, prev => by
    have ih := findFrom_isSome_iff re t (some c)
    simp only [findFrom]
    cases hr : run re ⟨prev, c :: t, none⟩ with
    | nil =>
      simp only [List.head?_nil]
      rw [ih]
      constructor
      · rintro ⟨pre, suf, h, q, hq⟩
        exact ⟨c :: pre, suf, by rw [h]; rfl, q, hq⟩
      · rintro ⟨pre, suf, h, q, hq⟩
        cases pre with
        | nil =>
          simp only [List.nil_append] at h
          subst h
          rw [show prevAfter prev [] = prev from rfl, hr] at hq
          simp at hq
        | cons d pre =>
          simp only [List.cons_append, List.cons.injEq] at h
          obtain ⟨rfl, rfl⟩ := h
          exact ⟨pre, suf, rfl, q, hq⟩
    | cons a l =>
      simp only [List.head?_cons, Option.isSome_some, true_iff]
      exact ⟨[], c :: t, rfl, a, by rw [show prevAfter prev [] = prev from rfl, hr]; simp⟩

theorem containsWord_iff (w : List Char) : ∀ (line : List Char) (prev : Option Char),
    containsWord w prev line = true ↔
      ∃ pre suf, line = pre ++ suf ∧ wordAt w (prevAfter prev pre) suf = true
  | [], prev => by
    simp only [containsWord]
    constructor
    · intro h
      exact ⟨[], [], rfl, h⟩
    · rintro ⟨pre, suf, h, hq⟩
      obtain ⟨rfl, rfl⟩ := List.append_eq_nil.1 h.symm
      exact hq
  | c :: t, prev => by
    have ih := containsWord_iff w t (some c)
    simp only [containsWord, Bool.or_eq_true]
    rw [ih]
    constructor
    · rintro (h | ⟨pre, suf, h, hq⟩)
      · exact ⟨[], c :: t, rfl, h⟩
      · exact ⟨c :: pre, suf, by rw [h]; rfl, hq⟩
    · rintro ⟨pre, suf, h, hq⟩
      cases pre with
      | nil =>
        simp only [List.nil_append] at h
        subst h
        exact Or.inl hq
      | cons d pre =>
        simp only [List.cons_append, List.cons.injEq] at h
        obtain ⟨rfl, rfl⟩ := h
        exact Or.inr ⟨pre, suf, rfl, hq⟩

theorem macroWords_word : ∀ w ∈ RemoveBaseMacros.macroWords,
    w ≠ [] ∧ ∀ c ∈ w, isWordChar c = true := by
  decide

theorem matchString_baseMacroUsage (line : List Char) :
    matchString RemoveBaseMacros.baseMacroUsage line =
      RemoveBaseMacros.macroWords.any fun w => containsWord w none line := by
  rw [Bool.eq_iff_iff]
  unfold matchString
  rw [findFrom_isSome_iff]
  simp only [List.any_eq_true, containsWord_iff, mem_run_baseMacroUsage]
  constructor
  · rintro ⟨pre, suf, h, q, w, hw, hq⟩
    exact ⟨w, hw, pre, suf, h,
      (run_word_iff (macroWords_word w hw).1 (macroWords_word w hw).2 _ _).1 ⟨q, hq⟩⟩
  · rintro ⟨w, hw, pre, suf, h, hq⟩
    obtain ⟨q, hq'⟩ :=
      (run_word_iff (macroWords_word w hw).1 (macroWords_word w hw).2 _ _).2 hq
    exact ⟨pre, suf, h, q, w, hw, hq'⟩

theorem seen_eq : ∀ (lines : List (List Char)) (a b : Bool),
    RemoveBaseMacros.seen lines (a, b) =
      (a || lines.any (fun line => decide (line = RemoveBaseMacros.includeBaseMacros)),
        b || lines.any (fun line => matchString RemoveBaseMacros.baseMacroUsage line))
  | [], a, b => by simp [RemoveBaseMacros.seen]
  | line :: more, a, b => by
    simp only [RemoveBaseMacros.seen, seen_eq more, List.any_cons, Bool.or_assoc]

theorem build_eq : ∀ lines : List (List Char),
    RemoveBaseMacros.build lines =
      (lines.filter fun line => decide (line ≠ RemoveBaseMacros.includeBaseMacros)).flatMap withNL
  | [] => rfl
  | line :: more => by
    simp only [RemoveBaseMacros.build, List.filter_cons]
    by_cases h : line = RemoveBaseMacros.includeBaseMacros
    · simp only [h, if_true, ne_eq, not_true_eq_false, decide_False, Bool.false_eq_true, if_false]
      exact build_eq more
    · simp only [h, if_false, ne_eq, not_false_eq_true, decide_True, if_true, List.flatMap_cons,
        withNL, List.append_assoc, List.singleton_append]
      rw [build_eq more]

/-! ## Examples -/

theorem detect_fatal_examples :
    detect "class CORE_EXPORT \x7b".toList = none ∧ detect "class final final".toList = none ∧
    detect "class \x7b final".toList = none ∧
    detect "class CORE_EXPORT Foo \x7b".toList = some ⟨.ClassDecl, "Foo".toList⟩ := by
  decide

theorem remove_base_macros_examples :
    RemoveBaseMacros.scan "#include \"base/macros.h\"\nint x;\n" = .ok "int x;\n" ∧
    RemoveBaseMacros.scan "#include \"base/macros.h\"\nDISALLOW_COPY(A);\n" = .ok "" ∧
    RemoveBaseMacros.scan "#include \"base/macros.h\"\nint DISALLOW_COPY_AND;\n" =
      .ok "int DISALLOW_COPY_AND;\n" ∧
    RemoveBaseMacros.scan "int x;\n" = .ok "" := by
  decide

/-! ## The indices of the planned changes -/

theorem planned_indices {lines : List (List Char)} {cs : List Change}
    (h : planChanges lines = .ok cs) :
    ∀ chg ∈ cs, (chg.Action = .Rem → chg.From < lines.length) ∧
      (chg.Action = .Add → chg.To ≤ lines.length ∧
        (chg.To = lines.length → ∃ k, processed lines k = true ∧
          firstPublicOf lines (ownerOf lines k) = some (lines.length - 1))) := by
  obtain ⟨r1, h1⟩ := planChanges_ok_pass1 h
  obtain ⟨hmm, hcs⟩ := (planChanges_ok_iff h1 cs).1 h
  have hall := (pass1_ok _ _ _ _ _ _ h1).2.1
  have hlab : ∀ o x, x ∈ labelsOf lines o → x < lines.length := by
    intro o x hx
    obtain ⟨l, hl, -⟩ := labelsOf_valid h1 o x hx
    have := (List.getElem?_eq_some_iff.1 hl).1
    rwa [classify_length hall] at this
  intro chg hchg
  rw [hcs] at hchg
  obtain ⟨j, hj, rfl | rfl⟩ := mem_flatMap_plannedAt hchg
  · exact ⟨fun _ => processed_lt hj, fun hc => by simp [remOf] at hc⟩
  · refine ⟨fun hc => by simp [addOf] at hc, fun _ => ?_⟩
    have hown := (owner_facts hj (hmm j hj)).1
    have hjn := processed_lt hj
    show targetOf lines j ≤ lines.length ∧ (targetOf lines j = lines.length → _)
    unfold targetOf
    cases hfp : firstPublicOf lines (ownerOf lines j) with
    | some fp =>
      have hlt : fp < lines.length := hlab _ fp (List.mem_of_find?_eq_some hfp)
      refine ⟨hlt, fun he => ⟨j, hj, ?_⟩⟩
      simp only at he
      rw [hfp]
      congr 1
      omega
    | none =>
      cases hfl : firstLabelOf lines (ownerOf lines j) with
      | some fl =>
        have hlt : fl < lines.length := hlab _ fl (List.mem_of_mem_head? hfl)
        exact ⟨Nat.le_of_lt hlt, fun he => absurd he (Nat.ne_of_lt hlt)⟩
      | none =>
        simp only
        exact ⟨by omega, fun he => by omega⟩

/-! ## A line that fills the buffer of the scanner -/

theorem byteLen_replicate (n : Nat) : byteLen (List.replicate n 'a') = n := by
  have h : Char.utf8Size 'a' = 1 := by decide
  unfold byteLen
  rw [List.map_replicate, List.sum_replicate, h]
  simp

theorem tooLong_of_mem {text : List Char} (seg : List Char) (h : seg ∈ splitNL text)
    (hl : maxScanTokenSize ≤ byteLen seg) : tooLong text = true := by
  unfold tooLong
  rw [List.any_eq_true]
  exact ⟨seg, h, by simpa using hl⟩

theorem scannedLines_of_fits {text : List Char} (h : tooLong text = false) :
    scannedLines text = scanLines text := by
  simp [scannedLines, h]

theorem splitNL_replicate : ∀ n : Nat, splitNL (List.replicate n 'a') = [List.replicate n 'a']
  | 0 => rfl
  | n + 1 => by
    have h : ('a' : Char) ≠ '\n' := by decide
    simp only [List.replicate_succ, splitNL, if_neg h, splitNL_replicate n]

/-- A text that is one line of `maxScanTokenSize` letters or more: `scan` returns
the scanner's error. -/
theorem scan_long_line (n : Nat) (hn : maxScanTokenSize ≤ n) :
    scan (String.mk (List.replicate n 'a')) = .err .ErrTooLong := by
  have hlong : tooLong (List.replicate n 'a') = true :=
    tooLong_of_mem (List.replicate n 'a') (by rw [splitNL_replicate]; simp)
      (by rw [byteLen_replicate]; exact hn)
  have hnil : scannedLines (List.replicate n 'a') = [] := by
    have hlt : ¬ byteLen (List.replicate n 'a') < maxScanTokenSize := by
      rw [byteLen_replicate]
      omega
    simp only [scannedLines, hlong, if_true, splitNL_replicate, List.takeWhile_cons, hlt,
      decide_False, Bool.false_eq_true, if_false, List.map_nil]
  rw [scan_of_tooLong hlong]
  show (pass1 (scannedLines (List.replicate n 'a')) 0 [] initState).bind _ = _
  rw [hnil]
  rfl

theorem tooLong_of_long_line (n : Nat) (hn : maxScanTokenSize ≤ n) (pre : List (List Char))
    (hpre : ∀ p ∈ pre, '\n' ∉ p) :
    tooLong ((pre ++ [List.replicate n 'a']).flatMap withNL) = true := by
  refine tooLong_of_mem (List.replicate n 'a') ?_ (by rw [byteLen_replicate]; exact hn)
  rw [splitNL_flatMap]
  · simp
  · intro p hp
    rcases List.mem_append.1 hp with h | h
    · exact hpre p h
    · simp only [List.mem_singleton] at h
      subst h
      simp

theorem dropCR_replicate (n : Nat) : dropCR (List.replicate n 'a') = List.replicate n 'a' := by
  cases n with
  | zero => rfl
  | succ m =>
    refine dropCR_of_endsWith (c := 'a') ⟨List.replicate m 'a', ?_⟩ (by decide)
    exact List.replicate_succ' _ _

theorem containsWord_mem {w : List Char} {line : List Char} {prev : Option Char}
    (h : containsWord w prev line = true) : ∀ c ∈ w, c ∈ line := by
  obtain ⟨pre, suf, rfl, hw⟩ := (containsWord_iff w line prev).1 h
  simp only [wordAt, Bool.and_eq_true, List.isPrefixOf_iff_prefix] at hw
  intro c hc
  exact List.mem_append_right _ (hw.1.2.subset hc)

/-! ## The scan of remove_base_macros -/

theorem rbm_scan_of_tooLong {r : String} (hlong : tooLong r.toList = true) :
    RemoveBaseMacros.scan r = .err .ErrTooLong := by
  unfold RemoveBaseMacros.scan
  simp only [hlong, Bool.or_true, if_true]

theorem rbm_scan_of_fits {r : String} (hfit : tooLong r.toList = false) :
    RemoveBaseMacros.scan r = .ok (String.mk
      (if RemoveBaseMacros.includeBaseMacros ∈ scanLines r.toList ∧
          ∀ line ∈ scanLines r.toList, ∀ w ∈ RemoveBaseMacros.macroWords,
            containsWord w none line = false
        then ((scanLines r.toList).filter fun line =>
          decide (line ≠ RemoveBaseMacros.includeBaseMacros)).flatMap withNL
        else [])) := by
  unfold RemoveBaseMacros.scan
  rw [scannedLines_of_fits hfit]
  generalize scanLines r.toList = L
  rw [seen_eq, build_eq]
  have e1 : (L.any fun line => decide (line = RemoveBaseMacros.includeBaseMacros)) = true ↔
      RemoveBaseMacros.includeBaseMacros ∈ L := by
    simp only [List.any_eq_true, decide_eq_true_eq]
    exact ⟨fun ⟨x, hx, he⟩ => he ▸ hx, fun h => ⟨_, h, rfl⟩⟩
  have e2 : (L.any fun line => matchString RemoveBaseMacros.baseMacroUsage line) = false ↔
      ∀ line ∈ L, ∀ w ∈ RemoveBaseMacros.macroWords, containsWord w none line = false := by
    simp only [List.any_eq_false, matchString_baseMacroUsage, List.any_eq_true, not_exists,
      not_and, Bool.not_eq_true]
  simp only [hfit, Bool.false_or, Bool.or_false, Bool.false_eq_true, if_false]
  by_cases h1 : RemoveBaseMacros.includeBaseMacros ∈ L
  · by_cases h2 : ∀ line ∈ L, ∀ w ∈ RemoveBaseMacros.macroWords, containsWord w none line = false
    · simp only [if_pos (And.intro h1 h2), e1.2 h1, e2.2 h2, Bool.not_true, Bool.or_false,
        Bool.false_eq_true, if_false]
    · have h3 : (L.any fun line => matchString RemoveBaseMacros.baseMacroUsage line) = true := by
        rw [← Bool.not_eq_false]
        exact fun h => h2 (e2.1 h)
      simp only [if_neg (fun h : _ ∧ _ => h2 h.2), h3, Bool.or_true, if_true]
  · have h3 : (L.any fun line => decide (line = RemoveBaseMacros.includeBaseMacros)) = false := by
      rw [← Bool.not_eq_true]
      exact fun h => h1 (e1.1 h)
    simp only [if_neg (fun h : _ ∧ _ => h1 h.1), h3, Bool.not_false, Bool.true_or, if_true]

/-- The directive and a line of `n` letters, `n` at least `maxScanTokenSize`:
the claim's condition holds of the lines, and `scan` of remove_base_macros
returns the scanner's error. -/
theorem remove_base_macros_of_long (n : Nat) (hn : maxScanTokenSize ≤ n) :
    RemoveBaseMacros.includeBaseMacros ∈ scanLines
      ([RemoveBaseMacros.includeBaseMacros, List.replicate n 'a'].flatMap withNL) ∧
    (∀ line ∈ scanLines
        ([RemoveBaseMacros.includeBaseMacros, List.replicate n 'a'].flatMap withNL),
      ∀ w ∈ RemoveBaseMacros.macroWords, containsWord w none line = false) ∧
    RemoveBaseMacros.scan
      (String.mk ([RemoveBaseMacros.includeBaseMacros, List.replicate n 'a'].flatMap withNL))
      = .err .ErrTooLong := by
  have hnl : ∀ p ∈ [RemoveBaseMacros.includeBaseMacros, List.replicate n 'a'], '\n' ∉ p := by
    intro p hp
    simp only [List.mem_cons, List.mem_singleton, List.not_mem_nil, or_false] at hp
    rcases hp with rfl | rfl
    · decide
    · simp
  have hinc : dropCR RemoveBaseMacros.includeBaseMacros = RemoveBaseMacros.includeBaseMacros := by
    decide
  have hlines : scanLines
      ([RemoveBaseMacros.includeBaseMacros, List.replicate n 'a'].flatMap withNL) =
      [RemoveBaseMacros.includeBaseMacros, List.replicate n 'a'] := by
    rw [scanLines_flatMap_withNL _ hnl]
    simp only [List.map_cons, List.map_nil, hinc, dropCR_replicate]
  rw [hlines]
  refine ⟨List.mem_cons_self _ _, ?_, ?_⟩
  · intro line hline w hw
    simp only [List.mem_cons, List.mem_singleton, List.not_mem_nil, or_false] at hline
    rcases hline with rfl | rfl
    · revert w
      decide
    · rw [Bool.eq_false_iff]
      intro hc
      have hall := containsWord_mem hc
      have hex : ∀ w ∈ RemoveBaseMacros.macroWords, ∃ c ∈ w, c ≠ 'a' := by decide
      obtain ⟨c, hcw, hca⟩ := hex w hw
      exact hca (List.eq_of_mem_replicate (hall c hcw))
  · exact rbm_scan_of_tooLong
      (tooLong_of_long_line n hn [RemoveBaseMacros.includeBaseMacros] (by decide))

/-! ## Claims -/

/-- C5, as stated, fails: the input has a processed invocation whose owner has
another name (line 1, `DISALLOW_COPY(B)` inside `class A`), yet `scan` returns
no error value: `detect` aborts on the last line during the first loop. -/
theorem scan_mismatch_not_returned :
    processed (scanLines "class A \x7b\n  DISALLOW_COPY(B);\n\x7d;\nclass CORE_EXPORT \x7b".toList) 1 = true ∧
    mismatch (scanLines "class A \x7b\n  DISALLOW_COPY(B);\n\x7d;\nclass CORE_EXPORT \x7b".toList) 1 = true ∧
    scan "class A \x7b\n  DISALLOW_COPY(B);\n\x7d;\nclass CORE_EXPORT \x7b" = .fatal := by
  decide

/-- C5 (amended): on every input none of whose lines fills the buffer of the
scanner (`bufio.MaxScanTokenSize` bytes or more) and on which the first loop
finishes (`detect` classifies every line and no label line sits at depth 0),
`scan` returns an error, with the empty output, if and only if some
structurally eligible macro invocation at depth at least 2 has an owner line
`stack[d-2]` that is not a type declaration or whose type name differs from the
invocation's argument. -/
theorem scan_err_iff (r : String) (hfit : tooLong r.toList = false)
    (hfin : firstLoopFinishes (scanLines r.toList)) :
    (∃ e, scan r = .err e) ↔
      ∃ k, processed (scanLines r.toList) k = true ∧ mismatch (scanLines r.toList) k = true := by
  obtain ⟨res, h1⟩ := pass1_finishes hfin
  rw [← planChanges_err_iff h1]
  exact exists_congr fun e => scan_eq_err_iff r hfit e

theorem scan_err_iff_witness :
    (∃ e, scan "class A \x7b\n  DISALLOW_COPY(B);\n\x7d;\n" = .err e) ↔
      ∃ k, processed (scanLines "class A \x7b\n  DISALLOW_COPY(B);\n\x7d;\n".toList) k = true ∧
        mismatch (scanLines "class A \x7b\n  DISALLOW_COPY(B);\n\x7d;\n".toList) k = true :=
  scan_err_iff "class A \x7b\n  DISALLOW_COPY(B);\n\x7d;\n" (by decide) (by decide)

/-- C6, as stated, fails: the input has no macro invocation, and `scan` does not
return the empty result: `detect` aborts on the class name `CORE_EXPORT`. -/
theorem scan_macro_free_fatal :
    (∀ line ∈ scanLines "class CORE_EXPORT \x7b".toList, isMacroLine line = false) ∧
    scan "class CORE_EXPORT \x7b" = .fatal := by
  decide

/-- C6 (amended): for every input that contains no macro-invocation line, none
of whose lines fills the buffer of the scanner (`bufio.MaxScanTokenSize` bytes
or more), and on which the first loop finishes (`detect` classifies every line
and no label line sits at depth 0), `scan` returns the empty result and no
error. -/
theorem scan_macro_free (r : String) (hfit : tooLong r.toList = false)
    (hfin : firstLoopFinishes (scanLines r.toList))
    (hno : ∀ line ∈ scanLines r.toList, isMacroLine line = false) : scan r = .ok "" := by
  obtain ⟨res, h1⟩ := pass1_finishes hfin
  refine scan_of_planChanges_nil hfit ((planChanges_ok_iff h1 []).2 ⟨?_, ?_⟩)
  · intro k hp
    have hk := processed_lt hp
    have := ((processed_iff hk).1 hp).1
    rw [hno _ (List.getElem_mem hk)] at this
    cases this
  · refine (flatMap_plannedAt_nil fun k hk => ?_).symm
    rw [Bool.eq_false_iff]
    intro hp
    have := ((processed_iff hk).1 hp).1
    rw [hno _ (List.getElem_mem hk)] at this
    cases this

theorem scan_macro_free_witness : scan "class A \x7b\n public:\n  A();\n\x7d;\n" = .ok "" :=
  scan_macro_free "class A \x7b\n public:\n  A();\n\x7d;\n" (by decide) (by decide)
    (by decide)

/-- C10, as stated, fails in its last part: the only macro invocation of the
input is at depth 1, and `scan` does not return the empty result: `detect`
aborts on the class name `CORE_EXPORT`. -/
theorem scan_shallow_invocation_fatal :
    (∀ line ∈ scanLines "class CORE_EXPORT \x7b\n DISALLOW_COPY(CORE_EXPORT);\n\x7d;".toList,
      isMacroLine line = true → depth line < 2) ∧
    scan "class CORE_EXPORT \x7b\n DISALLOW_COPY(CORE_EXPORT);\n\x7d;" = .fatal := by
  decide

/-- C10 (amended): a macro-invocation line `k` at depth 0 or 1 contributes no
change (the change list is the concatenation of the changes planned line by
line, the part of line `k` is empty, and no `Rem` removes line `k`) and is not
the invocation of any error `scan` returns (an error `scan` returns is the
scanner's `bufio.ErrTooLong` or the mismatch of another, processed invocation);
and an input whose macro invocations are all at depth 0 or 1, none of whose
lines fills the buffer of the scanner (`bufio.MaxScanTokenSize` bytes or more),
and on which the first loop finishes (`detect` classifies every line and no
label line sits at depth 0), yields the empty result without error. -/
theorem scan_shallow_invocation (r : String) (k : Nat)
    (hm : (lineAt (scanLines r.toList) k).typ.isDisallow = true)
    (hd : depth ((scanLines r.toList).getD k []) < 2) :
    plannedAt (scanLines r.toList) k = [] ∧
    (∀ cs, planChanges (scanLines r.toList) = .ok cs →
      cs = (List.range (scanLines r.toList).length).flatMap (plannedAt (scanLines r.toList)) ∧
      ∀ chg ∈ cs, chg.Action = .Rem → chg.From ≠ k) ∧
    (∀ e, scan r = .err e →
      (tooLong r.toList = true ∧ e = .ErrTooLong) ∨
      (tooLong r.toList = false ∧ ∃ j, j ≠ k ∧ processed (scanLines r.toList) j = true ∧
        e = errorAt (scanLines r.toList) j)) ∧
    (tooLong r.toList = false → firstLoopFinishes (scanLines r.toList) →
      (∀ line ∈ scanLines r.toList, isMacroLine line = true → depth line < 2) →
      scan r = .ok "") := by
  have hnp : processed (scanLines r.toList) k = false := by
    rw [Bool.eq_false_iff]
    intro hp
    have := (processed_getD hp).2
    omega
  refine ⟨plannedAt_of_not_processed hnp, ?_, ?_, ?_⟩
  · intro cs hcs
    obtain ⟨res, h1⟩ := planChanges_ok_pass1 hcs
    obtain ⟨-, rfl⟩ := (planChanges_ok_iff h1 cs).1 hcs
    refine ⟨rfl, fun chg hc hrem => ?_⟩
    obtain ⟨j, hp, hj | hj⟩ := mem_flatMap_plannedAt hc
    · subst hj
      intro hjk
      simp only [remOf] at hjk
      subst hjk
      rw [hp] at hnp
      cases hnp
    · subst hj
      simp [addOf] at hrem
  · intro e he
    cases hfit : tooLong r.toList with
    | true =>
      refine Or.inl ⟨rfl, ?_⟩
      rw [scan_of_tooLong hfit] at he
      cases hp1 : pass1 (scannedLines r.toList) 0 [] initState with
      | ok a =>
        rw [hp1] at he
        simp only [Result.bind_ok, Result.err.injEq] at he
        exact he.symm
      | err e' => exact absurd hp1 (pass1_ne_err _ _ _ _ _)
      | fatal => rw [hp1] at he; cases he
      | panic => rw [hp1] at he; cases he
    | false =>
      refine Or.inr ⟨rfl, ?_⟩
      rw [scan_eq_err_iff r hfit] at he
      obtain ⟨res, h1⟩ := planChanges_err_pass1 he
      obtain ⟨j, hp, -, hj⟩ := planChanges_err_value h1 he
      refine ⟨j, ?_, hp, hj⟩
      rintro rfl
      rw [hp] at hnp
      cases hnp
  · intro hfit hfin hall
    obtain ⟨res, h1⟩ := pass1_finishes hfin
    have hnone : ∀ j, processed (scanLines r.toList) j = false := by
      intro j
      rw [Bool.eq_false_iff]
      intro hp
      have hj := processed_lt hp
      obtain ⟨hmj, -, hdj⟩ := (processed_iff hj).1 hp
      have := hall _ (List.getElem_mem hj) hmj
      omega
    refine scan_of_planChanges_nil hfit ((planChanges_ok_iff h1 []).2 ⟨?_, ?_⟩)
    · intro j hp
      rw [hnone j] at hp
      cases hp
    · exact (flatMap_plannedAt_nil fun j _ => hnone j).symm

theorem scan_shallow_invocation_witness :
    scan "class A \x7b\n DISALLOW_COPY(A);\n\x7d;\nDISALLOW_ASSIGN(B);\n" = .ok "" :=
  (scan_shallow_invocation "class A \x7b\n DISALLOW_COPY(A);\n\x7d;\nDISALLOW_ASSIGN(B);\n" 1
    (by decide) (by decide)).2.2.2 (by decide) (by decide) (by decide)

/-- C1: for every input that holds exactly one macro invocation (line `i`), which
is processed (structurally eligible, depth at least 2) and whose owner
`stack[d-2]` is a type declaration of the same name, and whose earliest recorded
label (line `p`) is named `public`, `scan` returns the input lines without the
invocation line, with the expansion lines directly after the label line, every
other line in its original order.  Well-formed is read as: no line fills the
buffer of the scanner (`bufio.MaxScanTokenSize` bytes or more), the first loop
finishes (`detect` classifies every line, no label at depth 0), the label line
is not the last line, and no line is the text of the deletion marker. -/
theorem scan_single_invocation (r : String) (i p : Nat)
    (hfit : tooLong r.toList = false)
    (hfin : firstLoopFinishes (scanLines r.toList))
    (hone : ∀ j, j < (scanLines r.toList).length →
      (lineAt (scanLines r.toList) j).typ.isDisallow = true → j = i)
    (hp : processed (scanLines r.toList) i = true)
    (hm : mismatch (scanLines r.toList) i = false)
    (hlab : firstLabelOf (scanLines r.toList) (ownerOf (scanLines r.toList) i) = some p)
    (hpub : (lineAt (scanLines r.toList) p).Data = "public".toList)
    (hnext : p + 1 < (scanLines r.toList).length)
    (hsent : ∀ line ∈ scanLines r.toList, line ≠ remSentinel) :
    scan r = .ok (String.mk
      ((List.range (p + 1)).flatMap
          (fun j => if j = i then [] else withNL ((scanLines r.toList).getD j [])) ++
        withNL (replacements (lineAt (scanLines r.toList) i).typ
          (lineAt (scanLines r.toList) i).Data
          (List.replicate (depth ((scanLines r.toList).getD i [])) ' ')) ++
        (List.range' (p + 1) ((scanLines r.toList).length - (p + 1))).flatMap
          (fun j => if j = i then [] else withNL ((scanLines r.toList).getD j [])))) := by
  obtain ⟨res, h1⟩ := pass1_finishes hfin
  generalize hL : scanLines r.toList = L at *
  have hi := processed_lt hp
  have honly : ∀ j, processed L j = true → j = i :=
    fun j hpj => hone j (processed_lt hpj) (processed_getD hpj).1
  have hfp : firstPublicOf L (ownerOf L i) = some p := by
    unfold firstLabelOf at hlab
    unfold firstPublicOf
    cases hl : labelsOf L (ownerOf L i) with
    | nil => rw [hl] at hlab; cases hlab
    | cons x xs =>
      rw [hl] at hlab
      simp only [List.head?_cons, Option.some.injEq] at hlab
      subst hlab
      simp [List.find?_cons, hpub]
  have hadd : addOf L i = ⟨.Add, 0, p + 1,
      replacements (lineAt L i).typ (lineAt L i).Data (List.replicate (depth (L.getD i [])) ' ')⟩ := by
    simp [addOf, targetOf, hfp, addData]
  have hcs : (List.range L.length).flatMap (plannedAt L) = [remOf i, addOf L i] := by
    rw [planned_split L hi]
    have hA : (List.range i).flatMap (plannedAt L) = [] := by
      rw [List.flatMap_eq_nil_iff]
      intro j hj
      refine plannedAt_of_not_processed ?_
      rw [Bool.eq_false_iff]
      intro hpj
      have := honly j hpj
      have := List.mem_range.1 hj
      omega
    have hB : (List.range' (i + 1) (L.length - i - 1)).flatMap (plannedAt L) = [] := by
      rw [List.flatMap_eq_nil_iff]
      intro j hj
      refine plannedAt_of_not_processed ?_
      rw [Bool.eq_false_iff]
      intro hpj
      have := honly j hpj
      have := (List.mem_range'_1.1 hj).1
      omega
    simp [hA, hB, plannedAt, hp]
  have hplan : planChanges L = .ok [remOf i, addOf L i] := by
    rw [planChanges_ok_iff h1]
    refine ⟨fun j hpj => ?_, hcs.symm⟩
    rw [honly j hpj]
    exact hm
  subst hL
  rw [scan_of_changes hfit hplan (by simp) (by
    intro chg hc
    simp only [List.mem_cons, List.mem_singleton, List.not_mem_nil, or_false] at hc
    rcases hc with rfl | rfl
    · exact hi
    · rw [hadd]; exact hnext)]
  congr 2
  rw [render_cells_eq, ← flatMap_insert_at hnext]
  refine flatMap_congr' fun j hj => ?_
  have hjn := List.mem_range.1 hj
  have hcur : (scanLines r.toList).getD j [] ≠ remSentinel := by
    apply hsent
    rw [List.getD_eq_getElem?_getD, List.getElem?_eq_getElem hjn]
    exact List.getElem_mem hjn
  obtain ⟨hdis, hd2⟩ := processed_getD hp
  obtain ⟨u, hu⟩ := replacements_head (lineAt (scanLines r.toList) i).Data hdis
    (show 1 ≤ depth ((scanLines r.toList).getD i []) by omega)
  have hne1 := cons_space_ne_remSentinel u
  have hne2 := cons_space_ne_remSentinel (u ++ '\n' :: (scanLines r.toList).getD j [])
  simp only [cell, Change.target, remOf, hadd, cellStep, hu]
  generalize (scanLines r.toList).getD j [] = cur at hcur hne2 ⊢
  by_cases hji : j = i <;> by_cases hjp : j = p + 1
  · subst hji
    simp [← hjp, block, hne1, withNL]
  · subst hji
    have : ¬ p + 1 = j := fun h => hjp h.symm
    simp [this, hjp, block]
  · subst hjp
    have : ¬ i = p + 1 := fun h => hji h.symm
    simp [this, hcur, block, hne2, withNL, hji]
  · have h3 : ¬ i = j := fun h => hji h.symm
    have h4 : ¬ p + 1 = j := fun h => hjp h.symm
    simp [h3, h4, hji, hjp, block, hcur]

theorem scan_single_invocation_witness :
    scan ("class Widget \x7b\n public:\n  Widget();\n private:\n" ++
        "  DISALLOW_COPY_AND_ASSIGN(Widget);\n\x7d;\n") =
      .ok ("class Widget \x7b\n public:\n  Widget(const Widget&) = delete;\n" ++
        "  Widget& operator=(const Widget&) = delete;\n  Widget();\n private:\n\x7d;\n") :=
  (scan_single_invocation ("class Widget \x7b\n public:\n  Widget();\n private:\n" ++
      "  DISALLOW_COPY_AND_ASSIGN(Widget);\n\x7d;\n") 4 1
    (by decide) (by decide) (by decide) (by decide) (by decide) (by decide) (by decide)
    (by decide) (by decide)).trans (by decide)

/-- C2 fails on this input: both invocations are processed and the change list
holds the `Add` of the copy constructor (To = 3), but that line is marked as
removed afterwards by the `Rem` of the second invocation, so the expansion of
`DISALLOW_COPY(A)` is missing from the output. -/
theorem scan_discards_insert :
    planChanges (scanLines
        "class A \x7b\n  DISALLOW_COPY(A);\n public:\n  DISALLOW_ASSIGN(A);\n\x7d;\n".toList) =
      .ok [remOf 1, ⟨.Add, 0, 3, "  A(const A&) = delete;".toList⟩,
           remOf 3, ⟨.Add, 0, 3, "  A& operator=(const A&) = delete;".toList⟩] ∧
    scan "class A \x7b\n  DISALLOW_COPY(A);\n public:\n  DISALLOW_ASSIGN(A);\n\x7d;\n" =
      .ok "class A \x7b\n public:\n  A& operator=(const A&) = delete;\n\x7d;\n" := by
  decide

/-- C3, as stated, fails: in the first input the invocation of line 1 is skipped
as a continuation (depth 4 under a stack of length 1); the inserted lines make
it structurally eligible in the output, and `scan` of the output returns a
mismatch error.  In the second input the last line is `public:` followed by a
carriage return, which is no label; read again it is a label at depth 0, and
`scan` of the output ends in a panic. -/
theorem scan_not_idempotent :
    scan "class A \x7b\n    DISALLOW_COPY(X);\n  DISALLOW_COPY(A);\n\x7d;\n" =
      .ok "class A \x7b\n public:\n  A(const A&) = delete;\n    DISALLOW_COPY(X);\n\x7d;\n" ∧
    scan "class A \x7b\n public:\n  A(const A&) = delete;\n    DISALLOW_COPY(X);\n\x7d;\n" =
      .err (.mismatches ⟨.DisallowCopy, "X".toList⟩ 4 ⟨.Unrelated, []⟩ 3) ∧
    scan "class A \x7b\n  DISALLOW_COPY(A);\n\x7d;\npublic:\r\r\n" =
      .ok "class A \x7b\n public:\n  A(const A&) = delete;\n\x7d;\npublic:\r\n" ∧
    scan "class A \x7b\n public:\n  A(const A&) = delete;\n\x7d;\npublic:\r\n" = .panic := by
  decide

/-- C3 (amended): for every input on which `scan` succeeds with a non-empty
output `out`, in which no line ends in a carriage return after scanning and
every macro invocation at depth 2 or more is structurally eligible (none is
skipped as a continuation line), and no line of `out` fills the buffer of the
scanner (`bufio.MaxScanTokenSize` bytes or more), `scan` on `out` succeeds and
returns the empty no-changes result. -/
theorem scan_idempotent (r out : String) (h : scan r = .ok out) (hne : out ≠ "")
    (hfit : tooLong out.toList = false)
    (hcr : ∀ line ∈ scanLines r.toList, dropCR line = line)
    (hcont : ∀ j, j < (scanLines r.toList).length →
      (lineAt (scanLines r.toList) j).typ.isDisallow = true →
      2 ≤ depth ((scanLines r.toList).getD j []) → processed (scanLines r.toList) j = true) :
    scan out = .ok "" := by
  obtain ⟨cs, hcs, -, -, hout⟩ := scan_ok_nonempty h hne
  obtain ⟨res, h1⟩ := planChanges_ok_pass1 hcs
  obtain ⟨hnm, hcseq⟩ := (planChanges_ok_iff h1 cs).1 hcs
  have hfin := pass1_ok_finishes _ _ _ _ _ h1
  obtain ⟨ps, hps, hkept⟩ := render_cells_kept (scanLines r.toList)
  have hfacts := fun p hp => kept_facts hfin hnm (scanLines_no_nl _) hcr hcont (hkept p hp)
  have hlines : scanLines out.toList = ps := by
    rw [hout, hcseq, hps, scanLines_flatMap_withNL ps fun p hp => (hfacts p hp).1]
    have : ps.map dropCR = ps.map id := List.map_congr_left fun p hp => (hfacts p hp).2.1
    rw [this, List.map_id]
  refine scan_of_shallow hfit ?_ ?_
  · rw [hlines]
    exact fun p hp => ⟨(hfacts p hp).2.2.1, (hfacts p hp).2.2.2.1⟩
  · rw [hlines]
    exact fun p hp => (hfacts p hp).2.2.2.2

theorem scan_idempotent_witness :
    scan ("class Widget \x7b\n public:\n  Widget(const Widget&) = delete;\n" ++
      "  Widget& operator=(const Widget&) = delete;\n  Widget();\n private:\n\x7d;\n") = .ok "" :=
  scan_idempotent ("class Widget \x7b\n public:\n  Widget();\n private:\n" ++
      "  DISALLOW_COPY_AND_ASSIGN(Widget);\n\x7d;\n")
    ("class Widget \x7b\n public:\n  Widget(const Widget&) = delete;\n" ++
      "  Widget& operator=(const Widget&) = delete;\n  Widget();\n private:\n\x7d;\n")
    (by decide) (by decide) (by decide) (by decide) (by decide)

/-- C4, as stated, fails: line 3 of the input is the text `!!!REM!!!`, no change
targets it (the changes target lines 2 and 1), and it is missing from the
output. -/
theorem scan_drops_marker_line :
    (scanLines "class A \x7b\n private:\n  DISALLOW_COPY(A);\n!!!REM!!!\n\x7d;\n".toList).getD 3 [] =
      "!!!REM!!!".toList ∧
    planChanges (scanLines
        "class A \x7b\n private:\n  DISALLOW_COPY(A);\n!!!REM!!!\n\x7d;\n".toList) =
      .ok [remOf 2, ⟨.Add, 0, 1, " public:\n  A(const A&) = delete;".toList⟩] ∧
    scan "class A \x7b\n private:\n  DISALLOW_COPY(A);\n!!!REM!!!\n\x7d;\n" =
      .ok "class A \x7b\n public:\n  A(const A&) = delete;\n private:\n\x7d;\n" := by
  decide

/-- C4 (amended): when `scan` returns a non-empty output, the output is the
concatenation, in line order, of one block per input line, and the block of
every line that no change targets and whose text is not the deletion marker is
that line, verbatim, followed by one newline. -/
theorem scan_preserves_untouched (r out : String) (h : scan r = .ok out) (hne : out ≠ "") :
    ∃ (cs : List Change) (blocks : List (List Char)), planChanges (scanLines r.toList) = .ok cs ∧
      blocks.length = (scanLines r.toList).length ∧
      out.toList = blocks.flatten ∧
      ∀ j, j < (scanLines r.toList).length → (∀ chg ∈ cs, chg.target ≠ j) →
        (scanLines r.toList).getD j [] ≠ remSentinel →
        blocks[j]? = some (withNL ((scanLines r.toList).getD j [])) := by
  obtain ⟨cs, hcs, -, -, hout⟩ := scan_ok_nonempty h hne
  refine ⟨cs, (cells cs (scanLines r.toList)).map block, hcs, by simp [cells_length], ?_, ?_⟩
  · rw [hout, render_eq_blocks]
  · intro j hj hun hsent
    rw [List.getElem?_map, cells_getElem? cs _ hj, cell_untouched j cs _ hun]
    simp only [Option.map_some', block, if_neg hsent]

theorem scan_preserves_untouched_witness :
    ∃ (cs : List Change) (blocks : List (List Char)), planChanges (scanLines
        "class A \x7b\n private:\n  DISALLOW_COPY(A);\n\x7d;\n".toList) = .ok cs ∧
      blocks.length = (scanLines "class A \x7b\n private:\n  DISALLOW_COPY(A);\n\x7d;\n".toList).length ∧
      "class A \x7b\n public:\n  A(const A&) = delete;\n private:\n\x7d;\n".toList = blocks.flatten ∧
      ∀ j, j < (scanLines "class A \x7b\n private:\n  DISALLOW_COPY(A);\n\x7d;\n".toList).length →
        (∀ chg ∈ cs, chg.target ≠ j) →
        (scanLines "class A \x7b\n private:\n  DISALLOW_COPY(A);\n\x7d;\n".toList).getD j [] ≠
          remSentinel →
        blocks[j]? = some (withNL
          ((scanLines "class A \x7b\n private:\n  DISALLOW_COPY(A);\n\x7d;\n".toList).getD j [])) :=
  scan_preserves_untouched "class A \x7b\n private:\n  DISALLOW_COPY(A);\n\x7d;\n"
    "class A \x7b\n public:\n  A(const A&) = delete;\n private:\n\x7d;\n" (by decide) (by decide)

/-- C9, as stated, fails on its own witness shape: the `Add` of the copy
constructor is emitted before the `Add` of the assignment operator, both for
line 2, and the output has the assignment operator first. -/
theorem scan_inserts_last_first :
    planChanges (scanLines
        "class A \x7b\n public:\n  A();\n  DISALLOW_COPY(A);\n  DISALLOW_ASSIGN(A);\n\x7d;\n".toList) =
      .ok [remOf 3, ⟨.Add, 0, 2, "  A(const A&) = delete;".toList⟩,
           remOf 4, ⟨.Add, 0, 2, "  A& operator=(const A&) = delete;".toList⟩] ∧
    scan "class A \x7b\n public:\n  A();\n  DISALLOW_COPY(A);\n  DISALLOW_ASSIGN(A);\n\x7d;\n" =
      .ok ("class A \x7b\n public:\n  A& operator=(const A&) = delete;\n" ++
        "  A(const A&) = delete;\n  A();\n\x7d;\n") := by
  decide

/-- C9 (amended): when `scan` returns a non-empty output, for every line `N`
that no `Rem` targets and whose text is not the deletion marker, the texts of
the `Add` changes that target `N` stand in the output in reverse emission order
(the text emitted last comes first), each followed by a newline, all of them
directly before the original content of line `N`, and the run starts at a line
start. -/
theorem scan_inserts_order (r out : String) (h : scan r = .ok out) (hne : out ≠ "") :
    ∃ cs, planChanges (scanLines r.toList) = .ok cs ∧
      ∀ N, N < (scanLines r.toList).length →
        (∀ chg ∈ cs, chg.Action = .Rem → chg.From ≠ N) →
        (scanLines r.toList).getD N [] ≠ remSentinel →
        ∃ pre post, (pre = [] ∨ pre.getLast? = some '\n') ∧
          out.toList = pre ++ ((insertsTo N cs).reverse.flatMap withNL ++
            withNL ((scanLines r.toList).getD N [])) ++ post := by
  obtain ⟨cs, hcs, -, -, hout⟩ := scan_ok_nonempty h hne
  refine ⟨cs, hcs, fun N hN hrem hsent => ?_⟩
  obtain ⟨hcell, hcne⟩ := cell_no_rem N cs _ hrem hsent
  refine ⟨render ((cells cs (scanLines r.toList)).take N),
    render ((cells cs (scanLines r.toList)).drop (N + 1)), render_ends _, ?_⟩
  rw [hout, render_cells_split cs _ hN]
  simp only [block, if_neg hcne]
  rw [hcell]
  simp only [withNL, List.append_assoc]

theorem scan_inserts_order_witness :
    ∃ cs, planChanges (scanLines
        "class A \x7b\n public:\n  A();\n  DISALLOW_COPY(A);\n  DISALLOW_ASSIGN(A);\n\x7d;\n".toList) =
        .ok cs ∧
      ∀ N, N < (scanLines
          "class A \x7b\n public:\n  A();\n  DISALLOW_COPY(A);\n  DISALLOW_ASSIGN(A);\n\x7d;\n".toList).length →
        (∀ chg ∈ cs, chg.Action = .Rem → chg.From ≠ N) →
        (scanLines
          "class A \x7b\n public:\n  A();\n  DISALLOW_COPY(A);\n  DISALLOW_ASSIGN(A);\n\x7d;\n".toList).getD
            N [] ≠ remSentinel →
        ∃ pre post, (pre = [] ∨ pre.getLast? = some '\n') ∧
          ("class A \x7b\n public:\n  A& operator=(const A&) = delete;\n" ++
            "  A(const A&) = delete;\n  A();\n\x7d;\n").toList =
          pre ++ ((insertsTo N cs).reverse.flatMap withNL ++ withNL ((scanLines
            "class A \x7b\n public:\n  A();\n  DISALLOW_COPY(A);\n  DISALLOW_ASSIGN(A);\n\x7d;\n".toList).getD
              N [])) ++ post :=
  scan_inserts_order
    "class A \x7b\n public:\n  A();\n  DISALLOW_COPY(A);\n  DISALLOW_ASSIGN(A);\n\x7d;\n"
    ("class A \x7b\n public:\n  A& operator=(const A&) = delete;\n" ++
      "  A(const A&) = delete;\n  A();\n\x7d;\n") (by decide) (by decide)

/-- C7, as stated, fails: both invocations are processed and the class has no
recorded label; the declaration line is followed by a `public:` line and the
expansion of the second invocation, and the expansion of the first invocation
(`DISALLOW_COPY`, line 1) comes only after a second `public:` line. -/
theorem scan_two_in_unlabelled_class :
    processed (scanLines
      "class A \x7b\n  DISALLOW_COPY(A);\n  DISALLOW_ASSIGN(A);\n\x7d;\n".toList) 1 = true ∧
    labelsOf (scanLines
      "class A \x7b\n  DISALLOW_COPY(A);\n  DISALLOW_ASSIGN(A);\n\x7d;\n".toList) 0 = [] ∧
    ownerOf (scanLines
      "class A \x7b\n  DISALLOW_COPY(A);\n  DISALLOW_ASSIGN(A);\n\x7d;\n".toList) 1 = 0 ∧
    scan "class A \x7b\n  DISALLOW_COPY(A);\n  DISALLOW_ASSIGN(A);\n\x7d;\n" =
      .ok ("class A \x7b\n public:\n  A& operator=(const A&) = delete;\n" ++
        " public:\n  A(const A&) = delete;\n\x7d;\n") := by
  decide

/-- C7 (amended): when `scan` returns a non-empty output, for every processed
macro invocation `k` whose enclosing type has no recorded label and after which
no processed invocation inserts at the same line (`owner + 1`), the output
holds the type's declaration line, directly followed by a synthesized `public:`
line (indented by the invocation's depth less one), directly followed by the
expansion lines of invocation `k`; the run starts at a line start. -/
theorem scan_public_after_decl (r out : String) (h : scan r = .ok out) (hne : out ≠ "")
    (k : Nat) (hp : processed (scanLines r.toList) k = true)
    (hlab : labelsOf (scanLines r.toList) (ownerOf (scanLines r.toList) k) = [])
    (hlast : ∀ j, k < j → processed (scanLines r.toList) j = true →
      targetOf (scanLines r.toList) j ≠ ownerOf (scanLines r.toList) k + 1) :
    ∃ pre post, (pre = [] ∨ pre.getLast? = some '\n') ∧
      out.toList =
        pre ++ withNL ((scanLines r.toList).getD (ownerOf (scanLines r.toList) k) []) ++
          withNL (List.replicate (depth ((scanLines r.toList).getD k []) - 1) ' ' ++
            "public:".toList) ++
          withNL (replacements (lineAt (scanLines r.toList) k).typ
            (lineAt (scanLines r.toList) k).Data
            (List.replicate (depth ((scanLines r.toList).getD k [])) ' ')) ++ post := by
  obtain ⟨cs, hcs, -, -, hout⟩ := scan_ok_nonempty h hne
  obtain ⟨res, h1⟩ := planChanges_ok_pass1 hcs
  obtain ⟨hnm, hcseq⟩ := (planChanges_ok_iff h1 cs).1 hcs
  generalize hL : scanLines r.toList = L at *
  have hk := processed_lt hp
  obtain ⟨hok, hcd, -⟩ := owner_facts hp (hnm k hp)
  generalize ho : ownerOf L k = o at *
  have ho1 : o + 1 < L.length := by omega
  have hnd : (lineAt L o).typ.isDisallow = false := by rw [hcd]; rfl
  have hso : L.getD o [] ≠ remSentinel := ne_remSentinel_of_typ (by rw [hcd]; decide)
  obtain ⟨hco, hcone⟩ := cell_no_rem o cs _ (by rw [hcseq]; exact no_rem_of_typ hnd) hso
  have htk : targetOf L k = o + 1 := by simp [targetOf, firstPublicOf, firstLabelOf, ho, hlab]
  have hfp : firstPublicOf L o = none := by simp [firstPublicOf, hlab]
  have hdata : (addOf L k).Data = addData (lineAt L k) (depth (L.getD k [])) true := by
    simp [addOf, ho, hfp]
  obtain ⟨hdis, hd2⟩ := processed_getD hp
  have hB : ∀ chg ∈ (List.range' (k + 1) (L.length - k - 1)).flatMap (plannedAt L),
      chg.target ≠ o + 1 := by
    intro chg hc
    obtain ⟨j, hkj, hpj, hj | hj⟩ := mem_planned_after hc
    · subst hj
      simp only [Change.target, remOf]
      omega
    · subst hj
      simp only [Change.target, addOf]
      exact hlast j hkj hpj
  obtain ⟨tail, htail⟩ := block_cell_last_add (o + 1)
    (cell (o + 1) ((List.range k).flatMap (plannedAt L)) (L.getD (o + 1) []))
    (remOf k) (addOf L k) rfl (by simp [addOf, htk])
    (by rw [hdata]; exact addData_head _ _ hdis hd2)
  have hc1 : cell (o + 1) cs (L.getD (o + 1) []) =
      cell (o + 1) [remOf k, addOf L k]
        (cell (o + 1) ((List.range k).flatMap (plannedAt L)) (L.getD (o + 1) [])) := by
    rw [hcseq, planned_split L hk, cell_append, cell_append, cell_untouched _ _ _ hB]
    simp [plannedAt, hp]
  refine ⟨render ((cells cs L).take o) ++ (insertsTo o cs).reverse.flatMap withNL,
    tail ++ render ((cells cs L).drop (o + 2)),
    append_ends (render_ends _) (flatMap_withNL_ends _), ?_⟩
  rw [hout, render_cells_split2 cs L ho1, hc1, htail, hdata, withNL_addData_true]
  simp only [block, if_neg hcone]
  rw [hco]
  simp only [withNL, List.append_assoc]

theorem scan_public_after_decl_witness :
    ∃ pre post, (pre = [] ∨ pre.getLast? = some '\n') ∧
      "class A \x7b\n public:\n  A(const A&) = delete;\n\x7d;\n".toList =
        pre ++ withNL ((scanLines "class A \x7b\n  DISALLOW_COPY(A);\n\x7d;\n".toList).getD
            (ownerOf (scanLines "class A \x7b\n  DISALLOW_COPY(A);\n\x7d;\n".toList) 1) []) ++
          withNL (List.replicate
            (depth ((scanLines "class A \x7b\n  DISALLOW_COPY(A);\n\x7d;\n".toList).getD 1 []) - 1)
            ' ' ++ "public:".toList) ++
          withNL (replacements
            (lineAt (scanLines "class A \x7b\n  DISALLOW_COPY(A);\n\x7d;\n".toList) 1).typ
            (lineAt (scanLines "class A \x7b\n  DISALLOW_COPY(A);\n\x7d;\n".toList) 1).Data
            (List.replicate
              (depth ((scanLines "class A \x7b\n  DISALLOW_COPY(A);\n\x7d;\n".toList).getD 1 []))
              ' ')) ++ post :=
  scan_public_after_decl "class A \x7b\n  DISALLOW_COPY(A);\n\x7d;\n"
    "class A \x7b\n public:\n  A(const A&) = delete;\n\x7d;\n" (by decide) (by decide) 1
    (by decide) (by decide) (fun j hj hpj => by
      have := processed_lt hpj
      have h3 : (scanLines "class A \x7b\n  DISALLOW_COPY(A);\n\x7d;\n".toList).length = 3 := by
        decide
      have hj2 : j = 2 := by omega
      subst hj2
      revert hpj
      decide)

/-- C8, as stated, fails: the label ` private:` has one leading space, and the
synthesized line of the emitted `Add` is ` public:`, with one leading space as
well: one level shallower than the invocation, not than the label. -/
theorem scan_public_label_indent :
    (scanLines "class A \x7b\n private:\n  DISALLOW_COPY(A);\n\x7d;\n".toList).getD 1 [] =
      " private:".toList ∧
    numIndent " private:".toList = 1 ∧
    planChanges (scanLines "class A \x7b\n private:\n  DISALLOW_COPY(A);\n\x7d;\n".toList) =
      .ok [remOf 2, ⟨.Add, 0, 1, " public:\n  A(const A&) = delete;".toList⟩] ∧
    numIndent " public:".toList = 1 := by
  decide

/-- C8 (amended): for every processed macro invocation `k` (depth `d`) whose
enclosing type has at least one recorded label and no label named `public`, the
emitted `Add` targets the earliest label line `fl` and its text is a
synthesized `public:` line indented by `d - 1` spaces (one level shallower than
the invocation) followed by the expansion; when `scan` returns a non-empty
output, this text stands in the output before the earliest label line,
separated from it only by the texts inserted at the same line for earlier
invocations. -/
theorem scan_public_before_label (r out : String) (h : scan r = .ok out) (hne : out ≠ "")
    (k fl : Nat) (hp : processed (scanLines r.toList) k = true)
    (hfl : firstLabelOf (scanLines r.toList) (ownerOf (scanLines r.toList) k) = some fl)
    (hnp : firstPublicOf (scanLines r.toList) (ownerOf (scanLines r.toList) k) = none) :
    addOf (scanLines r.toList) k =
      ⟨.Add, 0, fl, List.replicate (depth ((scanLines r.toList).getD k []) - 1) ' ' ++
        "public:\n".toList ++
        replacements (lineAt (scanLines r.toList) k).typ (lineAt (scanLines r.toList) k).Data
          (List.replicate (depth ((scanLines r.toList).getD k [])) ' ')⟩ ∧
    planChanges (scanLines r.toList) =
      .ok ((List.range k).flatMap (plannedAt (scanLines r.toList)) ++
        [remOf k, addOf (scanLines r.toList) k] ++
        (List.range' (k + 1) ((scanLines r.toList).length - k - 1)).flatMap
          (plannedAt (scanLines r.toList))) ∧
    ∃ pre post, (pre = [] ∨ pre.getLast? = some '\n') ∧
      out.toList =
        pre ++ withNL (addOf (scanLines r.toList) k).Data ++
          (insertsTo fl ((List.range k).flatMap (plannedAt (scanLines r.toList)))).reverse.flatMap
            withNL ++
          withNL ((scanLines r.toList).getD fl []) ++ post := by
  obtain ⟨cs, hcs, -, -, hout⟩ := scan_ok_nonempty h hne
  obtain ⟨res, h1⟩ := planChanges_ok_pass1 hcs
  obtain ⟨hnm, hcseq⟩ := (planChanges_ok_iff h1 cs).1 hcs
  generalize hL : scanLines r.toList = L at *
  have hk := processed_lt hp
  have hadd : addOf L k = ⟨.Add, 0, fl, List.replicate (depth (L.getD k []) - 1) ' ' ++
      "public:\n".toList ++
      replacements (lineAt L k).typ (lineAt L k).Data (List.replicate (depth (L.getD k [])) ' ')⟩ := by
    simp only [addOf, targetOf, hnp, hfl, Option.isNone_none, addData_true]
  have hsplit : cs = (List.range k).flatMap (plannedAt L) ++ [remOf k, addOf L k] ++
      (List.range' (k + 1) (L.length - k - 1)).flatMap (plannedAt L) := by
    rw [hcseq, planned_split L hk]
    simp [plannedAt, hp]
  refine ⟨hadd, by rw [hcs, hsplit], ?_⟩
  have hlabel : (lineAt L fl).typ = .Label := label_facts h1 (head?_mem' hfl)
  have hfln : fl < L.length := lt_of_typ (by rw [hlabel]; decide)
  have hnd : (lineAt L fl).typ.isDisallow = false := by rw [hlabel]; rfl
  have hsf : L.getD fl [] ≠ remSentinel := ne_remSentinel_of_typ (by rw [hlabel]; decide)
  obtain ⟨hcell, hcne⟩ := cell_no_rem fl cs _ (by rw [hcseq]; exact no_rem_of_typ hnd) hsf
  have hins : insertsTo fl cs = insertsTo fl ((List.range k).flatMap (plannedAt L)) ++
      (addOf L k).Data :: insertsTo fl
        ((List.range' (k + 1) (L.length - k - 1)).flatMap (plannedAt L)) := by
    rw [hsplit, insertsTo_append, insertsTo_append]
    simp [insertsTo, remOf, hadd]
  refine ⟨render ((cells cs L).take fl) ++
      (insertsTo fl ((List.range' (k + 1) (L.length - k - 1)).flatMap
        (plannedAt L))).reverse.flatMap withNL,
    render ((cells cs L).drop (fl + 1)),
    append_ends (render_ends _) (flatMap_withNL_ends _), ?_⟩
  rw [hout, render_cells_split cs L hfln]
  simp only [block, if_neg hcne]
  rw [hcell, hins]
  simp only [withNL, List.reverse_append, List.reverse_cons, List.flatMap_append,
    List.flatMap_singleton, List.flatMap_cons, List.flatMap_nil, List.append_assoc,
    List.append_nil]

theorem scan_public_before_label_witness :
    ∃ pre post, (pre = [] ∨ pre.getLast? = some '\n') ∧
      "class A \x7b\n public:\n  A(const A&) = delete;\n private:\n\x7d;\n".toList =
        pre ++ withNL (addOf (scanLines
            "class A \x7b\n private:\n  DISALLOW_COPY(A);\n\x7d;\n".toList) 2).Data ++
          (insertsTo 1 ((List.range 2).flatMap (plannedAt (scanLines
            "class A \x7b\n private:\n  DISALLOW_COPY(A);\n\x7d;\n".toList)))).reverse.flatMap
            withNL ++
          withNL ((scanLines
            "class A \x7b\n private:\n  DISALLOW_COPY(A);\n\x7d;\n".toList).getD 1 []) ++ post :=
  (scan_public_before_label "class A \x7b\n private:\n  DISALLOW_COPY(A);\n\x7d;\n"
    "class A \x7b\n public:\n  A(const A&) = delete;\n private:\n\x7d;\n" (by decide) (by decide)
    2 1 (by decide) (by decide) (by decide)).2.2

/-- C13: the expansion templates. For every type name `t` and every invocation
depth `d`, the text substituted for an invocation is made of these lines, each
behind `d` spaces and joined by newlines: for copy-only the line
`t(const t&) = delete;`, for assign-only the line
`t& operator=(const t&) = delete;`, for copy-and-assign these two lines in this
order, for implicit-constructors the line `t() = delete;` and then these two
lines. The text of an `Add` change at depth `d` is this text for the
indentation of `d` spaces, alone or behind the line `public:` at `d - 1`
spaces. -/
theorem expansion_templates (t : List Char) (d : Nat) :
    replacements .DisallowCopy t (List.replicate d ' ') =
      joinNL ([t ++ "(const ".toList ++ t ++ "&) = delete;".toList].map
        (List.replicate d ' ' ++ ·)) ∧
    replacements .DisallowAssign t (List.replicate d ' ') =
      joinNL ([t ++ "& operator=(const ".toList ++ t ++ "&) = delete;".toList].map
        (List.replicate d ' ' ++ ·)) ∧
    replacements .DisallowCopyAndAssign t (List.replicate d ' ') =
      joinNL ([t ++ "(const ".toList ++ t ++ "&) = delete;".toList,
        t ++ "& operator=(const ".toList ++ t ++ "&) = delete;".toList].map
        (List.replicate d ' ' ++ ·)) ∧
    replacements .DisallowImplicitConstructors t (List.replicate d ' ') =
      joinNL ([t ++ "() = delete;".toList,
        t ++ "(const ".toList ++ t ++ "&) = delete;".toList,
        t ++ "& operator=(const ".toList ++ t ++ "&) = delete;".toList].map
        (List.replicate d ' ' ++ ·)) ∧
    (∀ ty : LineType, addData ⟨ty, t⟩ d false = replacements ty t (List.replicate d ' ')) ∧
    (∀ ty : LineType, addData ⟨ty, t⟩ d true =
      List.replicate (d - 1) ' ' ++ "public:\n".toList ++
        replacements ty t (List.replicate d ' ')) := by
  refine ⟨?_, ?_, ?_, ?_, ?_, ?_⟩
  · simp [replacements, joinNL]
  · simp [replacements, joinNL]
  · simp [replacements, joinNL]
  · simp [replacements, joinNL]
  · intro ty
    simp [addData]
  · intro ty
    simp [addData, List.take_replicate]

/-- C14: `detect` aborts on a line exactly when the line is no preprocessor
directive, matches none of the four macro patterns, is no `enum class` line,
and the first type-declaration pattern that matches it captures `CORE_EXPORT`,
`final` or an opening brace as the type name; on every other line `detect`
returns a category. -/
theorem detect_fatal_iff (line : List Char) :
    detect line = none ↔
      matchString isPreprocDirective line = false ∧ matchesMacro line = false ∧
      matchString isEnumClass line = false ∧
      ∃ m, firstClassName line = some m ∧
        (m = "CORE_EXPORT".toList ∨ m = "final".toList ∨ m = "\x7b".toList) := by
  unfold detect firstClassName matchesMacro badClassName
  cases hp : matchString isPreprocDirective line <;> simp only [if_true, Bool.false_eq_true, if_false]
  swap
  · simp
  cases h1 : findStringSubmatch isDisallowCopy line <;> simp
  cases h2 : findStringSubmatch isDisallowAssign line <;> simp
  cases h3 : findStringSubmatch isDisallowCopyAndAssign line <;> simp
  cases h4 : findStringSubmatch isDisallowImplicitCtors line <;> simp
  cases he : matchString isEnumClass line <;> simp
  cases h5 : findStringSubmatch extractClassDeclFinal line <;> simp
  · cases h6 : findStringSubmatch extractClassDecl line <;> simp
    · cases findStringSubmatch extractLabel line <;> split_ifs <;> simp
    · tauto
  · tauto

/-- C17: the update rule of the indentation tracker. For a line numbered `L`
that `detect` classifies as `l`, and a stack `s`: an Empty line or a directive
leaves the stack unchanged; any other line of depth `d` (its count of leading
spaces) leaves it unchanged when `d >= |s| + 2`, and otherwise yields a stack of
length `d + 1` that agrees with `s` below `min |s| d` and holds `L` in every
slot from `min |s| d` to `d`. Both loops of `scan` update their stack by this
rule. -/
theorem tracker_update_rule (s : List Nat) (line : List Char) (L : Nat) (l : Line)
    (hd : detect line = some l) :
    ((l.typ = .Empty ∨ l.typ = .PreprocessorDirective) → visit s line L = s) ∧
    (l.typ ≠ .Empty → l.typ ≠ .PreprocessorDirective →
      ((s.length : Int) + 2 ≤ numIndent line → visit s line L = s) ∧
      (numIndent line < (s.length : Int) + 2 →
        (numIndent line = (depth line : Int)) ∧
        (visit s line L).length = depth line + 1 ∧
        (∀ i, i < min s.length (depth line) → (visit s line L)[i]? = s[i]?) ∧
        (∀ i, min s.length (depth line) ≤ i → i ≤ depth line →
          (visit s line L)[i]? = some L))) ∧
    (∀ (ls : List Line) (st : scannerState) (r : List Line × scannerState),
      body1 line L ls st = .ok r → r.2.startOfIndent = visit st.startOfIndent line L) ∧
    (∀ (ls : List Line) (st st' : scannerState), ls[L]? = some l →
      body2 ls line L st = .ok st' → st'.startOfIndent = visit st.startOfIndent line L) := by
  refine ⟨?_, ?_, ?_, ?_⟩
  · intro h
    have : eligible s line = false := by
      simp only [eligible, hd]
      rcases h with h | h <;> simp [h]
    simp [visit, this]
  · intro h1 h2
    have hn : 0 ≤ numIndent line := numIndent_nonneg_of_detect hd h1
    constructor
    · intro h
      have : eligible s line = false := by
        simp only [eligible, hd]
        simp [h1, h2]
        omega
      simp [visit, this]
    · intro h
      have he : eligible s line = true := by
        simp only [eligible, hd]
        simp [h1, h2, h]
      have hdep : (depth line : Int) = numIndent line := by
        unfold depth
        omega
      have hlt : depth line < s.length + 2 := by omega
      simp only [visit, he, if_true]
      exact ⟨hdep.symm, track_spec s (depth line) L hlt⟩
  · intro ls st r h
    obtain ⟨ls', st'⟩ := r
    obtain ⟨_, _, _, hst, _⟩ := body1_ok h
    exact hst
  · intro ls st st' hi h
    rw [body2_eq hi hd] at h
    obtain ⟨cs, _, h2⟩ := Result.bind_eq_ok h
    simp only [Result.ok.injEq] at h2
    rw [← h2]

theorem tracker_update_rule_witness :
    visit [0, 4] "   int x;".toList 7 = [0, 4, 7, 7] :=
  List.ext_getElem? fun i => by
    have h := ((tracker_update_rule [0, 4] "   int x;".toList 7 ⟨.Unrelated, []⟩ (by decide)).2.1
      (by decide) (by decide)).2 (by decide)
    have hdep : depth "   int x;".toList = 3 := by decide
    rw [hdep] at h
    rcases Nat.lt_or_ge i 2 with hi | hi
    · rw [h.2.2.1 i (by simpa using hi)]
      interval_cases i <;> rfl
    · rcases Nat.lt_or_ge 3 i with h3 | h3
      · rw [List.getElem?_eq_none (by rw [h.2.1]; omega), List.getElem?_eq_none (by simp; omega)]
      · rw [h.2.2.2 i (by simpa using hi) h3]
        interval_cases i <;> rfl

/-- C16, counterexample: on the two lines `int x;` and `int y;` both loops end
with the stack `[1]`: slot 0 holds line number 1, not 0. -/
theorem stack_slot0_overwritten :
    stackAfterPass1 (scanLines "int x;\nint y;\n".toList) = some [1] ∧
    stackAfterPass2 (scanLines "int x;\nint y;\n".toList) = some [1] := by
  decide

/-- C16, amended: whenever either loop of `scan` has gone through the first `k`
lines of the input, slot 0 of its indentation stack holds the number of the
latest of these lines that sits at depth 0 and is neither Empty nor a
preprocessor directive, and 0 when there is no such line. -/
theorem stack_slot0 (lines : List (List Char)) (k : Nat) :
    (stackBefore lines k)[0]? = some (lastTopLevel (lines.take k) 0 0) ∧
    (∀ r : List Line × scannerState, pass1 (lines.take k) 0 [] initState = .ok r →
      r.2.startOfIndent = stackBefore lines k) ∧
    (∀ (labels : Nat → List Nat) (st : scannerState),
      (∀ line ∈ lines, (detect line).isSome = true) →
      pass2 (classify lines) (lines.take k) 0
        { startOfIndent := [0], labels := labels, changes := [] } = .ok st →
      st.startOfIndent = stackBefore lines k) := by
  refine ⟨stackOf_slot0 _ 0 [0] 0 rfl, ?_, ?_⟩
  · rintro ⟨ls, st⟩ h
    exact (pass1_ok _ _ _ _ _ _ h).2.2.1
  · intro labels st hall h
    refine pass2_ok_stack _ _ _ _ _ h fun i hi => ?_
    have hi' : i < lines.length := by
      simp only [List.length_take] at hi
      omega
    have hik : i < k := by
      simp only [List.length_take] at hi
      omega
    have hd := lineAt_detect hi' hall
    refine ⟨lineAt lines i, ?_, ?_⟩
    · rw [Nat.zero_add, classify_getElem? hall, List.getElem?_eq_getElem hi']
      rw [← hd, List.getD_eq_getElem _ _ hi']
      rfl
    · rw [← hd, List.getD_eq_getElem _ _ hi', List.getD_eq_getElem _ _ hi, List.getElem_take]

/-- C19, failing input: a class whose `public:` label is the last line and
comes after the invocation. The planner finishes with a `Rem` of line 1 and an
`Add` whose target is line 3 (`firstPublic + 1`) of an input of 3 lines, and
applying the changes indexes the lines out of range: `scan` panics. -/
theorem scan_insert_past_end :
    planChanges (scanLines "class A \x7b\n  DISALLOW_COPY(A);\n public:".toList) =
      .ok [{ Action := .Rem, From := 1, To := 0, Data := [] },
           { Action := .Add, From := 0, To := 3, Data := "  A(const A&) = delete;".toList }] ∧
    (scanLines "class A \x7b\n  DISALLOW_COPY(A);\n public:".toList).length = 3 ∧
    scan "class A \x7b\n  DISALLOW_COPY(A);\n public:" = .panic := by
  decide

/-- C20: when the planner emits a non-empty change list and `scan` returns a
text, the text is not empty: the last change is an `Add`, the line it targets
does not hold the marker after all changes, and this line is written out. -/
theorem scan_changes_nonempty (r : String) (cs : List Change) (out : String)
    (hcs : planChanges (scanLines r.toList) = .ok cs) (hne : cs ≠ [])
    (h : scan r = .ok out) :
    out ≠ "" ∧
    ∃ (A : List Change) (add : Change), cs = A ++ [add] ∧ add.Action = .Add ∧
      add.To < (scanLines r.toList).length ∧
      cell add.To cs ((scanLines r.toList).getD add.To []) ≠ remSentinel := by
  generalize hL : scanLines r.toList = L at hcs h
  obtain ⟨r1, h1⟩ := planChanges_ok_pass1 hcs
  have hpl := ((planChanges_ok_iff h1 cs).1 hcs).2
  obtain ⟨A, k, hp, hk⟩ := planned_last L (List.range L.length) (by rw [← hpl]; exact hne)
  rw [← hpl] at hk
  have hout : ∃ lines', applyChanges cs L = .ok lines' ∧ out = String.mk (render lines') := by
    rw [scan_of_fits (scan_ok_fits h), hL] at h
    obtain ⟨o, h2, h3⟩ := Result.bind_eq_ok h
    simp only [Result.ok.injEq] at h3
    unfold scanOfLines at h2
    rw [hcs] at h2
    simp only [Result.bind_ok] at h2
    rw [if_neg (by simpa using hne)] at h2
    obtain ⟨lines', h4, h5⟩ := Result.bind_eq_ok h2
    simp only [Result.ok.injEq] at h5
    exact ⟨lines', h4, by rw [← h3, ← h5]⟩
  obtain ⟨lines', happ, hout'⟩ := hout
  have htg := applyChanges_targets cs L lines' happ (addOf L k) (by rw [hk]; simp)
  have hto : (addOf L k).To < L.length := htg
  have hlines := applyChanges_eq_cells happ
  have hdata : ∃ u, (addOf L k).Data = ' ' :: u := by
    have hk' := processed_lt hp
    have hpi := (processed_iff hk').1 hp
    refine addData_head _ _ ?_ ?_
    · have hall := (pass1_ok _ _ _ _ _ _ h1).2.1
      have hd := lineAt_detect hk' hall
      have hm := hpi.1
      rw [← List.getD_eq_getElem _ [] hk'] at hm
      unfold isMacroLine at hm
      rw [hd] at hm
      exact hm
    · rw [List.getD_eq_getElem _ _ hk']
      exact hpi.2.2
  obtain ⟨tail, hb⟩ := block_cell_last_add (addOf L k).To
    (cell (addOf L k).To A (L.getD (addOf L k).To [])) (remOf k) (addOf L k) rfl rfl hdata
  have hcell : cell (addOf L k).To cs (L.getD (addOf L k).To []) =
      cell (addOf L k).To [remOf k, addOf L k] (cell (addOf L k).To A (L.getD (addOf L k).To [])) := by
    rw [hk, cell_append]
  rw [← hcell] at hb
  have hbne : block (cell (addOf L k).To cs (L.getD (addOf L k).To [])) ≠ [] := by
    rw [hb]
    simp [withNL]
  refine ⟨?_, A ++ [remOf k], addOf L k, by rw [hk]; simp, rfl, hto, ?_⟩
  · rw [hout', hlines]
    intro hc
    have := congrArg String.toList hc
    exact render_cells_ne_nil hto hbne (by simpa using this)
  · intro hc
    apply hbne
    unfold block
    rw [if_pos hc]

theorem scan_changes_nonempty_witness :
    scan "class A \x7b\n  DISALLOW_COPY(A);\n\x7d;\n" ≠ .ok "" :=
  fun hc => (scan_changes_nonempty "class A \x7b\n  DISALLOW_COPY(A);\n\x7d;\n"
    [{ Action := .Rem, From := 1, To := 0, Data := [] },
     { Action := .Add, From := 0, To := 1, Data := " public:\n  A(const A&) = delete;".toList }]
    "" (by decide) (by decide) hc).1 rfl

/-- C18, counterexample: on the line `class CORE_EXPORT` with an opening brace,
`detect` aborts and the first loop does not finish. -/
theorem pass1_fatal :
    pass1Outcome (scanLines "class CORE_EXPORT \x7b\n".toList) = .fatal := by
  decide

/-- C18, amended: on every input on which `detect` aborts on no line and no
label line sits at depth 0, the first loop finishes, stores the category of
every line, and its registry maps each line `o` to exactly the increasing
sequence of the line numbers `x` such that line `x` is a structurally eligible
visibility label at depth `d >= 1`, `o` is the stack entry at depth `d - 1`
right after the tracker update for `x`, and line `o` is classified as a type
declaration. -/
theorem pass1_registry (lines : List (List Char)) (h : firstLoopFinishes lines) :
    ∃ ls st, pass1 lines 0 [] initState = .ok (ls, st) ∧ ls = classify lines ∧
      ∀ o, st.labels o = (List.range lines.length).filter (recordedUnder lines o) := by
  obtain ⟨ls, st, h1, h2⟩ := pass1_labels_eq lines h lines [] rfl (fun _ => []) []
  refine ⟨ls, st, h1, ?_, fun o => ?_⟩
  · simpa using (pass1_ok _ _ _ _ _ _ h1).1
  · rw [h2 o, List.range_eq_range']
    rfl

theorem pass1_registry_witness :
    ∃ ls st, pass1 (scanLines "class A \x7b\n public:\n\x7d;\n".toList) 0 [] initState =
        .ok (ls, st) ∧ st.labels 0 = [1] ∧ st.labels 1 = [] := by
  obtain ⟨ls, st, h1, -, h2⟩ :=
    pass1_registry (scanLines "class A \x7b\n public:\n\x7d;\n".toList) (by decide)
  exact ⟨ls, st, h1, by rw [h2]; decide, by rw [h2]; decide⟩

/-- C12: for every `n` and every argument `t` without a closing parenthesis,
the line made of `n` spaces and `DISALLOW_COPY(t);`, `DISALLOW_ASSIGN(t);`,
`DISALLOW_COPY_AND_ASSIGN(t);` or `DISALLOW_IMPLICIT_CONSTRUCTORS(t);` is
classified as its own kind with payload `t`, and the copy-only pattern, tried
first, does not match a copy-and-assign line. -/
theorem detect_invocation (n : Nat) (t : List Char) (ht : ∀ c ∈ t, c ≠ ')') :
    detect (List.replicate n ' ' ++ "DISALLOW_COPY(".toList ++ t ++ ");".toList) =
      some ⟨.DisallowCopy, t⟩ ∧
    detect (List.replicate n ' ' ++ "DISALLOW_ASSIGN(".toList ++ t ++ ");".toList) =
      some ⟨.DisallowAssign, t⟩ ∧
    detect (List.replicate n ' ' ++ "DISALLOW_COPY_AND_ASSIGN(".toList ++ t ++ ");".toList) =
      some ⟨.DisallowCopyAndAssign, t⟩ ∧
    detect (List.replicate n ' ' ++ "DISALLOW_IMPLICIT_CONSTRUCTORS(".toList ++ t ++
      ");".toList) = some ⟨.DisallowImplicitConstructors, t⟩ ∧
    findStringSubmatch isDisallowCopy
      (List.replicate n ' ' ++ "DISALLOW_COPY_AND_ASSIGN(".toList ++ t ++ ");".toList) = none := by
  have hp : ∀ rest : List Char,
      matchString isPreprocDirective (List.replicate n ' ' ++ 'D' :: rest) = false :=
    matchString_preproc_none (by decide) (by decide) n
  have c1 := findStringSubmatch_macroPattern "DISALLOW_COPY(".toList rfl
    (by decide) t n ht
  have c2 := findStringSubmatch_macroPattern "DISALLOW_ASSIGN(".toList rfl
    (by decide) t n ht
  have c3 := findStringSubmatch_macroPattern "DISALLOW_COPY_AND_ASSIGN(".toList rfl
    (by decide) t n ht
  have c4 := findStringSubmatch_macroPattern "DISALLOW_IMPLICIT_CONSTRUCTORS(".toList rfl (by decide) t n ht
  have n12 := findStringSubmatch_macroPattern_none "DISALLOW_ASSIGN(".toList
    "DISALLOW_COPY(".toList rfl (by decide) rfl (by decide)
    (by intro x y h; simp at h) t n
  have n13 := findStringSubmatch_macroPattern_none "DISALLOW_COPY_AND_ASSIGN(".toList
    "DISALLOW_COPY(".toList rfl (by decide) rfl (by decide)
    (by intro x y h; simp at h) t n
  have n14 := findStringSubmatch_macroPattern_none "DISALLOW_IMPLICIT_CONSTRUCTORS(".toList
    "DISALLOW_COPY(".toList rfl (by decide) rfl (by decide)
    (by intro x y h; simp at h) t n
  have n23 := findStringSubmatch_macroPattern_none "DISALLOW_COPY_AND_ASSIGN(".toList
    "DISALLOW_ASSIGN(".toList rfl (by decide) rfl (by decide)
    (by intro x y h; simp at h) t n
  have n24 := findStringSubmatch_macroPattern_none "DISALLOW_IMPLICIT_CONSTRUCTORS(".toList
    "DISALLOW_ASSIGN(".toList rfl (by decide) rfl (by decide)
    (by intro x y h; simp at h) t n
  have n34 := findStringSubmatch_macroPattern_none "DISALLOW_IMPLICIT_CONSTRUCTORS(".toList
    "DISALLOW_COPY_AND_ASSIGN(".toList rfl (by decide) rfl (by decide)
    (by intro x y h; simp at h) t n
  simp only [List.append_assoc]
  refine ⟨?_, ?_, ?_, ?_, n13⟩
  · have hp1 : matchString isPreprocDirective
        (List.replicate n ' ' ++ ("DISALLOW_COPY(".toList ++ (t ++ ");".toList))) = false := hp _
    unfold detect
    rw [hp1]
    unfold isDisallowCopy
    rw [c1]
    rfl
  · have hp1 : matchString isPreprocDirective
        (List.replicate n ' ' ++ ("DISALLOW_ASSIGN(".toList ++ (t ++ ");".toList))) = false := hp _
    unfold detect
    rw [hp1]
    unfold isDisallowCopy isDisallowAssign
    rw [n12, c2]
    rfl
  · have hp1 : matchString isPreprocDirective
        (List.replicate n ' ' ++ ("DISALLOW_COPY_AND_ASSIGN(".toList ++ (t ++ ");".toList))) =
        false := hp _
    unfold detect
    rw [hp1]
    unfold isDisallowCopy isDisallowAssign isDisallowCopyAndAssign
    rw [n13, n23, c3]
    rfl
  · have hp1 : matchString isPreprocDirective
        (List.replicate n ' ' ++ ("DISALLOW_IMPLICIT_CONSTRUCTORS(".toList ++
          (t ++ ");".toList))) = false := hp _
    unfold detect
    rw [hp1]
    unfold isDisallowCopy isDisallowAssign isDisallowCopyAndAssign isDisallowImplicitCtors
    rw [n14, n24, n34, c4]
    rfl

theorem detect_invocation_witness :
    detect "  DISALLOW_COPY_AND_ASSIGN(Foo);".toList =
      some ⟨.DisallowCopyAndAssign, "Foo".toList⟩ :=
  (detect_invocation 2 "Foo".toList (by decide)).2.2.1

/-- C15, as stated, fails: the input is the line `#include "base/macros.h"`
and a line of 65536 letters `a`, each with its newline. Some line is the
directive and no line contains one of the five names, yet the result is not the
second line: the scanner stops with `bufio.ErrTooLong` and `scan` returns the
empty text with that error. -/
theorem remove_base_macros_long_line :
    RemoveBaseMacros.includeBaseMacros ∈ scanLines
      ([RemoveBaseMacros.includeBaseMacros, List.replicate 65536 'a'].flatMap withNL) ∧
    (∀ line ∈ scanLines
        ([RemoveBaseMacros.includeBaseMacros, List.replicate 65536 'a'].flatMap withNL),
      ∀ w ∈ RemoveBaseMacros.macroWords, containsWord w none line = false) ∧
    RemoveBaseMacros.scan
      (String.mk ([RemoveBaseMacros.includeBaseMacros, List.replicate 65536 'a'].flatMap withNL))
      = .err .ErrTooLong :=
  remove_base_macros_of_long 65536 (by decide)

/-- C15 (amended): `scan` of remove_base_macros. On an input none of whose
lines fills the buffer of the scanner (`bufio.MaxScanTokenSize` bytes or
more): when some line is exactly `#include "base/macros.h"` and no line
contains one of `ignore_result`, `DISALLOW_COPY`, `DISALLOW_ASSIGN`,
`DISALLOW_COPY_AND_ASSIGN`, `DISALLOW_IMPLICIT_CONSTRUCTORS` as a whole word,
the result is the input lines other than that directive, in order, each
followed by one newline; otherwise the result is empty. On an input with a line
that fills the buffer the result is empty and the error `bufio.ErrTooLong` is
returned. -/
theorem remove_base_macros_scan (r : String) :
    RemoveBaseMacros.scan r =
      if tooLong r.toList = true then .err .ErrTooLong
      else .ok (String.mk
        (if RemoveBaseMacros.includeBaseMacros ∈ scanLines r.toList ∧
            ∀ line ∈ scanLines r.toList, ∀ w ∈ RemoveBaseMacros.macroWords,
              containsWord w none line = false
          then ((scanLines r.toList).filter fun line =>
            decide (line ≠ RemoveBaseMacros.includeBaseMacros)).flatMap withNL
          else [])) := by
  cases h : tooLong r.toList with
  | true => simpa using rbm_scan_of_tooLong h
  | false => simpa using rbm_scan_of_fits h

/-- C11, failing input: the line `class Foo : public Base` with an opening
brace is classified as Unrelated, with or without a namespace prefix, while the
same line with `final` is a type declaration carrying `Foo`; an invocation in
such a class makes `scan` return the mismatch error. -/
theorem detect_base_class_suffix :
    detect "class Foo : public Base \x7b".toList = some ⟨.Unrelated, []⟩ ∧
    detect "class a::b::Foo : public Base \x7b".toList = some ⟨.Unrelated, []⟩ ∧
    detect "class Foo final : public Base \x7b".toList = some ⟨.ClassDecl, "Foo".toList⟩ ∧
    detect "class a::b::Foo final : public Base \x7b".toList =
      some ⟨.ClassDecl, "Foo".toList⟩ ∧
    detect "class Foo".toList = some ⟨.ClassDecl, "Foo".toList⟩ ∧
    detect "class a::b::Foo".toList = some ⟨.ClassDecl, "Foo".toList⟩ ∧
    detect "class Foo final".toList = some ⟨.ClassDecl, "Foo".toList⟩ ∧
    scan "class Foo : public Base \x7b\n  DISALLOW_COPY(Foo);\n\x7d;\n" =
      .err (.mismatches ⟨.DisallowCopy, "Foo".toList⟩ 2 ⟨.Unrelated, []⟩ 1) := by
  decide

end RemoveDisallow
